import Mathlib

/-!
# Verification of the `rope` skip-list library

A shallow embedding of the Go package `rope` (files `types.go`, `util.go` and the
main implementation file).  Nodes live in a store `nodes : List (RopeNode Id T)`;
Go pointers are indices into that store, the embedded `head` field of `ropeImpl`
is index `0`, and a `nil` node pointer is `Option.none`.  The Go map `byId` is an
association list with distinct keys.  Loops whose termination depends on the heap
shape take explicit fuel and return `Option`, `none` modelling divergence; the
fuel passed at top level (`nodes.length + 1`-ish) is generous enough for every
well-formed state.  Go `int` is `Int`.  The Go zero value of an identifier is
`(default : Id)` and the `Sizer` capability of the payload type `T` is an explicit
function `lenOf : T → Int` (a `T` that does not implement `Sizer` is modelled by
`lenOf = fun _ => 0`, matching the Go code's fallback).
-/

set_option autoImplicit false

namespace Thorgo

variable {Id T : Type}

/-- `poolSize` from the Go source. -/
def poolSize : Nat := 8

/-- `DataLen` is a pair type (`types.go`). -/
structure DataLen (T : Type) where
  Len : Int
  Data : T
deriving DecidableEq

/-- `ropeLevel`: one level of a node; `next` may be nil, `prev` is always set.
Node pointers are indices into the node store. -/
structure RopeLevel where
  next : Option Nat
  prev : Nat
  subtreesize : Int
deriving DecidableEq

instance : Inhabited RopeLevel := ⟨⟨none, 0, 0⟩⟩

/-- `iterRef`: a reference-counted iterator cursor parked on a node. -/
structure IterRef where
  count : Int
  node : Nat
deriving DecidableEq

/-- `ropeNode` from `types.go`. -/
structure RopeNode (Id T : Type) where
  id : Id
  dl : DataLen T
  levels : List RopeLevel
  iterRef : Option IterRef
deriving DecidableEq

/-- `Removed` record (`types.go`): identifier, length and payload of a deleted entry. -/
structure Removed (Id T : Type) where
  id : Id
  len : Int
  data : T
deriving DecidableEq

/-- `Info` record (`types.go`): `Id`, `Next`, `Prev` and the embedded `DataLen`. -/
structure Info (Id T : Type) where
  id : Id
  next : Id
  prev : Id
  dl : DataLen T
deriving DecidableEq

/-- The Go zero value of `Info` (all fields zero). -/
instance [Inhabited Id] [Inhabited T] : Inhabited (Info Id T) :=
  ⟨⟨default, default, default, ⟨0, default⟩⟩⟩

/-- `ropeImpl` from `types.go`.  `nodes` is the node store; index `0` is the
embedded `head` node.  `byId` is the identifier index, `nodePool` the free list
(of store indices). -/
structure RopeImpl (Id T : Type) where
  nodes : List (RopeNode Id T)
  len : Int
  byId : List (Id × Nat)
  height : Nat
  nodePool : List Nat
  lastId : Id
deriving DecidableEq

instance [Inhabited Id] [Inhabited T] : Inhabited (RopeNode Id T) :=
  ⟨⟨default, ⟨0, default⟩, [], none⟩⟩

/-- The three error values of the package. -/
inductive RopeErr where
  | badAnchor
  | idExists
  | negativeLength
deriving DecidableEq

/-! ## Small helpers over the node store and the identifier index -/

/-- Association-list lookup (the Go map read `r.byId[id]`, `nil` = `none`). -/
def lookupId [DecidableEq Id] : List (Id × Nat) → Id → Option Nat
  | [], _ => none
  | p :: ps, i => if p.1 = i then some p.2 else lookupId ps i

/-- Association-list key removal (the Go `delete(r.byId, id)`). -/
def eraseKey [DecidableEq Id] : List (Id × Nat) → Id → List (Id × Nat)
  | [], _ => []
  | p :: ps, i => if p.1 = i then eraseKey ps i else p :: eraseKey ps i

/-- Association-list insert (the Go map write `r.byId[id] = n`). -/
def insertKey [DecidableEq Id] (l : List (Id × Nat)) (i : Id) (n : Nat) : List (Id × Nat) :=
  (i, n) :: eraseKey l i

/-- Update the element at an index of a list (identity when out of range). -/
def updAt {α : Type} : Nat → (α → α) → List α → List α
  | _, _, [] => []
  | 0, f, x :: xs => f x :: xs
  | n + 1, f, x :: xs => x :: updAt n f xs

/-- Read a node from the store; reading through a dangling index yields the
default node (the Go program would crash there, which no reachable state does). -/
def getNode [Inhabited Id] [Inhabited T] (r : RopeImpl Id T) (i : Nat) : RopeNode Id T :=
  (r.nodes.get? i).getD default

/-- Read level `j` of a node (`node.levels[j]`). -/
def nodeLevel (n : RopeNode Id T) (j : Nat) : RopeLevel :=
  (n.levels.get? j).getD default

/-- The level-0 forward pointer of the node at index `i`. -/
def next0 [Inhabited Id] [Inhabited T] (r : RopeImpl Id T) (i : Nat) : Option Nat :=
  (nodeLevel (getNode r i) 0).next

/-- The Go zero value of a `ropeSeek` slot: nil node (modelled by the head
index) and zero accumulated length. -/
def seekZero : Nat × Int := (0, 0)

/-- `chainSeg r a l`: `l` is the consecutive run of level-0 successors starting
right after the node at index `a`. -/
def chainSeg [Inhabited Id] [Inhabited T] (r : RopeImpl Id T) : Nat → List Nat → Prop
  | _, [] => True
  | a, e :: rest => next0 r a = some e ∧ chainSeg r e rest

/-- Observational agreement of two states on everything the delete-phase
argument tracks: scalars, store size, and every node's identifier, payload,
level count and level-0 forward pointer. -/
def ObsEq [Inhabited Id] [Inhabited T] (s s' : RopeImpl Id T) : Prop :=
  s'.len = s.len ∧ s'.byId = s.byId ∧ s'.lastId = s.lastId ∧ s'.height = s.height ∧
  s'.nodes.length = s.nodes.length ∧
  (∀ m, next0 s' m = next0 s m) ∧
  (∀ m, (getNode s' m).id = (getNode s m).id) ∧
  (∀ m, (getNode s' m).dl = (getNode s m).dl) ∧
  (∀ m, (getNode s' m).levels.length = (getNode s m).levels.length)

/-- Apply a function to the node at index `i` of the store. -/
def updNode (r : RopeImpl Id T) (i : Nat) (f : RopeNode Id T → RopeNode Id T) :
    RopeImpl Id T :=
  { r with nodes := updAt i f r.nodes }

/-- Apply a function to level `j` of the node at index `i`. -/
def updLevel (r : RopeImpl Id T) (i j : Nat) (f : RopeLevel → RopeLevel) : RopeImpl Id T :=
  updNode r i fun n => { n with levels := updAt j f n.levels }

/-! ## Constructors -/

/-- `NewRoot` builds a new rope whose zero entry carries `root` as payload. -/
def NewRoot [Inhabited Id] (root : T) : RopeImpl Id T :=
  { nodes := [{ id := default, dl := { Len := 0, Data := root },
                levels := [{ next := none, prev := 0, subtreesize := 0 }], iterRef := none }],
    len := 0,
    byId := [(default, 0)],
    height := 1,
    nodePool := [],
    lastId := default }

/-- `New` builds a new rope with a zero-value root payload. -/
def New [Inhabited Id] [Inhabited T] : RopeImpl Id T :=
  NewRoot (default : T)

/-! ## Read operations -/

/-- `Len`: the total sum of the parts of the rope. -/
def Len (r : RopeImpl Id T) : Int := r.len

/-- `Count`: the number of non-zero entries. -/
def Count (r : RopeImpl Id T) : Int := (r.byId.length : Int) - 1

/-- `LastId`: the last identifier in the rope. -/
def LastId (r : RopeImpl Id T) : Id := r.lastId

/-- The climb loop of `Find`: from a node, repeatedly jump to `prev` at the
current node's top level and add that predecessor's `subtreesize` at that level,
until the head is reached. -/
def findLoop [Inhabited Id] [Inhabited T] (r : RopeImpl Id T) :
    Nat → Nat → Int → Option Int
  | 0, _, _ => none
  | fuel + 1, node, pos =>
    if node = 0 then some pos
    else
      let link := (getNode r node).levels.length - 1
      let node' := (nodeLevel (getNode r node) link).prev
      findLoop r fuel node' (pos + (nodeLevel (getNode r node') link).subtreesize)

/-- `Find`: the position after the given identifier, `-1` if absent.
`none` models divergence of the climb loop (impossible in well-formed states). -/
def Find [DecidableEq Id] [Inhabited Id] [Inhabited T] (r : RopeImpl Id T) (id : Id) :
    Option Int :=
  match lookupId r.byId id with
  | none => some (-1)
  | some e =>
    (findLoop r (r.nodes.length + 1) e 0).map fun pos => pos + (getNode r e).dl.Len

/-- `Info`: O(1) information about an identifier; the zero record if absent. -/
def InfoOf [DecidableEq Id] [Inhabited Id] [Inhabited T] (r : RopeImpl Id T) (id : Id) :
    Info Id T :=
  match lookupId r.byId id with
  | none => default
  | some ni =>
    let node := getNode r ni
    let ol := nodeLevel node 0
    { id := node.id,
      prev := (getNode r ol.prev).id,
      next := match ol.next with
              | none => default
              | some nx => (getNode r nx).id,
      dl := node.dl }

/-! ## `ByPosition` -/

/-- The inner traversal of `ByPosition` at one level: advance while
`position > subtreesize`; the returned flag is `true` when the Go code hits
`continue outer` (a nil `next` after subtracting). -/
def bpSeekLevel [Inhabited Id] [Inhabited T] (r : RopeImpl Id T) (h : Nat) :
    Nat → Nat → Int → Option (Bool × Nat × Int)
  | 0, _, _ => none
  | fuel + 1, e, position =>
    let lv := nodeLevel (getNode r e) h
    if position > lv.subtreesize then
      match lv.next with
      | none => some (true, e, position - lv.subtreesize)
      | some nx => bpSeekLevel r h fuel nx (position - lv.subtreesize)
    else some (false, e, position)

/-- The bias loop of `ByPosition` at one level: while biasing to the end, move
forward while the next link's `subtreesize` is at most `position`. -/
def bpBiasLevel [Inhabited Id] [Inhabited T] (r : RopeImpl Id T) (h : Nat) :
    Nat → Nat → Int → Option (Nat × Int)
  | 0, _, _ => none
  | fuel + 1, e, position =>
    let lv := nodeLevel (getNode r e) h
    match lv.next with
    | some nx =>
      if position ≥ lv.subtreesize then bpBiasLevel r h fuel nx (position - lv.subtreesize)
      else some (e, position)
    | none => some (e, position)

/-- The top-down descent of `ByPosition`; `hs` counts the levels still to visit,
so the current level index is `hs - 1`. -/
def bpOuter [Inhabited Id] [Inhabited T] (r : RopeImpl Id T) (biasAfter : Bool) :
    Nat → Nat → Int → Option (Nat × Int)
  | 0, e, position => some (e, position)
  | hs + 1, e, position => do
    let (cont, e1, p1) ← bpSeekLevel r hs (r.nodes.length + 1) e position
    if cont then bpOuter r biasAfter hs e1 p1
    else if biasAfter then do
      let (e2, p2) ← bpBiasLevel r hs (r.nodes.length + 1) e1 p1
      bpOuter r biasAfter hs e2 p2
    else bpOuter r biasAfter hs e1 p1

/-- `ByPosition`: the identifier at a position, and the offset from the end of
that identifier. -/
def ByPosition [DecidableEq Id] [Inhabited Id] [Inhabited T] (r : RopeImpl Id T)
    (position : Int) (biasAfter : Bool) : Option (Id × Int) :=
  if position < 0 ∨ (biasAfter = false ∧ position = 0) then some (default, 0)
  else if position > r.len ∨ (biasAfter = true ∧ position = r.len) then some (r.lastId, 0)
  else
    (bpOuter r biasAfter r.height 0 position).map fun p =>
      ((getNode r p.1).id, (getNode r p.1).dl.Len - p.2)

/-! ## `Between` -/

/-- `Between`: the distance between the positions after two identifiers;
`ok = false` when either is absent. -/
def Between [DecidableEq Id] [Inhabited Id] [Inhabited T] (r : RopeImpl Id T)
    (afterA afterB : Id) : Option (Int × Bool) := do
  let posA ← Find r afterA
  if posA < 0 then pure (0, false)
  else do
    let posB ← Find r afterB
    if posB < 0 then pure (0, false)
    else pure (posB - posA, true)

/-! ## The splice engine -/

/-- Write `v` into positions `[lo, hi)` of a list (out-of-range positions are
ignored; the Go code would crash on them, which no reachable state does). -/
def setRange {α : Type} (v : α) : Nat → Nat → List α → List α
  | _, _, [] => []
  | 0, 0, l => l
  | 0, hi + 1, _ :: xs => v :: setRange v 0 hi xs
  | _ + 1, 0, x :: xs => x :: xs
  | lo + 1, hi + 1, x :: xs => x :: setRange v lo hi xs

/-- The seek phase of `splice`: climb from the anchor along `prev` links,
recording for every level the pair (node whose level-`i` link reaches the
anchor, cumulative length from that node through the anchor).  The Go zero
value of a `ropeSeek` slot (nil node) is modelled by the head index `0`. -/
def seekLoop [Inhabited Id] [Inhabited T] (r : RopeImpl Id T) :
    Nat → List (Nat × Int) → Nat → Nat × Int → Option (List (Nat × Int) × (Nat × Int))
  | 0, _, _, _ => none
  | fuel + 1, seek, i, cs =>
    let nl := (getNode r cs.1).levels.length
    let seek1 := setRange cs i nl seek
    let i1 := max i nl
    if cs.1 = 0 ∨ i1 = r.height then some (seek1, cs)
    else
      let link := i1 - 1
      let p := (nodeLevel (getNode r cs.1) link).prev
      seekLoop r fuel seek1 i1 (p, cs.2 + (nodeLevel (getNode r p) link).subtreesize)

/-- One level `j` of the unlink work when deleting node `e` (the inner `for j`
loop of the delete phase). -/
def deleteRelinkStep [Inhabited Id] [Inhabited T] (r : RopeImpl Id T) (e : Nat)
    (seek : List (Nat × Int)) (j : Nat) : RopeImpl Id T :=
  let node := ((seek.get? j).getD seekZero).1
  let eLen := (getNode r e).dl.Len
  if j ≥ (getNode r e).levels.length then
    updLevel r node j fun l => { l with subtreesize := l.subtreesize - eLen }
  else
    let el := nodeLevel (getNode r e) j
    let r1 := updLevel r node j fun l =>
      { l with subtreesize := l.subtreesize + el.subtreesize - eLen }
    let r2 := match el.next with
      | some nx => updLevel r1 nx j fun l => { l with prev := node }
      | none => r1
    updLevel r2 node j fun l => { l with next := el.next }

/-- All levels of the unlink work when deleting node `e`. -/
def deleteRelink [Inhabited Id] [Inhabited T] (r : RopeImpl Id T) (e : Nat)
    (seek : List (Nat × Int)) : RopeImpl Id T :=
  (List.range r.height).foldl (fun s j => deleteRelinkStep s e seek j) r

/-- `returnToPool`: clear a deleted node and put it on the free list, unless the
pool is full or an iterator cursor still references the node. -/
def returnToPool [Inhabited Id] [Inhabited T] (r : RopeImpl Id T) (e : Nat) : RopeImpl Id T :=
  if r.nodePool.length = poolSize ∨ (getNode r e).iterRef.isSome then r
  else
    let r1 := updNode r e fun n =>
      { n with levels := n.levels.map fun _ => default,
               dl := { Len := 0, Data := default },
               id := default }
    { r1 with nodePool := r1.nodePool ++ [e] }

/-- The work done on the state when the delete phase removes the node `e`
(everything in one loop iteration except reading the removed record and the
stop test): retarget an attached iterator cursor, drop the identifier from the
index, decrease the total length, unlink at every level, return to the pool. -/
def deleteIterState [DecidableEq Id] [Inhabited Id] [Inhabited T] (r : RopeImpl Id T)
    (e : Nat) (seek : List (Nat × Int)) : RopeImpl Id T :=
  let en := getNode r e
  let r1 := if en.iterRef.isSome then
      updNode r e fun n =>
        { n with iterRef := n.iterRef.map fun ir => { ir with node := (nodeLevel en 0).prev } }
    else r
  let r2 := { r1 with byId := eraseKey r1.byId en.id, len := r1.len - en.dl.Len }
  returnToPool (deleteRelink r2 e seek) e

/-- The delete phase of `splice`: repeatedly unlink the level-0 successor of the
anchor, recording removed entries, until the identifier `deleteUntil` has been
deleted or the chain ends (in which case `lastId` becomes the anchor's id). -/
def deleteLoop [DecidableEq Id] [Inhabited Id] [Inhabited T] (deleteUntil : Id)
    (after : Nat) (seek : List (Nat × Int)) :
    Nat → RopeImpl Id T → List (Removed Id T) → Option (RopeImpl Id T × List (Removed Id T))
  | 0, _, _ => none
  | fuel + 1, r, removed =>
    match next0 r after with
    | none => some ({ r with lastId := (getNode r after).id }, removed)
    | some e =>
      let en := getNode r e
      let removed1 := removed ++ [⟨en.id, en.dl.Len, en.dl.Data⟩]
      let r4 := deleteIterState r e seek
      if en.id = deleteUntil then some (r4, removed1)
      else deleteLoop deleteUntil after seek fuel r4 removed1

/-- The climb to the head performed the first time the insert loop grows the
list height (`link` is fixed before the climb, as in the source). -/
def cseekClimb [Inhabited Id] [Inhabited T] (r : RopeImpl Id T) (link : Nat) :
    Nat → Nat × Int → Option (Nat × Int)
  | 0, _ => none
  | fuel + 1, cs =>
    if cs.1 = 0 then some cs
    else
      let p := (nodeLevel (getNode r cs.1) link).prev
      cseekClimb r link fuel (p, cs.2 + (nodeLevel (getNode r p) link).subtreesize)

/-- The per-level linking loop of the insert phase: for levels below the current
height splice the new node after `seek[i]`; above it, grow the head by one level. -/
def insertLevels [Inhabited Id] [Inhabited T] (seek : List (Nat × Int)) (newIdx : Nat)
    (length : Int) :
    Nat → Nat → RopeImpl Id T → Nat × Int → Option (RopeImpl Id T × (Nat × Int))
  | 0, _, r, cs => some (r, cs)
  | c + 1, i, r, cs =>
    if i < r.height then
      let n := (seek.get? i).getD seekZero
      let lv := nodeLevel (getNode r n.1) i
      let r1 := match lv.next with
        | some nx => updLevel r nx i fun l => { l with prev := newIdx }
        | none => r
      let r2 := updLevel r1 newIdx i fun _ =>
        { next := lv.next, prev := n.1, subtreesize := length + lv.subtreesize - n.2 }
      let r3 := updLevel r2 n.1 i fun l => { l with next := some newIdx, subtreesize := n.2 }
      insertLevels seek newIdx length c (i + 1) r3 cs
    else
      let link := (getNode r cs.1).levels.length - 1
      match cseekClimb r link (r.nodes.length + 1) cs with
      | none => none
      | some cs1 =>
        let r1 := updNode r 0 fun n =>
          { n with levels := n.levels ++ [{ next := some newIdx, prev := 0, subtreesize := cs1.2 }] }
        let r2 := { r1 with height := r1.height + 1 }
        let r3 := updLevel r2 newIdx i fun _ =>
          { next := none, prev := 0, subtreesize := r2.len - cs1.2 + length }
        insertLevels seek newIdx length c (i + 1) r3 cs1

/-- After the new node is linked, levels from its height up to the original list
height add the new length to the `seek` node's `subtreesize`. -/
def bumpTail [Inhabited Id] [Inhabited T] (seek : List (Nat × Int)) (length : Int)
    (ht : Nat) (r : RopeImpl Id T) : RopeImpl Id T :=
  (List.range' ht (seek.length - ht)).foldl
    (fun s i => updLevel s ((seek.get? i).getD seekZero).1 i fun l =>
      { l with subtreesize := l.subtreesize + length }) r

/-- Node acquisition for the insert phase: reuse the last pooled node or append
a fresh one (every level slot is overwritten by the linking loop, so the reused
slots are modelled as fresh default levels).  Returns the state and the new
node's index. -/
def insertAlloc [Inhabited Id] [Inhabited T] (r : RopeImpl Id T) (insertId : Id)
    (length : Int) (data : T) (ht : Nat) : RopeImpl Id T × Nat :=
  match r.nodePool.getLast? with
  | some idx =>
    (updNode { r with nodePool := r.nodePool.dropLast } idx fun n =>
      { n with id := insertId, dl := { Len := length, Data := data },
               levels := List.replicate ht default }, idx)
  | none =>
    ({ r with nodes := r.nodes ++ [{ id := insertId, dl := { Len := length, Data := data },
                                     levels := List.replicate ht default, iterRef := none }] },
     r.nodes.length)

/-- The tail of the insert phase after the linking loop: bump the `seek`
counters above the node's height, add the new length to `len`, and update
`lastId` (new id when the anchor is the head and the resulting length equals
the inserted length, i.e. the list length was zero; or when the previous
`lastId` is the anchor's id). -/
def insertFinish [DecidableEq Id] [Inhabited Id] [Inhabited T] (r2 : RopeImpl Id T) (after : Nat)
    (seek : List (Nat × Int)) (insertId : Id) (length : Int) (ht : Nat) : RopeImpl Id T :=
  let r3 := bumpTail seek length ht r2
  let r4 := { r3 with len := r3.len + length }
  if after = 0 then
    (if r4.len = length then { r4 with lastId := insertId } else r4)
  else if r4.lastId = (getNode r4 after).id then { r4 with lastId := insertId }
  else r4

/-- The insert phase of `splice`: obtain a node, index it, link it at `ht`
levels, and finish (counters, `len`, `lastId`). -/
def insertPhase [DecidableEq Id] [Inhabited Id] [Inhabited T] (r : RopeImpl Id T)
    (after : Nat) (seek : List (Nat × Int)) (cs : Nat × Int) (insertId : Id)
    (length : Int) (data : T) (ht : Nat) : Option (RopeImpl Id T) :=
  let pr := insertAlloc r insertId length data ht
  let r1 := { pr.1 with byId := insertKey pr.1.byId insertId pr.2 }
  (insertLevels seek pr.2 length ht 0 r1 cs).map fun p =>
    insertFinish p.1 after seek insertId length ht

/-- The private `splice`: seek phase, optional delete phase (with the `lastId`
fix-up), optional insert phase.  `ht` is the height drawn by `randomHeight` for
the inserted node.  Never returns an error. -/
def spliceInner [DecidableEq Id] [Inhabited Id] [Inhabited T] (r : RopeImpl Id T)
    (after : Nat) (doDelete : Bool) (deleteUntil : Id) (doInsert : Bool) (insertId : Id)
    (length : Int) (data : T) (ht : Nat) :
    Option (RopeImpl Id T × List (Removed Id T)) := do
  let (seek, cs) ← seekLoop r (r.nodes.length + r.height + 1)
      (List.replicate r.height seekZero) 0 (after, (getNode r after).dl.Len)
  let (r1, removed) ←
    if doDelete then do
      let (rd, rm) ← deleteLoop deleteUntil after seek (r.nodes.length + 1) r []
      let rd1 := if lookupId rd.byId rd.lastId = none then
          { rd with lastId := (getNode rd after).id }
        else rd
      pure (rd1, rm)
    else pure (r, ([] : List (Removed Id T)))
  let r2 ← if doInsert then insertPhase r1 after seek cs insertId length data ht
           else pure r1
  pure (r2, removed)

/-- The anchor resolution at the top of `Splice`: the indexed node, or the head
for the zero identifier, or `none` (Go: the `BadAnchor` early return). -/
def anchorOf [DecidableEq Id] [Inhabited Id] (r : RopeImpl Id T) (afterId : Id) :
    Option Nat :=
  match lookupId r.byId afterId with
  | some n => some n
  | none => if afterId = default then some 0 else none

/-- `Splice`: the public mutation primitive.  Validates the anchor, the fresh
insert identifier and the payload length before any mutation, then runs the
private `splice`. -/
def Splice [DecidableEq Id] [Inhabited Id] [Inhabited T] (lenOf : T → Int)
    (r : RopeImpl Id T) (afterId : Id) (deleteUntilId : Option Id) (insertId : Option Id)
    (data : T) (ht : Nat) :
    Option (RopeImpl Id T × List (Removed Id T) × Option RopeErr) :=
  match anchorOf r afterId with
  | none => some (r, [], some RopeErr.badAnchor)
  | some afterNode =>
    let pd : Bool × Id :=
      match deleteUntilId with
      | some du => if du ≠ afterId then (true, du) else (false, default)
      | none => (false, default)
    match insertId with
    | some iid =>
      if (lookupId r.byId iid).isSome then some (r, [], some RopeErr.idExists)
      else
        let length := lenOf data
        if length < 0 then some (r, [], some RopeErr.negativeLength)
        else (spliceInner r afterNode pd.1 pd.2 true iid length data ht).map
          fun p => (p.1, p.2, none)
    | none =>
      (spliceInner r afterNode pd.1 pd.2 false default 0 data ht).map
        fun p => (p.1, p.2, none)

/-- `Insert`: convenience wrapper around `Splice` (insert only). -/
def Insert [DecidableEq Id] [Inhabited Id] [Inhabited T] (lenOf : T → Int)
    (r : RopeImpl Id T) (afterId newId : Id) (data : T) (ht : Nat) :
    Option (RopeImpl Id T × Option RopeErr) :=
  (Splice lenOf r afterId none (some newId) data ht).map fun p => (p.1, p.2.2)

/-- `Delete`: convenience wrapper around `Splice` (delete only, zero payload). -/
def Delete [DecidableEq Id] [Inhabited Id] [Inhabited T] (lenOf : T → Int)
    (r : RopeImpl Id T) (afterId untilId : Id) (ht : Nat) :
    Option (RopeImpl Id T × List (Removed Id T) × Option RopeErr) :=
  Splice lenOf r afterId (some untilId) none (default : T) ht

/-! ## `Compare`, `Less` -/

/-- `rseekNodes`: record, for every level `i` below the current height, the
latest node at or before `curr` whose level-`i` link reaches `curr`. -/
def rseekNodes [Inhabited Id] [Inhabited T] (r : RopeImpl Id T) :
    Nat → Nat → Nat → List Nat → Option (List Nat)
  | 0, _, _, _ => none
  | fuel + 1, curr, i, target =>
    let ll := (getNode r curr).levels.length
    if r.height ≤ ll then some (setRange curr i r.height target)
    else
      let target1 := setRange curr i ll target
      let curr1 := (nodeLevel (getNode r curr) (ll - 1)).prev
      rseekNodes r fuel curr1 (max i ll) target1

/-- The upward walk of `Compare`: climb from `curr`, checking at each step
whether we stepped right into, or up into, the recorded predecessors of the
other node, or reached the head. -/
def compareWalk [Inhabited Id] [Inhabited T] (r : RopeImpl Id T) (anodes : List Nat)
    (cmp : Int) : Nat → Nat → Nat → Option Int
  | 0, _, _ => none
  | fuel + 1, curr, i =>
    let ll := (getNode r curr).levels.length
    if ∃ j ∈ List.range' i (ll - i), anodes.get? j = some curr then some cmp
    else
      let ll1 := ll - 1
      let curr1 := (nodeLevel (getNode r curr) ll1).prev
      if anodes.get? ll1 = some curr1 then some (-cmp)
      else if curr1 = 0 then some cmp
      else compareWalk r anodes cmp fuel curr1 (max i ll)

/-- `Compare`: the relative order of two identifiers; `(0, true)` for equal live
identifiers, `(0, false)` if either is absent. -/
def Compare [DecidableEq Id] [Inhabited Id] [Inhabited T] (r : RopeImpl Id T) (a b : Id) :
    Option (Int × Bool) :=
  if a = b then some (0, (lookupId r.byId a).isSome)
  else
    match lookupId r.byId a, lookupId r.byId b with
    | some ai, some bi =>
      let swap := (getNode r ai).levels.length < (getNode r bi).levels.length
      let cmp : Int := if swap then -1 else 1
      let an := if swap then bi else ai
      let bn := if swap then ai else bi
      match rseekNodes r (r.nodes.length + r.height + 1) an 0 (List.replicate r.height 0) with
      | none => none
      | some anodes =>
        (compareWalk r anodes cmp (r.nodes.length * r.height + r.height + 1) bn 1).map
          fun c => (c, true)
    | _, _ => some (0, false)

/-- `Less`: whether `a` is before `b`. -/
def Less [DecidableEq Id] [Inhabited Id] [Inhabited T] (r : RopeImpl Id T) (a b : Id) :
    Option Bool :=
  (Compare r a b).map fun p => decide (p.1 < 0)

/-! ## Iteration

`Iter` returns a Go push-iterator.  We model the complete single-pass run that
consumes it with a consumer that always continues and performs no mutation
between yields (the cursor bookkeeping of the source — attach the counted
`iterRef` before the yield, re-read it afterwards — is performed on the state
thread). -/

/-- One full run of the iterator body. -/
def iterLoop [Inhabited Id] [Inhabited T] :
    Nat → RopeImpl Id T → Nat → List (Id × DataLen T) → Option (List (Id × DataLen T))
  | 0, _, _, _ => none
  | fuel + 1, r, e, acc =>
    match next0 r e with
    | none => some acc
    | some nx =>
      let r1 := updNode r nx fun n =>
        { n with iterRef := match n.iterRef with
                            | none => some ⟨1, nx⟩
                            | some ir => some { ir with count := ir.count + 1 } }
      let en := getNode r1 nx
      let acc1 := acc ++ [(en.id, en.dl)]
      let update := ((getNode r1 nx).iterRef.map (·.node)).getD nx
      let r2 := updNode r1 nx fun n =>
        { n with iterRef := match n.iterRef with
                            | some ir => if ir.count - 1 = 0 then none
                                         else some { ir with count := ir.count - 1 }
                            | none => none }
      iterLoop fuel r2 update acc1

/-- The sequence produced by `Iter(afterId)`: empty when the identifier is
absent, otherwise the level-0 successors of its node. -/
def IterToList [DecidableEq Id] [Inhabited Id] [Inhabited T] (r : RopeImpl Id T)
    (afterId : Id) : Option (List (Id × DataLen T)) :=
  match lookupId r.byId afterId with
  | none => some []
  | some e => iterLoop (r.nodes.length + 1) r e []

/-! ## Concrete instances used by witnesses and counterexamples -/

/-- The `Sizer` capability of `String` (`s.Len()` in Go, byte length; for the
ASCII payloads used below `String.length` agrees with it). -/
def strLen : String → Int := fun s => (s.length : Int)

/-- A rope over `Nat` identifiers and `String` payloads holding the single
zero-length entry `1`. -/
def c5rope : RopeImpl Nat String :=
  ((Splice strLen (NewRoot "") 0 none (some 1) "" 1).getD (NewRoot "", [], none)).1

/-- `c5rope` with `"hello"` as entry 2 appended after entry 1. -/
def exRope : RopeImpl Nat String :=
  ((Splice strLen c5rope 1 none (some 2) "hello" 1).getD (c5rope, [], none)).1

/-- The result of deleting entries 1 and 2 of `exRope` through `Splice`
(used by a witness). -/
def c1res : RopeImpl Nat String × List (Removed Nat String) × Option RopeErr :=
  (Splice strLen exRope 0 (some 2) none "" 1).getD (exRope, [], none)

/-- The result of a concrete run of the insert phase (used by a witness). -/
def c5ins : RopeImpl Nat String :=
  (insertPhase (NewRoot "" : RopeImpl Nat String) 0 [(0, 0)] (0, 0) 1 5 "hello" 1).getD
    (NewRoot "")

/-! ## The structural invariant of reachable states -/

/-- `InvChain r L`: the store is a well-formed skip list whose level-0 order is
the head `0` followed by the run `L`: the run is a level-0 successor chain
ending in a nil pointer, indices are distinct and valid, the identifier index
is exactly the (id, index) pairing of the head and the run (up to map order),
identifiers are distinct, `len` is the sum of the entries' lengths (the head
contributing 0), and the free pool holds distinct valid indices disjoint from
the list. -/
def InvChain [DecidableEq Id] [Inhabited Id] [Inhabited T] (r : RopeImpl Id T)
    (L : List Nat) : Prop :=
  chainSeg r 0 L ∧
  next0 r (L.getLastD 0) = none ∧
  (0 :: L).Nodup ∧
  (∀ q ∈ 0 :: L, q < r.nodes.length ∧ 1 ≤ (getNode r q).levels.length) ∧
  (getNode r 0).id = default ∧
  r.byId.Perm ((0 :: L).map fun q => ((getNode r q).id, q)) ∧
  ((0 :: L).map fun q => (getNode r q).id).Nodup ∧
  r.len = ((0 :: L).map fun q => (getNode r q).dl.Len).sum ∧
  (getNode r 0).dl.Len = 0 ∧
  1 ≤ r.height ∧ 0 < r.nodes.length ∧
  r.nodePool.Nodup ∧
  (∀ p ∈ r.nodePool, p < r.nodes.length ∧ p ∉ 0 :: L)

/-- A state is well formed when some run witnesses `InvChain`. -/
def Inv [DecidableEq Id] [Inhabited Id] [Inhabited T] (r : RopeImpl Id T) : Prop :=
  ∃ L, InvChain r L

/-- The states reachable from a constructor by successful public mutations
(`Insert` and `Delete` are wrappers around `Splice`, so `Splice` transitions
cover them; the height `ht` is drawn by `randomHeight`, whose range is
`1..32`). -/
inductive Reachable [DecidableEq Id] [Inhabited Id] [Inhabited T] (lenOf : T → Int) :
    RopeImpl Id T → Prop
  | newRoot (root : T) : Reachable lenOf (NewRoot root)
  | splice (r r' : RopeImpl Id T) (afterId : Id) (du ins : Option Id) (data : T)
      (ht : Nat) (rm : List (Removed Id T)) (e : Option RopeErr) :
      Reachable lenOf r → 1 ≤ ht → ht ≤ 32 →
      Splice lenOf r afterId du ins data ht = some (r', rm, e) →
      Reachable lenOf r'

/-- `levLinked r j p acc rest`: walking the remainder `rest` of the level-0
list from the level-`j` member `p`, the level-`j` links are exactly the
sublist of level-`j` members (`next` forward, `prev` backward), and every
level-`j` member's `subtreesize` is the total length of the entries it covers
(itself and the non-members up to its level-`j` successor); `acc` is the
length accumulated so far for `p`'s span. -/
def levLinked [Inhabited Id] [Inhabited T] (r : RopeImpl Id T) (j : Nat) :
    Nat → Int → List Nat → Prop
  | p, acc, [] =>
    (nodeLevel (getNode r p) j).next = none ∧
    (nodeLevel (getNode r p) j).subtreesize = acc
  | p, acc, q :: rest =>
    if j < (getNode r q).levels.length then
      (nodeLevel (getNode r p) j).next = some q ∧
      (nodeLevel (getNode r q) j).prev = p ∧
      (nodeLevel (getNode r p) j).subtreesize = acc ∧
      levLinked r j q ((getNode r q).dl.Len) rest
    else
      levLinked r j p (acc + (getNode r q).dl.Len) rest

/-- The multi-level structure of a well-formed skip list over the level-0 run
`L`: heights are capped by the list height, the head has full height and
self-`prev` links, and every level is correctly linked with correct
subtree sizes. -/
def LevStruct [Inhabited Id] [Inhabited T] (r : RopeImpl Id T) (L : List Nat) : Prop :=
  (∀ q ∈ (0 : Nat) :: L, (getNode r q).levels.length ≤ r.height) ∧
  (getNode r 0).levels.length = r.height ∧
  (∀ j, (nodeLevel (getNode r 0) j).prev = 0) ∧
  (∀ j, j < r.height → levLinked r j 0 ((getNode r 0).dl.Len) L)

/-- The full invariant of reachable states: the level-0 bookkeeping
(`InvChain`) together with the multi-level structure (`LevStruct`). -/
def Inv2 [DecidableEq Id] [Inhabited Id] [Inhabited T] (r : RopeImpl Id T) : Prop :=
  ∃ L, InvChain r L ∧ LevStruct r L

/-- Observational agreement of two states at one level: equal level-`j`
records, level counts and payloads everywhere. -/
def LevObs [Inhabited Id] [Inhabited T] (s s' : RopeImpl Id T) (j : Nat) : Prop :=
  (∀ m, nodeLevel (getNode s' m) j = nodeLevel (getNode s m) j) ∧
  (∀ m, (getNode s' m).levels.length = (getNode s m).levels.length) ∧
  (∀ m, (getNode s' m).dl = (getNode s m).dl)

/-- The level-`j` tower of the last entry of a prefix: starting the level-`j`
traversal at `p` with accumulated length `acc`, the last level-`j` member
reached and the length accumulated from it through the end of the prefix.
`seek[j]` of the splice seek phase is `levTail r j 0 0 A` for the prefix `A`
ending at the anchor. -/
def levTail [Inhabited Id] [Inhabited T] (r : RopeImpl Id T) (j : Nat) :
    Nat → Int → List Nat → Nat × Int
  | p, acc, [] => (p, acc)
  | p, acc, q :: rest =>
    if j < (getNode r q).levels.length then
      levTail r j q ((getNode r q).dl.Len) rest
    else
      levTail r j p (acc + (getNode r q).dl.Len) rest

/-! ## Theorems -/

section Lemmas

set_option linter.unusedSectionVars false

variable [DecidableEq Id] [Inhabited Id] [Inhabited T]

theorem getNode_eq (r : RopeImpl Id T) (m : Nat) :
    getNode r m = (r.nodes.get? m).getD default := rfl

theorem nodeLevel_eq (n : RopeNode Id T) (k : Nat) :
    nodeLevel n k = (n.levels.get? k).getD default := rfl

theorem default_node_levels : (default : RopeNode Id T).levels = [] := rfl

theorem nodeLevel_default (k : Nat) : nodeLevel (default : RopeNode Id T) k = default := by
  rw [nodeLevel_eq, default_node_levels]
  cases k <;> rfl

theorem length_updAt {α : Type} (n : Nat) (f : α → α) (l : List α) :
    (updAt n f l).length = l.length := by
  induction l generalizing n with
  | nil => simp [updAt]
  | cons x xs ih =>
    cases n with
    | zero => rfl
    | succ m => simp only [updAt, List.length_cons, ih]

theorem get?_updAt {α : Type} (n : Nat) (f : α → α) (l : List α) (m : Nat) :
    (updAt n f l).get? m = if m = n then (l.get? n).map f else l.get? m := by
  induction l generalizing n m with
  | nil => simp [updAt]
  | cons x xs ih =>
    cases n with
    | zero =>
      cases m with
      | zero => rfl
      | succ k => simp [updAt]
    | succ n' =>
      cases m with
      | zero => simp [updAt]
      | succ k =>
        show (updAt n' f xs).get? k = _
        rw [ih n' k]
        by_cases hk : k = n'
        · rw [if_pos hk, if_pos (by omega)]
          rfl
        · rw [if_neg hk, if_neg (by omega)]
          rfl

theorem length_setRange {α : Type} (v : α) (lo hi : Nat) (l : List α) :
    (setRange v lo hi l).length = l.length := by
  induction l generalizing lo hi with
  | nil => simp [setRange]
  | cons x xs ih =>
    cases lo with
    | zero =>
      cases hi with
      | zero => rfl
      | succ h => simp only [setRange, List.length_cons, ih]
    | succ lo' =>
      cases hi with
      | zero => rfl
      | succ h => simp only [setRange, List.length_cons, ih]

theorem get?_setRange {α : Type} (v : α) (lo hi : Nat) (l : List α) (m : Nat) :
    (setRange v lo hi l).get? m =
      if lo ≤ m ∧ m < hi ∧ m < l.length then some v else l.get? m := by
  induction l generalizing lo hi m with
  | nil => simp [setRange]
  | cons x xs ih =>
    cases lo with
    | zero =>
      cases hi with
      | zero =>
        rw [if_neg (by omega)]
        simp [setRange]
      | succ h =>
        cases m with
        | zero =>
          rw [if_pos ⟨Nat.zero_le _, Nat.succ_pos _, Nat.succ_pos _⟩]
          rfl
        | succ k =>
          show (setRange v 0 h xs).get? k = _
          rw [ih]
          by_cases hk : k < h ∧ k < xs.length
          · rw [if_pos ⟨Nat.zero_le _, hk.1, hk.2⟩, if_pos]
            simp only [List.length_cons]
            exact ⟨Nat.zero_le _, by omega, by omega⟩
          · rw [if_neg (by omega), if_neg (by simp only [List.length_cons]; omega)]
            rfl
    | succ lo' =>
      cases hi with
      | zero =>
        rw [if_neg (by omega)]
        simp [setRange]
      | succ h =>
        cases m with
        | zero =>
          rw [if_neg (by omega)]
          rfl
        | succ k =>
          show (setRange v lo' h xs).get? k = _
          rw [ih]
          by_cases hk : lo' ≤ k ∧ k < h ∧ k < xs.length
          · rw [if_pos hk, if_pos (by simp only [List.length_cons]; omega)]
          · rw [if_neg hk, if_neg (by simp only [List.length_cons]; omega)]
            rfl

theorem lookupId_eraseKey_self (l : List (Id × Nat)) (k : Id) :
    lookupId (eraseKey l k) k = none := by
  induction l with
  | nil => rfl
  | cons p ps ih =>
    by_cases h : p.1 = k
    · simpa [eraseKey, h] using ih
    · simp only [eraseKey, if_neg h, lookupId, ih, if_neg h]

theorem lookupId_eraseKey_ne (l : List (Id × Nat)) (k k' : Id) (h : k' ≠ k) :
    lookupId (eraseKey l k) k' = lookupId l k' := by
  induction l with
  | nil => rfl
  | cons p ps ih =>
    by_cases hp : p.1 = k
    · simp only [eraseKey, if_pos hp, lookupId]
      rw [ih, if_neg (fun e : p.1 = k' => h ((e.symm.trans hp) : k' = k))]
    · simp only [eraseKey, if_neg hp, lookupId]
      rw [ih]

theorem lookupId_eraseKey_none (l : List (Id × Nat)) (k k' : Id)
    (h : lookupId l k' = none) : lookupId (eraseKey l k) k' = none := by
  by_cases hk : k' = k
  · simpa [hk] using lookupId_eraseKey_self l k
  · rw [lookupId_eraseKey_ne l k k' hk]; exact h

theorem lookupId_insertKey_self (l : List (Id × Nat)) (k : Id) (n : Nat) :
    lookupId (insertKey l k n) k = some n := by
  simp [insertKey, lookupId]

theorem lookupId_insertKey_ne (l : List (Id × Nat)) (k k' : Id) (n : Nat) (h : k' ≠ k) :
    lookupId (insertKey l k n) k' = lookupId l k' := by
  show (if k = k' then some n else lookupId (eraseKey l k) k') = _
  rw [if_neg (fun e => h e.symm), lookupId_eraseKey_ne l k k' h]

/-! Record-level facts about the state updaters. -/

theorem updNode_len (r : RopeImpl Id T) (i : Nat) (f : RopeNode Id T → RopeNode Id T) :
    (updNode r i f).len = r.len := rfl

theorem updNode_byId (r : RopeImpl Id T) (i : Nat) (f : RopeNode Id T → RopeNode Id T) :
    (updNode r i f).byId = r.byId := rfl

theorem updNode_height (r : RopeImpl Id T) (i : Nat) (f : RopeNode Id T → RopeNode Id T) :
    (updNode r i f).height = r.height := rfl

theorem updNode_nodePool (r : RopeImpl Id T) (i : Nat) (f : RopeNode Id T → RopeNode Id T) :
    (updNode r i f).nodePool = r.nodePool := rfl

theorem updNode_lastId (r : RopeImpl Id T) (i : Nat) (f : RopeNode Id T → RopeNode Id T) :
    (updNode r i f).lastId = r.lastId := rfl

theorem updNode_nodesLength (r : RopeImpl Id T) (i : Nat)
    (f : RopeNode Id T → RopeNode Id T) : (updNode r i f).nodes.length = r.nodes.length := by
  show (updAt i f r.nodes).length = _
  exact length_updAt i f r.nodes

theorem getNode_updNode (r : RopeImpl Id T) (i : Nat) (f : RopeNode Id T → RopeNode Id T)
    (m : Nat) :
    getNode (updNode r i f) m =
      if m = i then ((r.nodes.get? i).map f).getD default else getNode r m := by
  rw [getNode_eq, getNode_eq]
  show ((updAt i f r.nodes).get? m).getD default = _
  rw [get?_updAt]
  split <;> rfl

theorem getNode_updLevel_id (r : RopeImpl Id T) (i j : Nat) (f : RopeLevel → RopeLevel)
    (m : Nat) : (getNode (updLevel r i j f) m).id = (getNode r m).id := by
  rw [updLevel, getNode_updNode]
  split
  · next h =>
    subst h
    rw [getNode_eq]
    cases hm : r.nodes.get? m <;> rfl
  · rfl

theorem getNode_updLevel_dl (r : RopeImpl Id T) (i j : Nat) (f : RopeLevel → RopeLevel)
    (m : Nat) : (getNode (updLevel r i j f) m).dl = (getNode r m).dl := by
  rw [updLevel, getNode_updNode]
  split
  · next h =>
    subst h
    rw [getNode_eq]
    cases hm : r.nodes.get? m <;> rfl
  · rfl

theorem getNode_updLevel_iterRef (r : RopeImpl Id T) (i j : Nat) (f : RopeLevel → RopeLevel)
    (m : Nat) : (getNode (updLevel r i j f) m).iterRef = (getNode r m).iterRef := by
  rw [updLevel, getNode_updNode]
  split
  · next h =>
    subst h
    rw [getNode_eq]
    cases hm : r.nodes.get? m <;> rfl
  · rfl

theorem getNode_updLevel_levelsLength (r : RopeImpl Id T) (i j : Nat)
    (f : RopeLevel → RopeLevel) (m : Nat) :
    (getNode (updLevel r i j f) m).levels.length = (getNode r m).levels.length := by
  rw [updLevel, getNode_updNode]
  split
  · next h =>
    subst h
    rw [getNode_eq]
    cases hm : r.nodes.get? m with
    | none => rfl
    | some n =>
      show (updAt j f n.levels).length = n.levels.length
      exact length_updAt j f n.levels
  · rfl

theorem nodeLevel_updLevel (r : RopeImpl Id T) (i j : Nat) (f : RopeLevel → RopeLevel)
    (m k : Nat) :
    nodeLevel (getNode (updLevel r i j f) m) k =
      if m = i ∧ k = j then (((getNode r i).levels.get? j).map f).getD default
      else nodeLevel (getNode r m) k := by
  rw [updLevel, getNode_updNode]
  by_cases hm : m = i
  · subst hm
    rw [if_pos rfl]
    cases hn : r.nodes.get? m with
    | none =>
      have hgd : getNode r m = default := by rw [getNode_eq, hn]; rfl
      simp only [Option.map_none', Option.getD_none, hgd, nodeLevel_default,
        default_node_levels, List.get?_nil]
      split <;> rfl
    | some n =>
      have hgd : getNode r m = n := by rw [getNode_eq, hn]; rfl
      simp only [Option.map_some', Option.getD_some, hgd]
      rw [nodeLevel_eq]
      show ((updAt j f n.levels).get? k).getD default = _
      rw [get?_updAt]
      by_cases hk : k = j
      · rw [if_pos hk, if_pos (show _ ∧ k = j from ⟨by simp, hk⟩)]
      · rw [if_neg hk, if_neg (fun e => hk e.2)]
        rfl
  · rw [if_neg hm, if_neg (fun e => hm e.1)]

end Lemmas

end Thorgo

namespace Thorgo

section EasyClaims

set_option linter.unusedSectionVars false

variable {Id T : Type} [DecidableEq Id] [Inhabited Id] [Inhabited T]

/-- C7: `ByPosition(position, biasAfter)` returns the zero identifier with
offset 0 whenever `position < 0`, or `position = 0` with `biasAfter` false; and
it returns `LastId()` with offset 0 whenever `position > Len()`, or
`position = Len()` with `biasAfter` true.  (Stated with the basic soundness
fact `0 ≤ Len()`, which holds in every state the structure can reach.) -/
theorem thm_byPosition_boundaries (r : RopeImpl Id T) (position : Int)
    (biasAfter : Bool) (hlen : 0 ≤ Len r) :
    ((position < 0 ∨ (position = 0 ∧ biasAfter = false)) →
        ByPosition r position biasAfter = some ((default : Id), 0)) ∧
    ((position > Len r ∨ (position = Len r ∧ biasAfter = true)) →
        ByPosition r position biasAfter = some (LastId r, 0)) := by
  constructor
  · intro h
    rw [ByPosition, if_pos]
    rcases h with h | ⟨h1, h2⟩
    · exact Or.inl h
    · exact Or.inr ⟨h2, h1⟩
  · intro h
    rw [ByPosition, if_neg, if_pos]
    · rfl
    · rcases h with h | ⟨h1, h2⟩
      · exact Or.inl h
      · exact Or.inr ⟨h2, h1⟩
    · rintro (hc | ⟨hb, hp⟩)
      · rcases h with h | ⟨h1, h2⟩ <;> omega
      · rcases h with h | ⟨h1, h2⟩
        · omega
        · rw [hb] at h2; exact Bool.noConfusion h2

/-- Witness for C7 at the empty rope: position `-1` yields the zero identifier,
position `5` (beyond the length) yields `LastId`. -/
theorem thm_byPosition_boundaries_witness :
    ByPosition (NewRoot "" : RopeImpl Nat String) (-1) false = some (0, 0) ∧
    ByPosition (NewRoot "" : RopeImpl Nat String) 5 true = some (0, 0) :=
  ⟨(thm_byPosition_boundaries (NewRoot "") (-1) false (by decide)).1 (Or.inl (by decide)),
   (thm_byPosition_boundaries (NewRoot "") 5 true (by decide)).2 (Or.inl (by decide))⟩

/-- C8: `Splice(A, &A, nil, data)` — `deleteUntilId` equal to the anchor and no
insert — returns an empty removed list and a nil error and leaves the whole
structure unchanged, for every live identifier `A`. -/
theorem thm_splice_self_noop (lenOf : T → Int) (r : RopeImpl Id T) (A : Id) (data : T)
    (ht : Nat) (hlive : (lookupId r.byId A).isSome = true) :
    ∀ res, Splice lenOf r A (some A) none data ht = some res → res = (r, [], none) := by
  intro res h
  obtain ⟨ai, hai⟩ := Option.isSome_iff_exists.mp hlive
  rcases hs : seekLoop r (r.nodes.length + r.height + 1)
      (List.replicate r.height seekZero) 0 (ai, (getNode r ai).dl.Len) with
    _ | sc
  · simp [Splice, anchorOf, hai, spliceInner, hs] at h
  · simp [Splice, anchorOf, hai, spliceInner, hs] at h
    exact h.symm

/-- Witness for C8: deleting "until the anchor itself" on a concrete two-entry
rope is a successful no-op. -/
theorem thm_splice_self_noop_witness :
    (lookupId exRope.byId 1).isSome = true ∧
    ((exRope, [], none) : RopeImpl Nat String × List (Removed Nat String) × Option RopeErr)
      = (exRope, [], none) :=
  ⟨by decide, thm_splice_self_noop strLen exRope 1 "" 1 (by decide) (exRope, [], none)
    (by decide)⟩

/-- C10: `Iter(afterId)` for an identifier absent from the index yields the
empty sequence (and no error — the модel returns `some []`, not a panic). -/
theorem thm_iter_absent (r : RopeImpl Id T) (afterId : Id)
    (h : lookupId r.byId afterId = none) : IterToList r afterId = some [] := by
  simp [IterToList, h]

/-- Witness for C10: iterating a fresh rope from the absent identifier 7. -/
theorem thm_iter_absent_witness :
    IterToList (NewRoot "" : RopeImpl Nat String) 7 = some [] :=
  thm_iter_absent (NewRoot "") 7 (by decide)

/-- C9: absent identifiers passed to read operations produce sentinel results:
`Find` returns `-1`, `Info` the zero record, and `Between`/`Compare` report
`ok = false` with distance/cmp `0`, whichever side the absent identifier is on.
(The reads are pure functions of the state in this embedding and return no
error.) -/
theorem thm_absent_reads (r : RopeImpl Id T) (a b : Id)
    (ha : lookupId r.byId a = none) :
    Find r a = some (-1) ∧
    InfoOf r a = (default : Info Id T) ∧
    (∀ res, Between r a b = some res → res = (0, false)) ∧
    (∀ res, Between r b a = some res → res = (0, false)) ∧
    Compare r a b = some (0, false) ∧
    Compare r b a = some (0, false) := by
  have hfind : Find r a = some (-1) := by simp [Find, ha]
  refine ⟨hfind, by simp [InfoOf, ha], ?_, ?_, ?_, ?_⟩
  · intro res h
    rw [Between] at h
    rw [hfind] at h
    simp at h
    exact h.symm
  · intro res h
    rw [Between] at h
    rcases hfb : Find r b with _ | p
    · rw [hfb] at h; cases h
    · rw [hfb] at h
      by_cases hp : p < 0
      · simp [hp] at h
        exact h.symm
      · simp [hp, hfind] at h
        exact h.symm
  · by_cases hab : a = b
    · subst hab; simp [Compare, ha]
    · rcases hlb : lookupId r.byId b with _ | bi <;>
        simp [Compare, hab, ha, hlb]
  · by_cases hab : b = a
    · subst hab; simp [Compare, ha]
    · rcases hlb : lookupId r.byId b with _ | bi <;>
        simp [Compare, hab, ha, hlb]

/-- Witness for C9 on a concrete rope with absent id 99 and live id 1. -/
theorem thm_absent_reads_witness :
    Find exRope 99 = some (-1) ∧ Compare exRope 99 1 = some (0, false) := by
  have h := thm_absent_reads exRope 99 1 (by decide)
  exact ⟨h.1, h.2.2.2.2.1⟩

/-- C5 counterexample: in the rope `c5rope` (one zero-length entry `1`,
`lastId = 1`), inserting entry `2` after the head anchor `0` succeeds while the
list is not empty (`Count = 1`) and the prior `lastId` (1) differs from the
anchor's identifier (0); the claim then requires `LastId` to be unchanged, but
the code sets it to the new identifier 2 because the prior total length is 0. -/
theorem thm_lastId_cex :
    Count c5rope = 1 ∧ Len c5rope = 0 ∧ LastId c5rope = 1 ∧ (default : Nat) = 0 ∧
    (Splice strLen c5rope 0 none (some 2) "hello" 1).map
        (fun p => (LastId p.1, p.2.2)) = some (2, none) ∧ (1 : Nat) ≠ 2 := by
  refine ⟨by decide, by decide, by decide, rfl, by decide, by decide⟩

theorem map_addNone_ne_err {A B : Type} (x : Option (A × B)) (s : A) (rm : B) (e' : RopeErr) :
    x.map (fun p => (p.1, p.2, (none : Option RopeErr))) = some (s, rm, some e') → False := by
  cases x <;> intro h <;> simp_all

/-- C2: `Splice` returns `BadAnchor` iff the anchor is neither indexed nor the
zero identifier; `IdExists` iff the anchor is valid and the insert identifier is
present and already indexed; `NegativeLength` iff the anchor is valid, the
insert identifier fresh, and the payload's length capability is negative; and
every error case leaves the state unchanged with an empty removed list. -/
theorem thm_splice_errors (lenOf : T → Int) (r : RopeImpl Id T) (aid : Id)
    (du ins : Option Id) (data : T) (ht : Nat) :
    ((∃ s rm, Splice lenOf r aid du ins data ht = some (s, rm, some RopeErr.badAnchor)) ↔
        (lookupId r.byId aid = none ∧ aid ≠ default)) ∧
    ((∃ s rm, Splice lenOf r aid du ins data ht = some (s, rm, some RopeErr.idExists)) ↔
        (¬(lookupId r.byId aid = none ∧ aid ≠ default) ∧
         ∃ iid, ins = some iid ∧ (lookupId r.byId iid).isSome = true)) ∧
    ((∃ s rm, Splice lenOf r aid du ins data ht = some (s, rm, some RopeErr.negativeLength)) ↔
        (¬(lookupId r.byId aid = none ∧ aid ≠ default) ∧
         ∃ iid, ins = some iid ∧ lookupId r.byId iid = none ∧ lenOf data < 0)) ∧
    (∀ s rm e', Splice lenOf r aid du ins data ht = some (s, rm, some e') →
        s = r ∧ rm = []) := by
  have unpack : ∀ (E : RopeErr) (s : RopeImpl Id T) (rm : List (Removed Id T)) (e' : RopeErr),
      (some (r, ([] : List (Removed Id T)), some E) :
        Option (RopeImpl Id T × List (Removed Id T) × Option RopeErr)) = some (s, rm, some e') →
      s = r ∧ rm = [] ∧ e' = E := by
    intro E s rm e' h
    injection h with h
    refine ⟨(congrArg Prod.fst h).symm, (congrArg (fun p => p.2.1) h).symm, ?_⟩
    have h2 : (some E : Option RopeErr) = some e' := congrArg (fun p => p.2.2) h
    exact (Option.some.inj h2).symm
  have hanchor : anchorOf r aid = none ↔ (lookupId r.byId aid = none ∧ aid ≠ default) := by
    rw [anchorOf]
    rcases h : lookupId r.byId aid with _ | n
    · by_cases had : aid = default <;> simp [had]
    · simp
  rcases hA : anchorOf r aid with _ | n
  · -- invalid anchor: BadAnchor, state unchanged
    have hbad : lookupId r.byId aid = none ∧ aid ≠ default := hanchor.mp hA
    have hs : Splice lenOf r aid du ins data ht = some (r, [], some RopeErr.badAnchor) := by
      rcases ins with _ | iid <;> simp [Splice, hA]
    refine ⟨?_, ?_, ?_, ?_⟩
    · constructor
      · intro _
        exact hbad
      · intro _
        exact ⟨r, [], by rw [hs]⟩
    · constructor
      · rintro ⟨s, rm, h⟩
        rw [hs] at h
        obtain ⟨-, -, hE⟩ := unpack _ _ _ _ h
        exact RopeErr.noConfusion hE
      · rintro ⟨hv, -⟩
        exact absurd hbad hv
    · constructor
      · rintro ⟨s, rm, h⟩
        rw [hs] at h
        obtain ⟨-, -, hE⟩ := unpack _ _ _ _ h
        exact RopeErr.noConfusion hE
      · rintro ⟨hv, -⟩
        exact absurd hbad hv
    · intro s rm e' h
      rw [hs] at h
      obtain ⟨h1, h2, -⟩ := unpack _ _ _ _ h
      exact ⟨h1, h2⟩
  · -- valid anchor
    have hval : ¬(lookupId r.byId aid = none ∧ aid ≠ default) := by
      intro hh
      rw [hanchor.mpr hh] at hA
      cases hA
    rcases ins with _ | iid
    · -- no insert: the inner splice runs and its result carries a nil error
      have hs : ∃ pd : Bool × Id, Splice lenOf r aid du none data ht =
          (spliceInner r n pd.1 pd.2 false default 0 data ht).map
            (fun p => (p.1, p.2, none)) := by
        rcases du with _ | d
        · exact ⟨(false, default), by simp [Splice, hA]⟩
        · by_cases hd : d ≠ aid
          · exact ⟨(true, d), by simp [Splice, hA, hd]⟩
          · exact ⟨(false, default), by simp [Splice, hA, hd]⟩
      obtain ⟨pd, hs⟩ := hs
      refine ⟨?_, ?_, ?_, ?_⟩
      · constructor
        · rintro ⟨s, rm, h⟩
          rw [hs] at h
          exact (map_addNone_ne_err _ _ _ _ h).elim
        · intro h
          exact (hval h).elim
      · constructor
        · rintro ⟨s, rm, h⟩
          rw [hs] at h
          exact (map_addNone_ne_err _ _ _ _ h).elim
        · rintro ⟨-, iid, hi, -⟩
          exact Option.noConfusion hi
      · constructor
        · rintro ⟨s, rm, h⟩
          rw [hs] at h
          exact (map_addNone_ne_err _ _ _ _ h).elim
        · rintro ⟨-, iid, hi, -⟩
          exact Option.noConfusion hi
      · intro s rm e' h
        rw [hs] at h
        exact (map_addNone_ne_err _ _ _ _ h).elim
    · rcases hli : lookupId r.byId iid with _ | m
      · by_cases hneg : lenOf data < 0
        · -- NegativeLength
          have hs : Splice lenOf r aid du (some iid) data ht =
              some (r, [], some RopeErr.negativeLength) := by
            simp [Splice, hA, hli, hneg]
          refine ⟨?_, ?_, ?_, ?_⟩
          · constructor
            · rintro ⟨s, rm, h⟩
              rw [hs] at h
              obtain ⟨-, -, hE⟩ := unpack _ _ _ _ h
              exact RopeErr.noConfusion hE
            · intro h
              exact (hval h).elim
          · constructor
            · rintro ⟨s, rm, h⟩
              rw [hs] at h
              obtain ⟨-, -, hE⟩ := unpack _ _ _ _ h
              exact RopeErr.noConfusion hE
            · rintro ⟨-, iid', hi, hh⟩
              injection hi with hi
              subst hi
              rw [hli] at hh
              simp at hh
          · constructor
            · intro _
              exact ⟨hval, iid, rfl, hli, hneg⟩
            · intro _
              exact ⟨r, [], by rw [hs]⟩
          · intro s rm e' h
            rw [hs] at h
            obtain ⟨h1, h2, -⟩ := unpack _ _ _ _ h
            exact ⟨h1, h2⟩
        · -- fresh id, valid length: the inner splice runs with a nil error
          have hs : ∃ pd : Bool × Id, Splice lenOf r aid du (some iid) data ht =
              (spliceInner r n pd.1 pd.2 true iid (lenOf data) data ht).map
                (fun p => (p.1, p.2, none)) := by
            rcases du with _ | d
            · exact ⟨(false, default), by simp [Splice, hA, hli, hneg]⟩
            · by_cases hd : d ≠ aid
              · exact ⟨(true, d), by simp [Splice, hA, hli, hneg, hd]⟩
              · exact ⟨(false, default), by simp [Splice, hA, hli, hneg, hd]⟩
          obtain ⟨pd, hs⟩ := hs
          refine ⟨?_, ?_, ?_, ?_⟩
          · constructor
            · rintro ⟨s, rm, h⟩
              rw [hs] at h
              exact (map_addNone_ne_err _ _ _ _ h).elim
            · intro h
              exact (hval h).elim
          · constructor
            · rintro ⟨s, rm, h⟩
              rw [hs] at h
              exact (map_addNone_ne_err _ _ _ _ h).elim
            · rintro ⟨-, iid', hi, hh⟩
              injection hi with hi
              subst hi
              rw [hli] at hh
              simp at hh
          · constructor
            · rintro ⟨s, rm, h⟩
              rw [hs] at h
              exact (map_addNone_ne_err _ _ _ _ h).elim
            · rintro ⟨-, iid', hi, -, hh⟩
              injection hi with hi
              subst hi
              exact absurd hh hneg
          · intro s rm e' h
            rw [hs] at h
            exact (map_addNone_ne_err _ _ _ _ h).elim
      · -- IdExists
        have hs : Splice lenOf r aid du (some iid) data ht =
            some (r, [], some RopeErr.idExists) := by
          simp [Splice, hA, hli]
        refine ⟨?_, ?_, ?_, ?_⟩
        · constructor
          · rintro ⟨s, rm, h⟩
            rw [hs] at h
            obtain ⟨-, -, hE⟩ := unpack _ _ _ _ h
            exact RopeErr.noConfusion hE
          · intro h
            exact (hval h).elim
        · constructor
          · intro _
            exact ⟨hval, iid, rfl, by rw [hli]; rfl⟩
          · intro _
            exact ⟨r, [], by rw [hs]⟩
        · constructor
          · rintro ⟨s, rm, h⟩
            rw [hs] at h
            obtain ⟨-, -, hE⟩ := unpack _ _ _ _ h
            exact RopeErr.noConfusion hE
          · rintro ⟨-, iid', hi, hh, -⟩
            injection hi with hi
            subst hi
            rw [hli] at hh
            exact Option.noConfusion hh
        · intro s rm e' h
          rw [hs] at h
          obtain ⟨h1, h2, -⟩ := unpack _ _ _ _ h
          exact ⟨h1, h2⟩

/-- Witness for C2: a concrete `BadAnchor` call on the empty rope leaves the
state unchanged. -/
theorem thm_splice_errors_witness :
    Splice strLen (NewRoot "" : RopeImpl Nat String) 5 none none "x" 1 =
      some (NewRoot "", [], some RopeErr.badAnchor) ∧
    ((NewRoot "" : RopeImpl Nat String) = NewRoot "" ∧
      ([] : List (Removed Nat String)) = []) := by
  have h : Splice strLen (NewRoot "" : RopeImpl Nat String) 5 none none "x" 1 =
      some (NewRoot "", [], some RopeErr.badAnchor) := by decide
  exact ⟨h, (thm_splice_errors strLen (NewRoot "") 5 none none "x" 1).2.2.2 _ _ _ h⟩

end EasyClaims

section InsertLastId

set_option linter.unusedSectionVars false

variable {Id T : Type} [DecidableEq Id] [Inhabited Id] [Inhabited T]

theorem getNode_updNode_id (r : RopeImpl Id T) (i : Nat)
    (f : RopeNode Id T → RopeNode Id T) (m : Nat) (hf : ∀ n, (f n).id = n.id) :
    (getNode (updNode r i f) m).id = (getNode r m).id := by
  rw [getNode_updNode]
  split
  · next h =>
    subst h
    rw [getNode_eq]
    cases hm : r.nodes.get? m with
    | none => rfl
    | some n => exact hf n
  · rfl

theorem getNode_updNode_dl (r : RopeImpl Id T) (i : Nat)
    (f : RopeNode Id T → RopeNode Id T) (m : Nat) (hf : ∀ n, (f n).dl = n.dl) :
    (getNode (updNode r i f) m).dl = (getNode r m).dl := by
  rw [getNode_updNode]
  split
  · next h =>
    subst h
    rw [getNode_eq]
    cases hm : r.nodes.get? m with
    | none => rfl
    | some n => exact hf n
  · rfl

theorem updLevel_nodesLength (r : RopeImpl Id T) (i j : Nat) (f : RopeLevel → RopeLevel) :
    (updLevel r i j f).nodes.length = r.nodes.length :=
  updNode_nodesLength r i _

/-- The linking loop of the insert phase never touches `len`, `lastId`, the
number of store slots, or any node's identifier or payload. -/
theorem insertLevels_preserves (seek : List (Nat × Int)) (newIdx : Nat) (length : Int) :
    ∀ (c i : Nat) (r : RopeImpl Id T) (cs : Nat × Int) (p : RopeImpl Id T × (Nat × Int)),
      insertLevels seek newIdx length c i r cs = some p →
      p.1.len = r.len ∧ p.1.lastId = r.lastId ∧ p.1.nodes.length = r.nodes.length ∧
      (∀ m, (getNode p.1 m).id = (getNode r m).id) ∧
      (∀ m, (getNode p.1 m).dl = (getNode r m).dl) := by
  intro c
  induction c with
  | zero =>
    intro i r cs p h
    simp only [insertLevels, Option.some.injEq] at h
    subst h
    exact ⟨rfl, rfl, rfl, fun _ => rfl, fun _ => rfl⟩
  | succ c ih =>
    intro i r cs p h
    by_cases hlt : i < r.height
    · rcases hnx : (nodeLevel (getNode r ((seek.get? i).getD seekZero).1) i).next with _ | nx
      · simp only [insertLevels, hlt, if_true, hnx] at h
        obtain ⟨e1, e2, e3, e4, e5⟩ := ih _ _ _ _ h
        refine ⟨e1, e2, e3.trans ?_, fun m => (e4 m).trans ?_, fun m => (e5 m).trans ?_⟩
        · rw [updLevel_nodesLength, updLevel_nodesLength]
        · rw [getNode_updLevel_id, getNode_updLevel_id]
        · rw [getNode_updLevel_dl, getNode_updLevel_dl]
      · simp only [insertLevels, hlt, if_true, hnx] at h
        obtain ⟨e1, e2, e3, e4, e5⟩ := ih _ _ _ _ h
        refine ⟨e1, e2, e3.trans ?_, fun m => (e4 m).trans ?_, fun m => (e5 m).trans ?_⟩
        · rw [updLevel_nodesLength, updLevel_nodesLength, updLevel_nodesLength]
        · rw [getNode_updLevel_id, getNode_updLevel_id, getNode_updLevel_id]
        · rw [getNode_updLevel_dl, getNode_updLevel_dl, getNode_updLevel_dl]
    · rcases hcl : cseekClimb r ((getNode r cs.1).levels.length - 1) (r.nodes.length + 1) cs
        with _ | cs1
      · simp only [insertLevels, hlt, if_false, hcl] at h
        exact Option.noConfusion h
      · simp only [insertLevels, hlt, if_false, hcl] at h
        obtain ⟨e1, e2, e3, e4, e5⟩ := ih _ _ _ _ h
        refine ⟨e1, e2, e3.trans ?_, fun m => (e4 m).trans ?_, fun m => (e5 m).trans ?_⟩
        · rw [updLevel_nodesLength]
          exact updNode_nodesLength r 0 _
        · rw [getNode_updLevel_id]
          exact getNode_updNode_id r 0 _ m (fun n => rfl)
        · rw [getNode_updLevel_dl]
          exact getNode_updNode_dl r 0 _ m (fun n => rfl)

/-- The counter bump above the new node's height never touches `len`, `lastId`,
the store size, or any node's identifier or payload. -/
theorem bumpTail_preserves (seek : List (Nat × Int)) (length : Int) (ht : Nat)
    (r : RopeImpl Id T) :
    (bumpTail seek length ht r).len = r.len ∧
    (bumpTail seek length ht r).lastId = r.lastId ∧
    (bumpTail seek length ht r).nodes.length = r.nodes.length ∧
    (∀ m, (getNode (bumpTail seek length ht r) m).id = (getNode r m).id) ∧
    (∀ m, (getNode (bumpTail seek length ht r) m).dl = (getNode r m).dl) := by
  rw [bumpTail]
  generalize List.range' ht (seek.length - ht) = l
  induction l generalizing r with
  | nil => exact ⟨rfl, rfl, rfl, fun _ => rfl, fun _ => rfl⟩
  | cons x xs ih =>
    simp only [List.foldl_cons]
    obtain ⟨e1, e2, e3, e4, e5⟩ :=
      ih (updLevel r ((seek.get? x).getD seekZero).1 x fun l =>
        { l with subtreesize := l.subtreesize + length })
    refine ⟨e1, e2, e3.trans (updLevel_nodesLength _ _ _ _),
      fun m => (e4 m).trans (getNode_updLevel_id _ _ _ _ m),
      fun m => (e5 m).trans (getNode_updLevel_dl _ _ _ _ m)⟩

/-- The node-acquisition step preserves `len` and `lastId` and keeps the
anchor's identifier intact (the anchor is a valid store index and is not in the
free pool). -/
theorem insertAlloc_facts (r : RopeImpl Id T) (iid : Id) (length : Int) (data : T)
    (ht : Nat) (after : Nat) (hafter : after < r.nodes.length)
    (hpool : ∀ q ∈ r.nodePool, q ≠ after) :
    (insertAlloc r iid length data ht).1.len = r.len ∧
    (insertAlloc r iid length data ht).1.lastId = r.lastId ∧
    (getNode (insertAlloc r iid length data ht).1 after).id = (getNode r after).id := by
  rw [insertAlloc]
  rcases hpl : r.nodePool.getLast? with _ | idx
  · refine ⟨rfl, rfl, ?_⟩
    show (getNode { r with nodes := r.nodes ++ [_] } after).id = _
    rw [getNode_eq, getNode_eq]
    show (((r.nodes ++ [_]).get? after).getD default).id = _
    rw [List.get?_append hafter]
  · have hidne : idx ≠ after := hpool idx (List.mem_of_mem_getLast? hpl)
    refine ⟨rfl, rfl, ?_⟩
    show (getNode (updNode { r with nodePool := r.nodePool.dropLast } idx _) after).id = _
    rw [getNode_updNode, if_neg (fun e => hidne e.symm)]
    rfl

/-- The `lastId` law implemented by the tail of the insert phase, stated
against the state at the moment of insertion. -/
theorem insertFinish_lastId (r2 : RopeImpl Id T) (after : Nat)
    (seek : List (Nat × Int)) (iid : Id) (length : Int) (ht : Nat) :
    (insertFinish r2 after seek iid length ht).lastId =
      if after = 0 then (if r2.len = 0 then iid else r2.lastId)
      else if r2.lastId = (getNode r2 after).id then iid else r2.lastId := by
  obtain ⟨b1, b2, b3, b4, b5⟩ := bumpTail_preserves seek length ht r2
  simp only [insertFinish]
  by_cases ha : after = 0
  · rw [if_pos ha, if_pos ha]
    by_cases hl : r2.len = 0
    · rw [if_pos (show (bumpTail seek length ht r2).len + length = length by
        rw [b1, hl]; omega), if_pos hl]
    · rw [if_neg (show ¬(bumpTail seek length ht r2).len + length = length by
        rw [b1]; omega), if_neg hl]
      exact b2
  · rw [if_neg ha, if_neg ha]
    split
    · next hcond =>
      rw [if_pos ((b2.symm.trans hcond).trans (b4 after))]
    · next hcond =>
      rw [if_neg (fun e => hcond ((b2.trans e).trans (b4 after).symm))]
      exact b2

/-- C5 (amended): for every successful run of the insert phase of `splice`: if
the anchor is the head and the total length immediately before the insertion
(that is, after any deletions performed by the same splice call) is zero,
`LastId()` afterwards equals the new identifier; otherwise, if the `lastId`
immediately before the insertion equals the anchor's identifier, `LastId()`
afterwards equals the new identifier; in all other cases `LastId()` is
unchanged by the insertion. -/
theorem thm_insert_lastId_amended (r : RopeImpl Id T) (after : Nat)
    (seek : List (Nat × Int)) (cs : Nat × Int) (iid : Id) (length : Int) (data : T)
    (ht : Nat) (r' : RopeImpl Id T) (hafter : after < r.nodes.length)
    (hpool : ∀ q ∈ r.nodePool, q ≠ after)
    (h : insertPhase r after seek cs iid length data ht = some r') :
    LastId r' = if after = 0 then (if Len r = 0 then iid else LastId r)
                else if LastId r = (getNode r after).id then iid else LastId r := by
  simp only [insertPhase] at h
  rw [Option.map_eq_some'] at h
  obtain ⟨p, hil, hr⟩ := h
  subst hr
  show (insertFinish p.1 after seek iid length ht).lastId = _
  rw [insertFinish_lastId]
  obtain ⟨ha1, ha2, ha3⟩ := insertAlloc_facts r iid length data ht after hafter hpool
  obtain ⟨e1, e2, e3, e4, e5⟩ := insertLevels_preserves seek _ length ht 0 _ cs p hil
  have hlen : p.1.len = r.len := e1.trans ha1
  have hlast : p.1.lastId = r.lastId := e2.trans ha2
  have hid : (getNode p.1 after).id = (getNode r after).id := (e4 after).trans ha3
  rw [hlen, hlast, hid]
  rfl

/-- Witness for the amended C5: a concrete insert into the empty rope (anchor
head, length zero before) sets `lastId` to the new identifier 1. -/
theorem thm_insert_lastId_amended_witness : c5ins.lastId = 1 := by
  have h := thm_insert_lastId_amended (NewRoot "" : RopeImpl Nat String) 0 [(0, 0)] (0, 0)
    1 5 "hello" 1 c5ins (by decide) (fun q hq => absurd hq (List.not_mem_nil q)) (by decide)
  rw [LastId] at h
  rw [h]
  decide

end InsertLastId

section DeleteRange

set_option linter.unusedSectionVars false

variable {Id T : Type} [DecidableEq Id] [Inhabited Id] [Inhabited T]

theorem getNode_updNode_ne (s : RopeImpl Id T) (i : Nat) (f : RopeNode Id T → RopeNode Id T)
    (m : Nat) (h : m ≠ i) : getNode (updNode s i f) m = getNode s m := by
  rw [getNode_updNode, if_neg h]

theorem getNode_updNode_levLen (s : RopeImpl Id T) (i : Nat)
    (f : RopeNode Id T → RopeNode Id T) (m : Nat)
    (hf : ∀ n, (f n).levels.length = n.levels.length) :
    (getNode (updNode s i f) m).levels.length = (getNode s m).levels.length := by
  rw [getNode_updNode]
  split
  · next h =>
    rw [h, getNode_eq]
    cases hm : s.nodes.get? i with
    | none => rfl
    | some n => exact hf n
  · rfl

theorem next0_updNode_of_levels_eq (s : RopeImpl Id T) (i : Nat)
    (f : RopeNode Id T → RopeNode Id T) (m : Nat) (hf : ∀ n, (f n).levels = n.levels) :
    next0 (updNode s i f) m = next0 s m := by
  rw [next0, next0, getNode_updNode]
  split
  · next h =>
    rw [h, getNode_eq]
    cases hm : s.nodes.get? i with
    | none => rfl
    | some n =>
      simp only [Option.map_some', Option.getD_some]
      rw [nodeLevel_eq, nodeLevel_eq, hf n]
  · rfl

theorem next0_updLevel_of_next_eq (s : RopeImpl Id T) (i j : Nat)
    (f : RopeLevel → RopeLevel) (hf : ∀ l, (f l).next = l.next) (m : Nat) :
    next0 (updLevel s i j f) m = next0 s m := by
  rw [next0, next0, nodeLevel_updLevel]
  by_cases hc : m = i ∧ (0 : Nat) = j
  · rw [if_pos hc, ← hc.1, ← hc.2, nodeLevel_eq]
    cases hl : (getNode s m).levels.get? 0 with
    | none => rfl
    | some l => exact hf l
  · rw [if_neg hc]

theorem next0_updLevel_sub (s : RopeImpl Id T) (i j m : Nat) (g : RopeLevel → Int) :
    next0 (updLevel s i j fun l => { l with subtreesize := g l }) m = next0 s m :=
  next0_updLevel_of_next_eq s i j (fun l => { l with subtreesize := g l }) (fun _ => rfl) m

theorem next0_updLevel_prev (s : RopeImpl Id T) (i j m : Nat) (g : RopeLevel → Nat) :
    next0 (updLevel s i j fun l => { l with prev := g l }) m = next0 s m :=
  next0_updLevel_of_next_eq s i j (fun l => { l with prev := g l }) (fun _ => rfl) m

theorem next0_updLevel_ne (s : RopeImpl Id T) (i j : Nat) (f : RopeLevel → RopeLevel)
    (m : Nat) (h : m ≠ i) : next0 (updLevel s i j f) m = next0 s m := by
  rw [next0, next0, nodeLevel_updLevel, if_neg (fun e => h e.1)]

theorem next0_updLevel_pos (s : RopeImpl Id T) (i j : Nat) (f : RopeLevel → RopeLevel)
    (m : Nat) (hj : j ≠ 0) : next0 (updLevel s i j f) m = next0 s m := by
  rw [next0, next0, nodeLevel_updLevel, if_neg (fun e => hj e.2.symm)]

theorem obsEq_refl (s : RopeImpl Id T) : ObsEq s s :=
  ⟨rfl, rfl, rfl, rfl, rfl, fun _ => rfl, fun _ => rfl, fun _ => rfl, fun _ => rfl⟩

theorem obsEq_trans {s1 s2 s3 : RopeImpl Id T} (h1 : ObsEq s1 s2) (h2 : ObsEq s2 s3) :
    ObsEq s1 s3 := by
  obtain ⟨a1, a2, a3, a4, a5, a6, a7, a8, a9⟩ := h1
  obtain ⟨b1, b2, b3, b4, b5, b6, b7, b8, b9⟩ := h2
  exact ⟨b1.trans a1, b2.trans a2, b3.trans a3, b4.trans a4, b5.trans a5,
    fun m => (b6 m).trans (a6 m), fun m => (b7 m).trans (a7 m),
    fun m => (b8 m).trans (a8 m), fun m => (b9 m).trans (a9 m)⟩

theorem updLevel_obsEq_of_next_eq (s : RopeImpl Id T) (i j : Nat) (f : RopeLevel → RopeLevel)
    (hf : ∀ l, (f l).next = l.next) : ObsEq s (updLevel s i j f) :=
  ⟨rfl, rfl, rfl, rfl, updLevel_nodesLength _ _ _ _,
    fun m => next0_updLevel_of_next_eq s i j f hf m,
    fun m => getNode_updLevel_id s i j f m,
    fun m => getNode_updLevel_dl s i j f m,
    fun m => getNode_updLevel_levelsLength s i j f m⟩

theorem updLevel_obsEq_pos (s : RopeImpl Id T) (i j : Nat) (f : RopeLevel → RopeLevel)
    (hj : j ≠ 0) : ObsEq s (updLevel s i j f) :=
  ⟨rfl, rfl, rfl, rfl, updLevel_nodesLength _ _ _ _,
    fun m => next0_updLevel_pos s i j f m hj,
    fun m => getNode_updLevel_id s i j f m,
    fun m => getNode_updLevel_dl s i j f m,
    fun m => getNode_updLevel_levelsLength s i j f m⟩

/-- A relink step at a positive level does not change anything the delete-phase
argument tracks. -/
theorem deleteRelinkStep_obsEq (s : RopeImpl Id T) (e : Nat) (seek : List (Nat × Int))
    (j : Nat) (hj : j ≠ 0) : ObsEq s (deleteRelinkStep s e seek j) := by
  simp only [deleteRelinkStep]
  split
  · exact updLevel_obsEq_pos _ _ _ _ hj
  · cases hnx : (nodeLevel (getNode s e) j).next with
    | none =>
      simp only [hnx]
      exact obsEq_trans (updLevel_obsEq_pos _ _ _ _ hj) (updLevel_obsEq_pos _ _ _ _ hj)
    | some nx =>
      simp only [hnx]
      exact obsEq_trans (updLevel_obsEq_pos _ _ _ _ hj)
        (obsEq_trans (updLevel_obsEq_pos _ _ _ _ hj) (updLevel_obsEq_pos _ _ _ _ hj))

theorem foldl_relinkStep_obsEq (e : Nat) (seek : List (Nat × Int)) :
    ∀ (js : List Nat) (s : RopeImpl Id T), (∀ j ∈ js, j ≠ 0) →
      ObsEq s (js.foldl (fun s j => deleteRelinkStep s e seek j) s) := by
  intro js
  induction js with
  | nil => intro s _; exact obsEq_refl s
  | cons j js ih =>
    intro s h
    simp only [List.foldl_cons]
    exact obsEq_trans (deleteRelinkStep_obsEq s e seek j (h j (by simp)))
      (ih _ (fun k hk => h k (by simp [hk])))

/-- The level-0 relink step: rewires the anchor's level-0 forward pointer to
skip the deleted node, and changes nothing else that the argument tracks. -/
theorem deleteRelinkStep0 (s : RopeImpl Id T) (e ai : Nat) (seek : List (Nat × Int))
    (sb : Int) (hseek0 : seek.get? 0 = some (ai, sb))
    (hai_lv : 1 ≤ (getNode s ai).levels.length)
    (he_lv : 1 ≤ (getNode s e).levels.length) :
    (deleteRelinkStep s e seek 0).len = s.len ∧
    (deleteRelinkStep s e seek 0).byId = s.byId ∧
    (deleteRelinkStep s e seek 0).lastId = s.lastId ∧
    (deleteRelinkStep s e seek 0).height = s.height ∧
    (deleteRelinkStep s e seek 0).nodes.length = s.nodes.length ∧
    next0 (deleteRelinkStep s e seek 0) ai = next0 s e ∧
    (∀ m, m ≠ ai → next0 (deleteRelinkStep s e seek 0) m = next0 s m) ∧
    (∀ m, (getNode (deleteRelinkStep s e seek 0) m).id = (getNode s m).id) ∧
    (∀ m, (getNode (deleteRelinkStep s e seek 0) m).dl = (getNode s m).dl) ∧
    (∀ m, (getNode (deleteRelinkStep s e seek 0) m).levels.length =
      (getNode s m).levels.length) := by
  simp only [deleteRelinkStep, hseek0, Option.getD_some]
  rw [if_neg (by omega : ¬ 0 ≥ (getNode s e).levels.length)]
  cases hnx : (nodeLevel (getNode s e) 0).next with
  | none =>
    simp only [hnx]
    refine ⟨rfl, rfl, rfl, rfl, ?_, ?_, ?_, ?_, ?_, ?_⟩
    · rw [updLevel_nodesLength, updLevel_nodesLength]
    · rw [next0, nodeLevel_updLevel, if_pos ⟨rfl, rfl⟩]
      have hW : 1 ≤ (getNode (updLevel s ai 0 fun l =>
          { l with subtreesize := l.subtreesize + (nodeLevel (getNode s e) 0).subtreesize -
            (getNode s e).dl.Len }) ai).levels.length := by
        rw [getNode_updLevel_levelsLength]
        exact hai_lv
      cases hl : (getNode (updLevel s ai 0 fun l =>
          { l with subtreesize := l.subtreesize + (nodeLevel (getNode s e) 0).subtreesize -
            (getNode s e).dl.Len }) ai).levels.get? 0 with
      | none =>
        have := List.get?_eq_none.mp hl
        omega
      | some l =>
        rw [next0, hnx]
        rfl
    · intro m hm
      rw [next0_updLevel_ne _ _ _ _ _ hm, next0_updLevel_sub]
    · intro m
      rw [getNode_updLevel_id, getNode_updLevel_id]
    · intro m
      rw [getNode_updLevel_dl, getNode_updLevel_dl]
    · intro m
      rw [getNode_updLevel_levelsLength, getNode_updLevel_levelsLength]
  | some nx =>
    simp only [hnx]
    refine ⟨rfl, rfl, rfl, rfl, ?_, ?_, ?_, ?_, ?_, ?_⟩
    · rw [updLevel_nodesLength, updLevel_nodesLength, updLevel_nodesLength]
    · rw [next0, nodeLevel_updLevel, if_pos ⟨rfl, rfl⟩]
      have hW : 1 ≤ (getNode (updLevel (updLevel s ai 0 fun l =>
          { l with subtreesize := l.subtreesize + (nodeLevel (getNode s e) 0).subtreesize -
            (getNode s e).dl.Len }) nx 0 fun l => { l with prev := ai }) ai).levels.length := by
        rw [getNode_updLevel_levelsLength, getNode_updLevel_levelsLength]
        exact hai_lv
      cases hl : (getNode (updLevel (updLevel s ai 0 fun l =>
          { l with subtreesize := l.subtreesize + (nodeLevel (getNode s e) 0).subtreesize -
            (getNode s e).dl.Len }) nx 0 fun l => { l with prev := ai }) ai).levels.get? 0 with
      | none =>
        have := List.get?_eq_none.mp hl
        omega
      | some l =>
        rw [next0, hnx]
        rfl
    · intro m hm
      rw [next0_updLevel_ne _ _ _ _ _ hm, next0_updLevel_prev, next0_updLevel_sub]
    · intro m
      rw [getNode_updLevel_id, getNode_updLevel_id, getNode_updLevel_id]
    · intro m
      rw [getNode_updLevel_dl, getNode_updLevel_dl, getNode_updLevel_dl]
    · intro m
      rw [getNode_updLevel_levelsLength, getNode_updLevel_levelsLength,
        getNode_updLevel_levelsLength]

/-- `returnToPool` changes nothing except (possibly) the pooled node itself and
the free list. -/
theorem returnToPool_pres (s : RopeImpl Id T) (e : Nat) :
    (returnToPool s e).len = s.len ∧
    (returnToPool s e).byId = s.byId ∧
    (returnToPool s e).lastId = s.lastId ∧
    (returnToPool s e).height = s.height ∧
    (returnToPool s e).nodes.length = s.nodes.length ∧
    (∀ m, m ≠ e → getNode (returnToPool s e) m = getNode s m) ∧
    (∀ m, (getNode (returnToPool s e) m).levels.length = (getNode s m).levels.length) := by
  rw [returnToPool]
  split
  · exact ⟨rfl, rfl, rfl, rfl, rfl, fun _ _ => rfl, fun _ => rfl⟩
  · refine ⟨rfl, rfl, rfl, rfl, updNode_nodesLength _ _ _, ?_, ?_⟩
    · intro m hm
      exact getNode_updNode_ne s e _ m hm
    · intro m
      refine getNode_updNode_levLen s e _ m (fun n => ?_)
      simp

theorem updNode_obsEq_iterRef (s : RopeImpl Id T) (e : Nat)
    (g : RopeNode Id T → Option IterRef) :
    ObsEq s (updNode s e fun n => { n with iterRef := g n }) := by
  refine ⟨rfl, rfl, rfl, rfl, updNode_nodesLength _ _ _, fun m => ?_, fun m => ?_,
    fun m => ?_, fun m => ?_⟩
  · apply next0_updNode_of_levels_eq
    intro n
    rfl
  · apply getNode_updNode_id
    intro n
    rfl
  · apply getNode_updNode_dl
    intro n
    rfl
  · apply getNode_updNode_levLen
    intro n
    rfl

/-- Effect of one full delete-loop iteration body on everything the argument
tracks: the length drops by the removed node's length, its identifier leaves
the index, the anchor's level-0 pointer skips to the removed node's successor,
and every other node keeps its identifier, payload, level count and level-0
pointer. -/
theorem deleteIter_effect (s : RopeImpl Id T) (ai e : Nat) (seek : List (Nat × Int))
    (sb : Int) (hseek0 : seek.get? 0 = some (ai, sb))
    (hai_lv : 1 ≤ (getNode s ai).levels.length)
    (he_lv : 1 ≤ (getNode s e).levels.length) (hne : e ≠ ai) (hh : 1 ≤ s.height) :
    (deleteIterState s e seek).len = s.len - (getNode s e).dl.Len ∧
    (deleteIterState s e seek).byId = eraseKey s.byId ((getNode s e).id) ∧
    (deleteIterState s e seek).lastId = s.lastId ∧
    (deleteIterState s e seek).height = s.height ∧
    (deleteIterState s e seek).nodes.length = s.nodes.length ∧
    next0 (deleteIterState s e seek) ai = next0 s e ∧
    (∀ m, m ≠ ai → m ≠ e → next0 (deleteIterState s e seek) m = next0 s m) ∧
    (∀ m, m ≠ e → (getNode (deleteIterState s e seek) m).id = (getNode s m).id) ∧
    (∀ m, m ≠ e → (getNode (deleteIterState s e seek) m).dl = (getNode s m).dl) ∧
    (∀ m, (getNode (deleteIterState s e seek) m).levels.length =
      (getNode s m).levels.length) := by
  suffices H : ∀ S1 : RopeImpl Id T, ObsEq s S1 →
      ∀ S4 : RopeImpl Id T,
      S4 = returnToPool (deleteRelink
        { S1 with byId := eraseKey S1.byId (getNode s e).id,
                  len := S1.len - (getNode s e).dl.Len } e seek) e →
      S4.len = s.len - (getNode s e).dl.Len ∧
      S4.byId = eraseKey s.byId ((getNode s e).id) ∧
      S4.lastId = s.lastId ∧ S4.height = s.height ∧ S4.nodes.length = s.nodes.length ∧
      next0 S4 ai = next0 s e ∧
      (∀ m, m ≠ ai → m ≠ e → next0 S4 m = next0 s m) ∧
      (∀ m, m ≠ e → (getNode S4 m).id = (getNode s m).id) ∧
      (∀ m, m ≠ e → (getNode S4 m).dl = (getNode s m).dl) ∧
      (∀ m, (getNode S4 m).levels.length = (getNode s m).levels.length) by
    simp only [deleteIterState]
    split
    · exact H _ (updNode_obsEq_iterRef s e _) _ rfl
    · exact H s (obsEq_refl s) _ rfl
  intro S1 hS1 S4 hS4
  obtain ⟨p1, p2, p3, p4, p5, p6, p7, p8, p9⟩ := hS1
  set S2 : RopeImpl Id T :=
    { S1 with byId := eraseKey S1.byId (getNode s e).id,
              len := S1.len - (getNode s e).dl.Len } with hS2
  have f2len : S2.len = s.len - (getNode s e).dl.Len := by
    show S1.len - (getNode s e).dl.Len = _
    rw [p1]
  have f2byId : S2.byId = eraseKey s.byId ((getNode s e).id) := by
    show eraseKey S1.byId (getNode s e).id = _
    rw [p2]
  have f2get : ∀ m, getNode S2 m = getNode S1 m := fun m => rfl
  have hS2ailv : 1 ≤ (getNode S2 ai).levels.length := by
    rw [f2get ai]
    rw [p9 ai]
    exact hai_lv
  have hS2elv : 1 ≤ (getNode S2 e).levels.length := by
    rw [f2get e]
    rw [p9 e]
    exact he_lv
  obtain ⟨q1, q2, q3, q4, q5, q6, q7, q8, q9, q10⟩ :=
    deleteRelinkStep0 S2 e ai seek sb hseek0 hS2ailv hS2elv
  have hrel : ObsEq (deleteRelinkStep S2 e seek 0) (deleteRelink S2 e seek) := by
    have hh2 : S2.height = s.height := p4
    obtain ⟨k, hk⟩ : ∃ k, s.height = k + 1 := ⟨s.height - 1, by omega⟩
    rw [deleteRelink, hh2, hk, List.range_succ_eq_map, List.foldl_cons]
    refine foldl_relinkStep_obsEq e seek _ _ ?_
    intro j hj
    obtain ⟨k', -, rfl⟩ := List.mem_map.mp hj
    exact Nat.succ_ne_zero k'
  obtain ⟨r1, r2, r3, r4, r5, r6, r7, r8, r9⟩ := hrel
  obtain ⟨t1, t2, t3, t4, t5, t6, t7⟩ := returnToPool_pres (deleteRelink S2 e seek) e
  subst hS4
  refine ⟨?_, ?_, ?_, ?_, ?_, ?_, ?_, ?_, ?_, ?_⟩
  · rw [t1, r1, q1, f2len]
  · rw [t2, r2, q2, f2byId]
  · rw [t3, r3, q3]
    exact p3
  · rw [t4, r4, q4]
    exact p4
  · rw [t5, r5, q5]
    exact p5
  · rw [next0, t6 ai (Ne.symm hne), ← next0]
    rw [r6 ai, q6]
    rw [next0, f2get e, ← next0]
    exact p6 e
  · intro m hma hme
    rw [next0, t6 m hme, ← next0, r6 m, q7 m hma]
    rw [next0, f2get m, ← next0]
    exact p6 m
  · intro m hme
    rw [t6 m hme, r7 m, q8 m]
    rw [f2get m]
    exact p7 m
  · intro m hme
    rw [t6 m hme, r8 m, q9 m]
    rw [f2get m]
    exact p8 m
  · intro m
    rw [t7 m, r9 m, q10 m]
    rw [f2get m]
    exact p9 m

/-- Once the fill index is positive, the seek loop never writes slot 0 again. -/
theorem seekLoop_get0_of_pos (r : RopeImpl Id T) :
    ∀ (fuel : Nat) (seek : List (Nat × Int)) (i : Nat) (cs : Nat × Int)
      (out : List (Nat × Int) × (Nat × Int)), 1 ≤ i →
      seekLoop r fuel seek i cs = some out → out.1.get? 0 = seek.get? 0 := by
  intro fuel
  induction fuel with
  | zero => intro seek i cs out hi h; cases h
  | succ fuel ih =>
    intro seek i cs out hi h
    simp only [seekLoop] at h
    split at h
    · obtain rfl := (Option.some.inj h).symm
      show (setRange cs i _ seek).get? 0 = seek.get? 0
      rw [get?_setRange, if_neg (by omega)]
    · have := ih _ _ _ _ (by omega : 1 ≤ max i (getNode r cs.1).levels.length) h
      rw [this, get?_setRange, if_neg (by omega)]

/-- Starting the seek loop at index 0 with a non-trivial anchor records the
anchor pair in slot 0 of `seek`. -/
theorem seekLoop_get0_start (r : RopeImpl Id T) (fuel : Nat) (seek : List (Nat × Int))
    (cs : Nat × Int) (out : List (Nat × Int) × (Nat × Int))
    (hlv : 1 ≤ (getNode r cs.1).levels.length) (hlen : 1 ≤ seek.length)
    (h : seekLoop r fuel seek 0 cs = some out) : out.1.get? 0 = some cs := by
  cases fuel with
  | zero => cases h
  | succ fuel =>
    simp only [seekLoop] at h
    split at h
    · obtain rfl := (Option.some.inj h).symm
      show (setRange cs 0 _ seek).get? 0 = some cs
      rw [get?_setRange, if_pos ⟨Nat.le_refl 0, by omega, by omega⟩]
    · have := seekLoop_get0_of_pos r _ _ _ _ _ (by omega : 1 ≤ max 0 (getNode r cs.1).levels.length) h
      rw [this, get?_setRange, if_pos ⟨Nat.le_refl 0, by omega, by omega⟩]

/-- A level-0 successor run survives any state change that keeps the level-0
pointers of its members. -/
theorem chainSeg_transfer (s s' : RopeImpl Id T) :
    ∀ (l : List Nat) (a : Nat), chainSeg s a l →
      (∀ q ∈ a :: l, next0 s' q = next0 s q) → chainSeg s' a l := by
  intro l
  induction l with
  | nil => intro a _ _; trivial
  | cons c rest ih =>
    intro a hc hn
    obtain ⟨h1, h2⟩ := hc
    refine ⟨(hn a (by simp)).trans h1, ih c h2 ?_⟩
    intro q hq
    exact hn q (by simp at hq ⊢; tauto)

theorem deleteRelinkStep_pool (s : RopeImpl Id T) (e : Nat) (seek : List (Nat × Int))
    (j : Nat) : (deleteRelinkStep s e seek j).nodePool = s.nodePool := by
  simp only [deleteRelinkStep]
  split
  · rfl
  · cases hnx : (nodeLevel (getNode s e) j).next <;> rfl

theorem deleteRelink_pool (s : RopeImpl Id T) (e : Nat) (seek : List (Nat × Int)) :
    (deleteRelink s e seek).nodePool = s.nodePool := by
  rw [deleteRelink]
  generalize List.range s.height = js
  induction js generalizing s with
  | nil => rfl
  | cons j js ih => rw [List.foldl_cons, ih, deleteRelinkStep_pool]

/-- The pool after one delete-loop iteration body: unchanged, or the removed
index appended. -/
theorem deleteIterState_pool (r : RopeImpl Id T) (e : Nat) (seek : List (Nat × Int)) :
    (deleteIterState r e seek).nodePool = r.nodePool ∨
    (deleteIterState r e seek).nodePool = r.nodePool ++ [e] := by
  have hbase : ∀ s : RopeImpl Id T, s.nodePool = r.nodePool →
      (returnToPool (deleteRelink s e seek) e).nodePool = r.nodePool ∨
      (returnToPool (deleteRelink s e seek) e).nodePool = r.nodePool ++ [e] := by
    intro s hs
    rw [returnToPool]
    split
    · left
      rw [deleteRelink_pool, hs]
    · right
      show (deleteRelink s e seek).nodePool ++ [e] = _
      rw [deleteRelink_pool, hs]
  simp only [deleteIterState]
  split
  · exact hbase _ rfl
  · exact hbase _ rfl

/-- Full specification of the delete loop along a known level-0 run: starting
from the anchor `ai`, the loop removes exactly the nodes of `P0 ++ [pl]` (where
`pl` is the first node carrying the stop identifier `X`), records them in
order, decreases the length by the sum of their lengths, drops their
identifiers from the index without adding any key, and preserves `lastId`, the
height and the store size. -/
theorem deleteLoop_spec (X : Id) (ai : Nat) (seek : List (Nat × Int)) (sb : Int)
    (hseek0 : seek.get? 0 = some (ai, sb)) :
    ∀ (P0 : List Nat) (pl fuel : Nat) (r : RopeImpl Id T) (removed : List (Removed Id T)),
      chainSeg r ai (P0 ++ [pl]) → (getNode r pl).id = X →
      (∀ q ∈ P0, (getNode r q).id ≠ X) →
      (ai :: (P0 ++ [pl])).Nodup →
      (∀ q ∈ P0 ++ [pl], 1 ≤ (getNode r q).levels.length) →
      1 ≤ (getNode r ai).levels.length → 1 ≤ r.height →
      (P0 ++ [pl]).length ≤ fuel →
      ∃ r2 : RopeImpl Id T,
        deleteLoop X ai seek fuel r removed =
          some (r2, removed ++ (P0 ++ [pl]).map fun q =>
            ⟨(getNode r q).id, (getNode r q).dl.Len, (getNode r q).dl.Data⟩) ∧
        r2.len = r.len - ((P0 ++ [pl]).map fun q => (getNode r q).dl.Len).sum ∧
        (∀ q ∈ P0 ++ [pl], lookupId r2.byId ((getNode r q).id) = none) ∧
        (∀ k, lookupId r.byId k = none → lookupId r2.byId k = none) ∧
        r2.lastId = r.lastId ∧ r2.height = r.height ∧
        r2.nodes.length = r.nodes.length ∧
        r2.byId = (P0 ++ [pl]).foldl (fun b q => eraseKey b ((getNode r q).id)) r.byId ∧
        next0 r2 ai = next0 r pl ∧
        (∀ m, m ≠ ai → m ∉ P0 ++ [pl] → next0 r2 m = next0 r m) ∧
        (∀ m, m ∉ P0 ++ [pl] → (getNode r2 m).id = (getNode r m).id) ∧
        (∀ m, m ∉ P0 ++ [pl] → (getNode r2 m).dl = (getNode r m).dl) ∧
        (∀ m, (getNode r2 m).levels.length = (getNode r m).levels.length) ∧
        ∃ E, E.Sublist (P0 ++ [pl]) ∧ r2.nodePool = r.nodePool ++ E := by
  intro P0
  induction P0 with
  | nil =>
    intro pl fuel r removed hchain hXpl _ hnd hlv hailv hh hfuel
    obtain ⟨f, rfl⟩ : ∃ f, fuel = f + 1 := ⟨fuel - 1, by simp at hfuel; omega⟩
    obtain ⟨hnext, -⟩ := hchain
    have hne : pl ≠ ai := by
      intro h
      exact (List.nodup_cons.mp hnd).1 (by simp [h])
    obtain ⟨E1, E2, E3, E4, E5, E6, E7, E8, E9, E10⟩ :=
      deleteIter_effect r ai pl seek sb hseek0 hailv (hlv pl (by simp)) hne hh
    refine ⟨deleteIterState r pl seek, ?_, ?_, ?_, ?_, E3, E4, E5, E2, E6, ?_, ?_, ?_,
      E10, ?_⟩
    · simp only [deleteLoop, hnext]
      rw [if_pos hXpl]
      simp
    · rw [E1]
      simp
    · intro q hq
      have hq' : q = pl := by simpa using hq
      subst hq'
      rw [E2]
      exact lookupId_eraseKey_self _ _
    · intro k hk
      rw [E2]
      exact lookupId_eraseKey_none _ _ _ hk
    · intro m hma hm
      exact E7 m hma (fun h => hm (by simp [h]))
    · intro m hm
      exact E8 m (fun h => hm (by simp [h]))
    · intro m hm
      exact E9 m (fun h => hm (by simp [h]))
    · rcases deleteIterState_pool r pl seek with h4 | h4
      · exact ⟨[], List.nil_sublist _, by rw [h4, List.append_nil]⟩
      · exact ⟨[pl], by simp, h4⟩
  | cons c rest ih =>
    intro pl fuel r removed hchain hXpl hXP0 hnd hlv hailv hh hfuel
    obtain ⟨f, rfl⟩ : ∃ f, fuel = f + 1 := ⟨fuel - 1, by simp at hfuel; omega⟩
    obtain ⟨hnext, hchain2⟩ := hchain
    have hcX : (getNode r c).id ≠ X := hXP0 c (by simp)
    have hai_notin : ai ∉ (c :: rest) ++ [pl] := (List.nodup_cons.mp hnd).1
    have hnd2 : ((c :: rest) ++ [pl]).Nodup := (List.nodup_cons.mp hnd).2
    have hc_notin : c ∉ rest ++ [pl] := (List.nodup_cons.mp hnd2).1
    have hcne : c ≠ ai := fun h => hai_notin (by simp [← h])
    have hmem_ne : ∀ q ∈ rest ++ [pl], q ≠ ai ∧ q ≠ c := by
      intro q hq
      exact ⟨fun h => hai_notin (List.mem_cons.mpr (Or.inr (h ▸ hq))),
             fun h => hc_notin (h ▸ hq)⟩
    obtain ⟨E1, E2, E3, E4, E5, E6, E7, E8, E9, E10⟩ :=
      deleteIter_effect r ai c seek sb hseek0 hailv (hlv c (by simp)) hcne hh
    have hchain4 : chainSeg (deleteIterState r c seek) ai (rest ++ [pl]) := by
      cases rest with
      | nil =>
        obtain ⟨h1, -⟩ := hchain2
        exact ⟨E6.trans h1, trivial⟩
      | cons d rest' =>
        obtain ⟨h1, h2⟩ := hchain2
        refine ⟨E6.trans h1, chainSeg_transfer r (deleteIterState r c seek)
          (rest' ++ [pl]) d h2 ?_⟩
        intro q hq
        have hq' : q ∈ (d :: rest') ++ [pl] := hq
        exact E7 q (hmem_ne q hq').1 (hmem_ne q hq').2
    have hplmem : pl ∈ rest ++ [pl] := List.mem_append.mpr (Or.inr (by simp))
    have hXpl4 : (getNode (deleteIterState r c seek) pl).id = X :=
      (E8 pl (hmem_ne pl hplmem).2).trans hXpl
    have hXP04 : ∀ q ∈ rest, (getNode (deleteIterState r c seek) q).id ≠ X := by
      intro q hq
      rw [E8 q (hmem_ne q (List.mem_append.mpr (Or.inl hq))).2]
      exact hXP0 q (List.mem_cons_of_mem c hq)
    have hnd4 : (ai :: (rest ++ [pl])).Nodup :=
      hnd.sublist (List.Sublist.cons₂ ai (List.sublist_cons_self c (rest ++ [pl])))
    have hlv4 : ∀ q ∈ rest ++ [pl],
        1 ≤ (getNode (deleteIterState r c seek) q).levels.length := by
      intro q hq
      rw [E10 q]
      exact hlv q (List.mem_cons_of_mem c hq)
    have hailv4 : 1 ≤ (getNode (deleteIterState r c seek) ai).levels.length := by
      rw [E10 ai]
      exact hailv
    have hh4 : 1 ≤ (deleteIterState r c seek).height := by
      rw [E4]
      exact hh
    have hfuel4 : (rest ++ [pl]).length ≤ f := by
      simp only [List.cons_append, List.length_append, List.length_cons] at hfuel ⊢
      omega
    obtain ⟨r2, hEq, hLen, hAbs, hMono, hLast, hHt, hNl, hById, hNextAi, hNextO,
      hIdO, hDlO, hLvO, E', hsubE, hpoolE⟩ :=
      ih pl f (deleteIterState r c seek)
        (removed ++ [⟨(getNode r c).id, (getNode r c).dl.Len, (getNode r c).dl.Data⟩])
        hchain4 hXpl4 hXP04 hnd4 hlv4 hailv4 hh4 hfuel4
    have hmap_id : ((rest ++ [pl]).map fun q =>
        (⟨(getNode (deleteIterState r c seek) q).id,
          (getNode (deleteIterState r c seek) q).dl.Len,
          (getNode (deleteIterState r c seek) q).dl.Data⟩ : Removed Id T)) =
        (rest ++ [pl]).map fun q =>
          ⟨(getNode r q).id, (getNode r q).dl.Len, (getNode r q).dl.Data⟩ := by
      refine List.map_congr_left ?_
      intro q hq
      rw [E8 q (hmem_ne q hq).2, E9 q (hmem_ne q hq).2]
    have hmap_len : ((rest ++ [pl]).map fun q =>
        (getNode (deleteIterState r c seek) q).dl.Len) =
        (rest ++ [pl]).map fun q => (getNode r q).dl.Len := by
      refine List.map_congr_left ?_
      intro q hq
      rw [E9 q (hmem_ne q hq).2]
    refine ⟨r2, ?_, ?_, ?_, ?_, hLast.trans E3, hHt.trans E4, hNl.trans E5, ?_,
      hNextAi.trans (E7 pl (hmem_ne pl hplmem).1 (hmem_ne pl hplmem).2), ?_, ?_, ?_,
      fun m => (hLvO m).trans (E10 m), ?_⟩
    · simp only [deleteLoop, hnext]
      rw [if_neg hcX, hEq, hmap_id]
      simp
    · rw [hLen, hmap_len, E1]
      simp [sub_sub]
    · intro q hq
      rcases List.mem_cons.mp hq with rfl | hq'
      · refine hMono _ ?_
        rw [E2]
        exact lookupId_eraseKey_self _ _
      · have h := hAbs q hq'
        rw [E8 q (hmem_ne q hq').2] at h
        exact h
    · intro k hk
      refine hMono k ?_
      rw [E2]
      exact lookupId_eraseKey_none _ _ _ hk
    · have hfold : (rest ++ [pl]).foldl
          (fun b q => eraseKey b ((getNode (deleteIterState r c seek) q).id))
          (deleteIterState r c seek).byId =
        (rest ++ [pl]).foldl (fun b q => eraseKey b ((getNode r q).id))
          (deleteIterState r c seek).byId := by
        refine List.foldl_ext _ _ _ ?_
        intro b q hq
        rw [E8 q (hmem_ne q hq).2]
      rw [hById, hfold, E2]
      rfl
    · intro m hma hm
      have hm1 : m ≠ c := fun h => hm (by simp [h])
      have hm2 : m ∉ rest ++ [pl] := fun h => hm (List.mem_cons.mpr (Or.inr h))
      exact (hNextO m hma hm2).trans (E7 m hma hm1)
    · intro m hm
      have hm1 : m ≠ c := fun h => hm (by simp [h])
      have hm2 : m ∉ rest ++ [pl] := fun h => hm (List.mem_cons.mpr (Or.inr h))
      exact (hIdO m hm2).trans (E8 m hm1)
    · intro m hm
      have hm1 : m ≠ c := fun h => hm (by simp [h])
      have hm2 : m ∉ rest ++ [pl] := fun h => hm (List.mem_cons.mpr (Or.inr h))
      exact (hDlO m hm2).trans (E9 m hm1)
    · rcases deleteIterState_pool r c seek with h4 | h4
      · refine ⟨E', ?_, by rw [hpoolE, h4]⟩
        exact hsubE.trans (List.sublist_cons_self c (rest ++ [pl]))
      · refine ⟨c :: E', List.Sublist.cons₂ c hsubE, ?_⟩
        rw [hpoolE, h4, List.append_assoc]
        rfl

theorem getLastD_append (u v : List Nat) (d : Nat) :
    (u ++ v).getLastD d = v.getLastD (u.getLastD d) := by
  induction u generalizing d with
  | nil => rfl
  | cons c u ih =>
    rw [List.cons_append, List.getLastD_cons, List.getLastD_cons, ih]

theorem getLastD_mem : ∀ (l : List Nat) (d : Nat), l = [] ∨ l.getLastD d ∈ l := by
  intro l
  induction l with
  | nil => exact fun _ => Or.inl rfl
  | cons c rest ih =>
    intro d
    right
    rw [List.getLastD_cons]
    rcases ih c with h | h
    · subst h
      simp
    · exact List.mem_cons_of_mem c h

/-- Specification of the delete loop when the stop identifier never occurs on
the remaining run `P` (which ends the level-0 list): every node of `P` is
removed and `lastId` becomes the anchor's identifier. -/
theorem deleteLoop_runoff (X : Id) (ai : Nat) (seek : List (Nat × Int)) (sb : Int)
    (hseek0 : seek.get? 0 = some (ai, sb)) :
    ∀ (P : List Nat) (fuel : Nat) (r : RopeImpl Id T) (removed : List (Removed Id T)),
      chainSeg r ai P →
      next0 r (P.getLastD ai) = none →
      (∀ q ∈ P, (getNode r q).id ≠ X) →
      (ai :: P).Nodup →
      (∀ q ∈ P, 1 ≤ (getNode r q).levels.length) →
      1 ≤ (getNode r ai).levels.length → 1 ≤ r.height →
      P.length + 1 ≤ fuel →
      ∃ r2 : RopeImpl Id T,
        deleteLoop X ai seek fuel r removed =
          some (r2, removed ++ P.map fun q =>
            ⟨(getNode r q).id, (getNode r q).dl.Len, (getNode r q).dl.Data⟩) ∧
        r2.len = r.len - (P.map fun q => (getNode r q).dl.Len).sum ∧
        (∀ q ∈ P, lookupId r2.byId ((getNode r q).id) = none) ∧
        (∀ k, lookupId r.byId k = none → lookupId r2.byId k = none) ∧
        r2.lastId = (getNode r ai).id ∧ r2.height = r.height ∧
        r2.nodes.length = r.nodes.length ∧
        r2.byId = P.foldl (fun b q => eraseKey b ((getNode r q).id)) r.byId ∧
        next0 r2 ai = none ∧
        (∀ m, m ≠ ai → m ∉ P → next0 r2 m = next0 r m) ∧
        (∀ m, m ∉ P → (getNode r2 m).id = (getNode r m).id) ∧
        (∀ m, m ∉ P → (getNode r2 m).dl = (getNode r m).dl) ∧
        (∀ m, (getNode r2 m).levels.length = (getNode r m).levels.length) ∧
        ∃ E, E.Sublist P ∧ r2.nodePool = r.nodePool ++ E := by
  intro P
  induction P with
  | nil =>
    intro fuel r removed _ hnone _ _ _ _ _ hfuel
    obtain ⟨f, rfl⟩ : ∃ f, fuel = f + 1 := ⟨fuel - 1, by omega⟩
    have hnone' : next0 r ai = none := hnone
    refine ⟨{ r with lastId := (getNode r ai).id }, ?_, by simp, ?_, fun k hk => hk,
      rfl, rfl, rfl, rfl, hnone', fun m _ _ => rfl, fun m _ => rfl, fun m _ => rfl,
      fun m => rfl, [], List.nil_sublist _, by rw [List.append_nil]⟩
    · simp only [deleteLoop, hnone']
      simp
    · intro q hq
      cases hq
  | cons c rest ih =>
    intro fuel r removed hchain hnone hXs hnd hlv hailv hh hfuel
    obtain ⟨f, rfl⟩ : ∃ f, fuel = f + 1 := ⟨fuel - 1, by simp at hfuel; omega⟩
    obtain ⟨hnext, hchain2⟩ := hchain
    have hcX : (getNode r c).id ≠ X := hXs c (by simp)
    have hai_notin : ai ∉ c :: rest := (List.nodup_cons.mp hnd).1
    have hnd2 : (c :: rest).Nodup := (List.nodup_cons.mp hnd).2
    have hc_notin : c ∉ rest := (List.nodup_cons.mp hnd2).1
    have hcne : c ≠ ai := fun h => hai_notin (by simp [← h])
    have hmem_ne : ∀ q ∈ rest, q ≠ ai ∧ q ≠ c := by
      intro q hq
      exact ⟨fun h => hai_notin (List.mem_cons.mpr (Or.inr (h ▸ hq))),
             fun h => hc_notin (h ▸ hq)⟩
    obtain ⟨E1, E2, E3, E4, E5, E6, E7, E8, E9, E10⟩ :=
      deleteIter_effect r ai c seek sb hseek0 hailv (hlv c (by simp)) hcne hh
    have hchain4 : chainSeg (deleteIterState r c seek) ai rest := by
      cases rest with
      | nil => trivial
      | cons d rest' =>
        obtain ⟨h1, h2⟩ := hchain2
        refine ⟨E6.trans h1, chainSeg_transfer r (deleteIterState r c seek) rest' d h2 ?_⟩
        intro q hq
        exact E7 q (hmem_ne q hq).1 (hmem_ne q hq).2
    have hnone4 : next0 (deleteIterState r c seek) (rest.getLastD ai) = none := by
      rcases getLastD_mem rest ai with hre | hmem
      · subst hre
        show next0 (deleteIterState r c seek) ai = none
        rw [E6]
        rw [List.getLastD_cons] at hnone
        exact hnone
      · rw [E7 _ (hmem_ne _ hmem).1 (hmem_ne _ hmem).2]
        rw [List.getLastD_cons] at hnone
        rcases getLastD_mem rest c with hre | _
        · simp [hre] at hmem
        · have : rest.getLastD ai = rest.getLastD c := by
            cases rest with
            | nil => simp at hmem
            | cons d rest' => rw [List.getLastD_cons, List.getLastD_cons]
          rw [this]
          exact hnone
    have hXs4 : ∀ q ∈ rest, (getNode (deleteIterState r c seek) q).id ≠ X := by
      intro q hq
      rw [E8 q (hmem_ne q hq).2]
      exact hXs q (List.mem_cons_of_mem c hq)
    have hnd4 : (ai :: rest).Nodup :=
      hnd.sublist (List.Sublist.cons₂ ai (List.sublist_cons_self c rest))
    have hlv4 : ∀ q ∈ rest, 1 ≤ (getNode (deleteIterState r c seek) q).levels.length := by
      intro q hq
      rw [E10 q]
      exact hlv q (List.mem_cons_of_mem c hq)
    have hailv4 : 1 ≤ (getNode (deleteIterState r c seek) ai).levels.length := by
      rw [E10 ai]
      exact hailv
    have hh4 : 1 ≤ (deleteIterState r c seek).height := by
      rw [E4]
      exact hh
    have hfuel4 : rest.length + 1 ≤ f := by
      simp only [List.length_cons] at hfuel
      omega
    obtain ⟨r2, hEq, hLen, hAbs, hMono, hLast, hHt, hNl, hById, hNextAi, hNextO,
      hIdO, hDlO, hLvO, E', hsubE, hpoolE⟩ :=
      ih f (deleteIterState r c seek)
        (removed ++ [⟨(getNode r c).id, (getNode r c).dl.Len, (getNode r c).dl.Data⟩])
        hchain4 hnone4 hXs4 hnd4 hlv4 hailv4 hh4 hfuel4
    have hmap_id : (rest.map fun q =>
        (⟨(getNode (deleteIterState r c seek) q).id,
          (getNode (deleteIterState r c seek) q).dl.Len,
          (getNode (deleteIterState r c seek) q).dl.Data⟩ : Removed Id T)) =
        rest.map fun q =>
          ⟨(getNode r q).id, (getNode r q).dl.Len, (getNode r q).dl.Data⟩ := by
      refine List.map_congr_left ?_
      intro q hq
      rw [E8 q (hmem_ne q hq).2, E9 q (hmem_ne q hq).2]
    have hmap_len : (rest.map fun q =>
        (getNode (deleteIterState r c seek) q).dl.Len) =
        rest.map fun q => (getNode r q).dl.Len := by
      refine List.map_congr_left ?_
      intro q hq
      rw [E9 q (hmem_ne q hq).2]
    refine ⟨r2, ?_, ?_, ?_, ?_, hLast.trans (E8 ai (Ne.symm hcne)), hHt.trans E4,
      hNl.trans E5, ?_, hNextAi, ?_, ?_, ?_, fun m => (hLvO m).trans (E10 m), ?_⟩
    · simp only [deleteLoop, hnext]
      rw [if_neg hcX, hEq, hmap_id]
      simp
    · rw [hLen, hmap_len, E1]
      simp [sub_sub]
    · intro q hq
      rcases List.mem_cons.mp hq with rfl | hq'
      · refine hMono _ ?_
        rw [E2]
        exact lookupId_eraseKey_self _ _
      · have h := hAbs q hq'
        rw [E8 q (hmem_ne q hq').2] at h
        exact h
    · intro k hk
      refine hMono k ?_
      rw [E2]
      exact lookupId_eraseKey_none _ _ _ hk
    · have hfold : rest.foldl
          (fun b q => eraseKey b ((getNode (deleteIterState r c seek) q).id))
          (deleteIterState r c seek).byId =
        rest.foldl (fun b q => eraseKey b ((getNode r q).id))
          (deleteIterState r c seek).byId := by
        refine List.foldl_ext _ _ _ ?_
        intro b q hq
        rw [E8 q (hmem_ne q hq).2]
      rw [hById, hfold, E2]
      rfl
    · intro m hma hm
      have hm1 : m ≠ c := fun h => hm (by simp [h])
      have hm2 : m ∉ rest := fun h => hm (List.mem_cons.mpr (Or.inr h))
      exact (hNextO m hma hm2).trans (E7 m hma hm1)
    · intro m hm
      have hm1 : m ≠ c := fun h => hm (by simp [h])
      have hm2 : m ∉ rest := fun h => hm (List.mem_cons.mpr (Or.inr h))
      exact (hIdO m hm2).trans (E8 m hm1)
    · intro m hm
      have hm1 : m ≠ c := fun h => hm (by simp [h])
      have hm2 : m ∉ rest := fun h => hm (List.mem_cons.mpr (Or.inr h))
      exact (hDlO m hm2).trans (E9 m hm1)
    · rcases deleteIterState_pool r c seek with h4 | h4
      · refine ⟨E', ?_, by rw [hpoolE, h4]⟩
        exact hsubE.trans (List.sublist_cons_self c rest)
      · refine ⟨c :: E', List.Sublist.cons₂ c hsubE, ?_⟩
        rw [hpoolE, h4, List.append_assoc]
        rfl

/-- C1: for a call `Splice(anchor, &X, nil, _)` on a state where the anchor
resolves to node `ai`, `X` differs from the anchor identifier, and `X` is
reachable along the level-0 successor run `P0 ++ [pl]` after the anchor (`pl`
carrying `X`, the nodes of `P0` strictly between not carrying it): the call
reports no error, the returned removed list is exactly the (identifier,
length, payload) records of the removed nodes in sequence order, the total
length decreases by the sum of the removed lengths, and the identifier `X`
together with every identifier strictly between the anchor and `X` is absent
from the identifier index afterwards. -/
theorem thm_splice_delete_range (lenOf : T → Int) (r : RopeImpl Id T) (afterId X : Id)
    (data : T) (ht : Nat) (ai : Nat) (P0 : List Nat) (pl : Nat)
    (res : RopeImpl Id T × List (Removed Id T) × Option RopeErr)
    (hai : anchorOf r afterId = some ai)
    (hX : X ≠ afterId)
    (hchain : chainSeg r ai (P0 ++ [pl]))
    (hXpl : (getNode r pl).id = X)
    (hXP0 : ∀ q ∈ P0, (getNode r q).id ≠ X)
    (hnd : (ai :: (P0 ++ [pl])).Nodup)
    (hvalid : ∀ q ∈ P0 ++ [pl], q < r.nodes.length ∧ 1 ≤ (getNode r q).levels.length)
    (hailv : 1 ≤ (getNode r ai).levels.length)
    (hh : 1 ≤ r.height)
    (hres : Splice lenOf r afterId (some X) none data ht = some res) :
    res.2.2 = none ∧
    res.2.1 = ((P0 ++ [pl]).map fun q =>
      ⟨(getNode r q).id, (getNode r q).dl.Len, (getNode r q).dl.Data⟩) ∧
    res.1.len = r.len - ((P0 ++ [pl]).map fun q => (getNode r q).dl.Len).sum ∧
    (∀ q ∈ P0 ++ [pl], lookupId res.1.byId ((getNode r q).id) = none) := by
  obtain ⟨r1', rm', e'⟩ := res
  have hndTail : (P0 ++ [pl]).Nodup := (List.nodup_cons.mp hnd).2
  have hlenb : (P0 ++ [pl]).length ≤ r.nodes.length := by
    have h1 : (P0 ++ [pl]).toFinset.card = (P0 ++ [pl]).length :=
      List.toFinset_card_of_nodup hndTail
    have h2 : (P0 ++ [pl]).toFinset ⊆ Finset.range r.nodes.length := by
      intro x hx
      exact Finset.mem_range.mpr (hvalid x (List.mem_toFinset.mp hx)).1
    calc (P0 ++ [pl]).length = (P0 ++ [pl]).toFinset.card := h1.symm
      _ ≤ (Finset.range r.nodes.length).card := Finset.card_le_card h2
      _ = r.nodes.length := Finset.card_range _
  rcases hsk : seekLoop r (r.nodes.length + r.height + 1)
      (List.replicate r.height seekZero) 0 (ai, (getNode r ai).dl.Len) with
    _ | ⟨seek, cs⟩
  · simp [Splice, hai, spliceInner, hsk, hX] at hres
  · have hseek0 : seek.get? 0 = some (ai, (getNode r ai).dl.Len) :=
      seekLoop_get0_start r _ _ _ _ hailv (by simpa using hh) hsk
    obtain ⟨r2, hEq, hLen, hAbs, hMono, hLast, hHt, hNl, -, -, -, -, -, -, -⟩ :=
      deleteLoop_spec X ai seek ((getNode r ai).dl.Len) hseek0 P0 pl
        (r.nodes.length + 1) r [] hchain hXpl hXP0 hnd
        (fun q hq => (hvalid q hq).2) hailv hh (by omega)
    simp [Splice, hai, spliceInner, hsk, hEq, hX] at hres
    obtain ⟨h1, h2, h3⟩ := hres
    refine ⟨h3.symm, by simp [← h2], ?_, ?_⟩
    · have hlen1 : r1'.len = r2.len := by
        rw [← h1]
        split <;> rfl
      rw [hlen1, hLen]
    · intro q hq
      have hby : r1'.byId = r2.byId := by
        rw [← h1]
        split <;> rfl
      rw [hby]
      exact hAbs q hq

/-- Witness for C1: on the concrete two-entry rope `exRope`, deleting from the
head anchor up to identifier 2 removes entries 1 and 2, returns their records
in order, drops the length by 5 and leaves both identifiers unindexed. -/
theorem thm_splice_delete_range_witness :
    c1res.2.2 = none ∧
    c1res.2.1 = (([1] ++ [2] : List Nat).map fun q =>
      ⟨(getNode exRope q).id, (getNode exRope q).dl.Len, (getNode exRope q).dl.Data⟩) ∧
    c1res.1.len = exRope.len -
      (([1] ++ [2] : List Nat).map fun q => (getNode exRope q).dl.Len).sum ∧
    (∀ q ∈ ([1] ++ [2] : List Nat), lookupId c1res.1.byId ((getNode exRope q).id) = none) :=
  thm_splice_delete_range strLen exRope 0 2 "" 1 0 [1] 2 c1res
    (by decide) (by decide) ⟨by decide, by decide, trivial⟩ (by decide) (by decide)
    (by decide) (by decide) (by decide) (by decide) (by decide)

end DeleteRange

section C3LenSum

set_option linter.unusedSectionVars false

variable {Id T : Type} [DecidableEq Id] [Inhabited Id] [Inhabited T]

theorem eraseKey_append (u v : List (Id × Nat)) (k : Id) :
    eraseKey (u ++ v) k = eraseKey u k ++ eraseKey v k := by
  induction u with
  | nil => rfl
  | cons p ps ih =>
    show eraseKey (p :: (ps ++ v)) k = _
    by_cases hp : p.1 = k
    · simp only [eraseKey, if_pos hp, ih]
    · simp only [eraseKey, if_neg hp, ih, List.cons_append]

theorem eraseKey_of_all_ne (u : List (Id × Nat)) (k : Id)
    (h : ∀ p ∈ u, p.1 ≠ k) : eraseKey u k = u := by
  induction u with
  | nil => rfl
  | cons p ps ih =>
    show eraseKey (p :: ps) k = _
    rw [eraseKey, if_neg (h p (by simp)), ih (fun q hq => h q (List.mem_cons_of_mem p hq))]

theorem lookupId_eq_none_iff (l : List (Id × Nat)) (k : Id) :
    lookupId l k = none ↔ ∀ p ∈ l, p.1 ≠ k := by
  induction l with
  | nil => simp [lookupId]
  | cons p ps ih =>
    by_cases hp : p.1 = k
    · simp [lookupId, hp]
    · simp only [lookupId, if_neg hp, ih, List.mem_cons]
      constructor
      · intro h q hq
        rcases hq with rfl | hq'
        · exact hp
        · exact h q hq'
      · intro h q hq
        exact h q (Or.inr hq)

theorem eraseKey_of_none (l : List (Id × Nat)) (k : Id)
    (h : lookupId l k = none) : eraseKey l k = l :=
  eraseKey_of_all_ne l k ((lookupId_eq_none_iff l k).mp h)

theorem lookupId_some_mem (l : List (Id × Nat)) (k : Id) (n : Nat)
    (h : lookupId l k = some n) : (k, n) ∈ l := by
  induction l with
  | nil => cases h
  | cons p ps ih =>
    by_cases hp : p.1 = k
    · rw [lookupId, if_pos hp] at h
      obtain rfl := Option.some.inj h
      have he : (k, p.2) = p := by rw [← hp]
      exact he ▸ List.mem_cons_self p ps
    · rw [lookupId, if_neg hp] at h
      exact List.mem_cons_of_mem p (ih h)

theorem eraseKey_perm {l l' : List (Id × Nat)} (h : l.Perm l') (k : Id) :
    (eraseKey l k).Perm (eraseKey l' k) := by
  induction h with
  | nil => exact List.Perm.refl _
  | cons x h ih =>
    by_cases hx : x.1 = k
    · simpa [eraseKey, hx] using ih
    · simpa [eraseKey, hx] using ih.cons x
  | swap x y l =>
    by_cases hx : x.1 = k <;> by_cases hy : y.1 = k
    · simp [eraseKey, hx, hy]
    · simp only [eraseKey, if_pos hx, if_neg hy]
      exact List.Perm.refl _
    · simp only [eraseKey, if_pos hy, if_neg hx]
      exact List.Perm.refl _
    · simp only [eraseKey, if_neg hx, if_neg hy]
      exact List.Perm.swap x y _
  | trans h1 h2 ih1 ih2 => exact ih1.trans ih2

/-- Erasing, in order, the identifiers of a run of nodes from an index that is
(up to order) `U ++ run-pairs ++ V` leaves `U ++ V`, provided the erased
identifiers are distinct and occur in neither `U` nor `V`. -/
theorem erase_ids_perm (r : RopeImpl Id T) :
    ∀ (R : List Nat) (U V W : List (Id × Nat)),
      W.Perm (U ++ (R.map fun q => ((getNode r q).id, q)) ++ V) →
      (∀ p ∈ U, ∀ q ∈ R, p.1 ≠ (getNode r q).id) →
      (∀ p ∈ V, ∀ q ∈ R, p.1 ≠ (getNode r q).id) →
      (R.map fun q => (getNode r q).id).Nodup →
      (R.foldl (fun b q => eraseKey b ((getNode r q).id)) W).Perm (U ++ V) := by
  intro R
  induction R with
  | nil =>
    intro U V W hW _ _ _
    simpa using hW
  | cons c R ih =>
    intro U V W hW hU hV hnd
    simp only [List.map_cons, List.nodup_cons] at hnd
    have h2 := eraseKey_perm hW ((getNode r c).id)
    rw [eraseKey_append, eraseKey_append,
      eraseKey_of_all_ne U _ (fun p hp => hU p hp c (by simp)),
      eraseKey_of_all_ne V _ (fun p hp => hV p hp c (by simp))] at h2
    have h3 : eraseKey ((c :: R).map fun q => ((getNode r q).id, q)) ((getNode r c).id)
        = R.map fun q => ((getNode r q).id, q) := by
      show eraseKey (((getNode r c).id, c) :: _) _ = _
      rw [eraseKey, if_pos rfl]
      refine eraseKey_of_all_ne _ _ ?_
      intro p hp
      obtain ⟨q, hq, rfl⟩ := List.mem_map.mp hp
      exact fun e => hnd.1 (e ▸ List.mem_map_of_mem _ hq)
    rw [h3] at h2
    refine ih U V _ h2 (fun p hp q hq => hU p hp q (List.mem_cons_of_mem c hq))
      (fun p hp q hq => hV p hp q (List.mem_cons_of_mem c hq)) hnd.2

theorem chainSeg_append (r : RopeImpl Id T) :
    ∀ (u : List Nat) (a : Nat) (v : List Nat),
      chainSeg r a (u ++ v) ↔ (chainSeg r a u ∧ chainSeg r (u.getLastD a) v) := by
  intro u
  induction u with
  | nil =>
    intro a v
    exact ⟨fun h => ⟨trivial, h⟩, fun h => h.2⟩
  | cons c u ih =>
    intro a v
    show (next0 r a = some c ∧ chainSeg r c (u ++ v)) ↔
      (next0 r a = some c ∧ chainSeg r c u) ∧ chainSeg r ((c :: u).getLastD a) v
    rw [ih c v, List.getLastD_cons]
    constructor
    · intro ⟨h1, h2, h3⟩
      exact ⟨⟨h1, h2⟩, h3⟩
    · intro ⟨⟨h1, h2⟩, h3⟩
      exact ⟨h1, h2, h3⟩

theorem exists_first_split {α : Type} (p : α → Prop) :
    ∀ l : List α,
      (∀ x ∈ l, ¬ p x) ∨ ∃ u x v, l = u ++ x :: v ∧ (∀ y ∈ u, ¬ p y) ∧ p x := by
  intro l
  induction l with
  | nil =>
    left
    simp
  | cons c l ih =>
    by_cases hc : p c
    · right
      exact ⟨[], c, l, rfl, by simp, hc⟩
    · rcases ih with h | ⟨u, x, v, rfl, hu, hx⟩
      · left
        intro y hy
        rcases List.mem_cons.mp hy with rfl | hy'
        · exact hc
        · exact h y hy'
      · right
        refine ⟨c :: u, x, v, rfl, ?_, hx⟩
        intro y hy
        rcases List.mem_cons.mp hy with rfl | hy'
        · exact hc
        · exact hu y hy'

theorem getNode_growHead (r : RopeImpl Id T) (x : RopeLevel) (h0 : 0 < r.nodes.length) :
    getNode (updNode r 0 fun n => { n with levels := n.levels ++ [x] }) 0 =
      { getNode r 0 with levels := (getNode r 0).levels ++ [x] } := by
  rw [getNode_updNode, if_pos rfl, getNode_eq]
  cases hn : r.nodes.get? 0 with
  | none =>
    exact absurd (List.get?_eq_none.mp hn) (by omega)
  | some n => rfl

theorem next0_growHead (r : RopeImpl Id T) (x : RopeLevel)
    (h0 : 1 ≤ (getNode r 0).levels.length) (m : Nat) :
    next0 (updNode r 0 fun n => { n with levels := n.levels ++ [x] }) m = next0 r m := by
  by_cases hm : m = 0
  · subst hm
    cases hn : r.nodes.get? 0 with
    | none =>
      have hd : getNode r 0 = default := by rw [getNode_eq, hn]; rfl
      have hz : (getNode r 0).levels.length = 0 := by rw [hd, default_node_levels]; rfl
      omega
    | some n =>
      have hg : getNode r 0 = n := by rw [getNode_eq, hn]; rfl
      rw [next0, next0, getNode_updNode, if_pos rfl, hn]
      simp only [Option.map_some', Option.getD_some]
      rw [hg] at h0
      rw [hg, nodeLevel_eq, nodeLevel_eq]
      show ((((n.levels ++ [x]).get? 0).getD default)).next = _
      rw [List.get?_append (by omega)]
  · rw [next0, next0, getNode_updNode_ne r 0 _ m hm]

theorem next0_updLevel_self (r : RopeImpl Id T) (i : Nat) (f : RopeLevel → RopeLevel)
    (hlv : 0 < (getNode r i).levels.length) :
    next0 (updLevel r i 0 f) i = (f (nodeLevel (getNode r i) 0)).next := by
  rw [next0, nodeLevel_updLevel, if_pos ⟨rfl, rfl⟩]
  cases hl : (getNode r i).levels.get? 0 with
  | none =>
    exact absurd (List.get?_eq_none.mp hl) (by omega)
  | some l =>
    simp only [Option.map_some', Option.getD_some]
    rw [nodeLevel_eq, hl]
    rfl

/-- The counter bump above the new node's height also preserves the index, the
pool, the height, every level-0 pointer and every node's level count. -/
theorem bumpTail_frame (seek : List (Nat × Int)) (length : Int) (ht : Nat)
    (r : RopeImpl Id T) (hht : 1 ≤ ht) :
    (bumpTail seek length ht r).byId = r.byId ∧
    (bumpTail seek length ht r).nodePool = r.nodePool ∧
    (bumpTail seek length ht r).height = r.height ∧
    (∀ m, next0 (bumpTail seek length ht r) m = next0 r m) ∧
    (∀ m, (getNode (bumpTail seek length ht r) m).levels.length =
      (getNode r m).levels.length) := by
  rw [bumpTail]
  have hmem : ∀ x ∈ List.range' ht (seek.length - ht), 1 ≤ x := by
    intro x hx
    have := (List.mem_range'_1.mp hx).1
    omega
  revert hmem
  generalize List.range' ht (seek.length - ht) = l
  intro hmem
  induction l generalizing r with
  | nil => exact ⟨rfl, rfl, rfl, fun _ => rfl, fun _ => rfl⟩
  | cons x xs ih =>
    simp only [List.foldl_cons]
    have hx : 1 ≤ x := hmem x (by simp)
    obtain ⟨e1, e2, e3, e4, e5⟩ :=
      ih (updLevel r ((seek.get? x).getD seekZero).1 x fun l =>
        { l with subtreesize := l.subtreesize + length })
        (fun y hy => hmem y (List.mem_cons_of_mem x hy))
    refine ⟨e1, e2, e3,
      fun m => (e4 m).trans (next0_updLevel_pos _ _ _ _ m (by omega)),
      fun m => (e5 m).trans (getNode_updLevel_levelsLength _ _ _ _ m)⟩

/-- The linking loop at levels `1` and above: the index, pool, every level-0
pointer and every non-head level count are untouched; the height and the
head's level count only grow. -/
theorem insertLevels_frame (seek : List (Nat × Int)) (newIdx : Nat) (length : Int) :
    ∀ (c i : Nat) (r : RopeImpl Id T) (cs : Nat × Int) (p : RopeImpl Id T × (Nat × Int)),
      1 ≤ i → 1 ≤ (getNode r 0).levels.length → 0 < r.nodes.length →
      insertLevels seek newIdx length c i r cs = some p →
      p.1.byId = r.byId ∧ p.1.nodePool = r.nodePool ∧ r.height ≤ p.1.height ∧
      (∀ m, next0 p.1 m = next0 r m) ∧
      (∀ m, m ≠ 0 → (getNode p.1 m).levels.length = (getNode r m).levels.length) ∧
      (getNode r 0).levels.length ≤ (getNode p.1 0).levels.length := by
  intro c
  induction c with
  | zero =>
    intro i r cs p _ _ _ h
    simp only [insertLevels, Option.some.injEq] at h
    subst h
    exact ⟨rfl, rfl, Nat.le_refl _, fun _ => rfl, fun _ _ => rfl, Nat.le_refl _⟩
  | succ c ih =>
    intro i r cs p hi h0 h0n h
    by_cases hlt : i < r.height
    · rcases hnx : (nodeLevel (getNode r ((seek.get? i).getD seekZero).1) i).next
        with _ | nx
      · simp only [insertLevels, hlt, if_true, hnx] at h
        obtain ⟨e1, e2, e3, e4, e5, e6⟩ := ih (i + 1) _ _ _ (by omega)
          (by rw [getNode_updLevel_levelsLength, getNode_updLevel_levelsLength]; exact h0)
          (by rw [updLevel_nodesLength, updLevel_nodesLength]; exact h0n) h
        refine ⟨e1, e2, e3, ?_, ?_, ?_⟩
        · intro m
          rw [e4 m, next0_updLevel_pos _ _ _ _ m (by omega),
            next0_updLevel_pos _ _ _ _ m (by omega)]
        · intro m hm
          rw [e5 m hm, getNode_updLevel_levelsLength, getNode_updLevel_levelsLength]
        · rw [getNode_updLevel_levelsLength, getNode_updLevel_levelsLength] at e6
          exact e6
      · simp only [insertLevels, hlt, if_true, hnx] at h
        obtain ⟨e1, e2, e3, e4, e5, e6⟩ := ih (i + 1) _ _ _ (by omega)
          (by rw [getNode_updLevel_levelsLength, getNode_updLevel_levelsLength, getNode_updLevel_levelsLength]; exact h0)
          (by rw [updLevel_nodesLength, updLevel_nodesLength, updLevel_nodesLength]; exact h0n) h
        refine ⟨e1, e2, e3, ?_, ?_, ?_⟩
        · intro m
          rw [e4 m, next0_updLevel_pos _ _ _ _ m (by omega),
            next0_updLevel_pos _ _ _ _ m (by omega),
            next0_updLevel_pos _ _ _ _ m (by omega)]
        · intro m hm
          rw [e5 m hm, getNode_updLevel_levelsLength, getNode_updLevel_levelsLength,
            getNode_updLevel_levelsLength]
        · rw [getNode_updLevel_levelsLength, getNode_updLevel_levelsLength,
            getNode_updLevel_levelsLength] at e6
          exact e6
    · rcases hcl : cseekClimb r ((getNode r cs.1).levels.length - 1) (r.nodes.length + 1) cs
        with _ | cs1
      · simp only [insertLevels, hlt, if_false, hcl] at h
        exact Option.noConfusion h
      · simp only [insertLevels, hlt, if_false, hcl] at h
        have hg := getNode_growHead r
          { next := some newIdx, prev := 0, subtreesize := cs1.2 } h0n
        obtain ⟨e1, e2, e3, e4, e5, e6⟩ := ih _ _ _ _ (by omega)
          (by
            rw [getNode_updLevel_levelsLength]
            show 1 ≤ (getNode (updNode r 0 _) 0).levels.length
            rw [hg]
            simp only [List.length_append, List.length_cons, List.length_nil]
            omega)
          (by
            rw [updLevel_nodesLength]
            show 0 < (updNode r 0 _).nodes.length
            rw [updNode_nodesLength]
            exact h0n) h
        refine ⟨e1, e2, ?_, ?_, ?_, ?_⟩
        · refine le_trans ?_ e3
          show r.height ≤ (updNode r 0 _).height + 1
          rw [updNode_height]
          omega
        · intro m
          rw [e4 m, next0_updLevel_pos _ _ _ _ m (by omega)]
          show next0 (updNode r 0 _) m = next0 r m
          exact next0_growHead r _ h0 m
        · intro m hm
          rw [e5 m hm, getNode_updLevel_levelsLength]
          show (getNode (updNode r 0 _) m).levels.length = _
          rw [getNode_updNode_ne r 0 _ m hm]
        · refine le_trans ?_ e6
          rw [getNode_updLevel_levelsLength]
          show (getNode r 0).levels.length ≤ (getNode (updNode r 0 _) 0).levels.length
          rw [hg]
          simp only [List.length_append, List.length_cons, List.length_nil]
          omega

/-- The full linking loop started at level 0: the new node is spliced into the
level-0 list right after the anchor, and nothing else observable changes. -/
theorem insertLevels_start (seek : List (Nat × Int)) (newIdx : Nat) (length : Int)
    (ht : Nat) (r : RopeImpl Id T) (cs : Nat × Int) (p : RopeImpl Id T × (Nat × Int))
    (ai : Nat) (sb : Int)
    (hseek0 : seek.get? 0 = some (ai, sb))
    (hht : 1 ≤ ht) (hh : 0 < r.height)
    (h0 : 1 ≤ (getNode r 0).levels.length) (h0n : 0 < r.nodes.length)
    (hailv : 1 ≤ (getNode r ai).levels.length)
    (hnlv : 1 ≤ (getNode r newIdx).levels.length)
    (hna : newIdx ≠ ai)
    (h : insertLevels seek newIdx length ht 0 r cs = some p) :
    p.1.byId = r.byId ∧ p.1.nodePool = r.nodePool ∧ r.height ≤ p.1.height ∧
    next0 p.1 ai = some newIdx ∧
    next0 p.1 newIdx = next0 r ai ∧
    (∀ m, m ≠ ai → m ≠ newIdx → next0 p.1 m = next0 r m) ∧
    (∀ m, m ≠ 0 → (getNode p.1 m).levels.length = (getNode r m).levels.length) ∧
    (getNode r 0).levels.length ≤ (getNode p.1 0).levels.length := by
  obtain ⟨c, rfl⟩ : ∃ c, ht = c + 1 := ⟨ht - 1, by omega⟩
  simp only [insertLevels, hh, if_true, hseek0, Option.getD_some] at h
  rcases hnx : (nodeLevel (getNode r ai) 0).next with _ | nx
  · simp only [hnx] at h
    obtain ⟨e1, e2, e3, e4, e5, e6⟩ := insertLevels_frame seek newIdx length c 1 _ cs p
      (by omega)
      (by rw [getNode_updLevel_levelsLength, getNode_updLevel_levelsLength]; exact h0)
      (by rw [updLevel_nodesLength, updLevel_nodesLength]; exact h0n) h
    refine ⟨e1, e2, e3, ?_, ?_, ?_, ?_, ?_⟩
    · rw [e4 ai, next0_updLevel_self _ ai _
        (by rw [getNode_updLevel_levelsLength]; omega)]
    · rw [e4 newIdx, next0_updLevel_ne _ ai 0 _ newIdx hna,
        next0_updLevel_self _ newIdx _ (by omega), ← hnx]
      rfl
    · intro m hma hmn
      rw [e4 m, next0_updLevel_ne _ ai 0 _ m hma, next0_updLevel_ne _ newIdx 0 _ m hmn]
    · intro m hm
      rw [e5 m hm, getNode_updLevel_levelsLength, getNode_updLevel_levelsLength]
    · rw [getNode_updLevel_levelsLength, getNode_updLevel_levelsLength] at e6
      exact e6
  · simp only [hnx] at h
    obtain ⟨e1, e2, e3, e4, e5, e6⟩ := insertLevels_frame seek newIdx length c 1 _ cs p
      (by omega)
      (by rw [getNode_updLevel_levelsLength, getNode_updLevel_levelsLength, getNode_updLevel_levelsLength]; exact h0)
      (by rw [updLevel_nodesLength, updLevel_nodesLength, updLevel_nodesLength]; exact h0n) h
    refine ⟨e1, e2, e3, ?_, ?_, ?_, ?_, ?_⟩
    · rw [e4 ai, next0_updLevel_self _ ai _
        (by rw [getNode_updLevel_levelsLength, getNode_updLevel_levelsLength]; omega)]
    · rw [e4 newIdx, next0_updLevel_ne _ ai 0 _ newIdx hna,
        next0_updLevel_self _ newIdx _
          (by rw [getNode_updLevel_levelsLength]; omega), ← hnx]
      show (nodeLevel (getNode r ai) 0).next = next0 r ai
      rfl
    · intro m hma hmn
      rw [e4 m, next0_updLevel_ne _ ai 0 _ m hma, next0_updLevel_ne _ newIdx 0 _ m hmn,
        next0_updLevel_prev _ nx 0 m _]
    · intro m hm
      rw [e5 m hm, getNode_updLevel_levelsLength, getNode_updLevel_levelsLength,
        getNode_updLevel_levelsLength]
    · rw [getNode_updLevel_levelsLength, getNode_updLevel_levelsLength,
        getNode_updLevel_levelsLength] at e6
      exact e6

theorem getLast?_not_mem_dropLast {α : Type} :
    ∀ (l : List α) (x : α), l.Nodup → l.getLast? = some x → x ∉ l.dropLast := by
  intro l
  induction l with
  | nil =>
    intro x _ h
    cases h
  | cons c l ih =>
    intro x hnd hl
    cases l with
    | nil =>
      simp
    | cons d l' =>
      have hx : x ∈ d :: l' := List.mem_of_mem_getLast? hl
      show x ∉ c :: (d :: l').dropLast
      intro hmem
      rcases List.mem_cons.mp hmem with rfl | hmem'
      · exact (List.nodup_cons.mp hnd).1 hx
      · exact ih x (List.nodup_cons.mp hnd).2 hl hmem'

theorem get?_append_ne {α : Type} (l : List α) (x : α) (m : Nat) (h : m ≠ l.length) :
    (l ++ [x]).get? m = l.get? m := by
  by_cases hm : m < l.length
  · exact List.get?_append hm
  · rw [List.get?_eq_none.mpr (by simp; omega), List.get?_eq_none.mpr (by omega)]

theorem getNode_appendNode (r : RopeImpl Id T) (nd : RopeNode Id T) :
    getNode { r with nodes := r.nodes ++ [nd] } r.nodes.length = nd := by
  rw [getNode_eq]
  show ((r.nodes ++ [nd]).get? r.nodes.length).getD default = nd
  rw [List.get?_concat_length]
  rfl

theorem getNode_appendNode_ne (r : RopeImpl Id T) (nd : RopeNode Id T) (m : Nat)
    (h : m ≠ r.nodes.length) :
    getNode { r with nodes := r.nodes ++ [nd] } m = getNode r m := by
  rw [getNode_eq, getNode_eq]
  show ((r.nodes ++ [nd]).get? m).getD default = _
  rw [get?_append_ne _ _ m h]

theorem getNode_updNode_self (r : RopeImpl Id T) (i : Nat)
    (f : RopeNode Id T → RopeNode Id T) (hi : i < r.nodes.length) :
    getNode (updNode r i f) i = f (getNode r i) := by
  rw [getNode_updNode, if_pos rfl]
  cases hn : r.nodes.get? i with
  | none => exact absurd (List.get?_eq_none.mp hn) (by omega)
  | some n =>
    simp only [Option.map_some', Option.getD_some]
    rw [getNode_eq, hn]
    rfl

/-- The node-acquisition step: the produced slot carries the new identifier,
payload and `ht` default levels; every other slot and all the scalars are
unchanged; the slot is fresh (not the head, not pooled, not any other index's
node). -/
theorem insertAlloc_effect (r : RopeImpl Id T) (iid : Id) (length : Int) (data : T)
    (ht : Nat) (hpool_val : ∀ q ∈ r.nodePool, q < r.nodes.length)
    (hpool_nd : r.nodePool.Nodup) (h0n : 0 < r.nodes.length) (h0pool : 0 ∉ r.nodePool)
    (pr : RopeImpl Id T × Nat) (hpr : insertAlloc r iid length data ht = pr) :
    pr.1.len = r.len ∧ pr.1.byId = r.byId ∧ pr.1.height = r.height ∧
    pr.1.lastId = r.lastId ∧
    (getNode pr.1 pr.2).id = iid ∧
    (getNode pr.1 pr.2).dl = { Len := length, Data := data } ∧
    (getNode pr.1 pr.2).levels.length = ht ∧
    (∀ m, m ≠ pr.2 → getNode pr.1 m = getNode r m) ∧
    r.nodes.length ≤ pr.1.nodes.length ∧ pr.2 < pr.1.nodes.length ∧ pr.2 ≠ 0 ∧
    pr.1.nodePool.Sublist r.nodePool ∧ pr.2 ∉ pr.1.nodePool ∧
    (pr.2 ∈ r.nodePool ∨ pr.2 = r.nodes.length) := by
  rw [insertAlloc] at hpr
  rcases hpl : r.nodePool.getLast? with _ | idx
  · simp only [hpl] at hpr
    subst hpr
    have hg := getNode_appendNode r ({ id := iid, dl := { Len := length, Data := data },
                                       levels := List.replicate ht default,
                                       iterRef := none } : RopeNode Id T)
    refine ⟨rfl, rfl, rfl, rfl, by rw [hg], by rw [hg], ?_, ?_, by simp, by simp, ?_,
      List.Sublist.refl _, fun hmem => absurd (hpool_val _ hmem) (by omega), Or.inr rfl⟩
    · rw [hg]
      simp
    · intro m hm
      exact getNode_appendNode_ne r _ m hm
    · omega
  · simp only [hpl] at hpr
    subst hpr
    have hidx_mem : idx ∈ r.nodePool := List.mem_of_mem_getLast? hpl
    have hidx_lt : idx < r.nodes.length := hpool_val idx hidx_mem
    have hg := getNode_updNode_self { r with nodePool := r.nodePool.dropLast } idx
      (fun n => { n with id := iid, dl := { Len := length, Data := data },
                         levels := List.replicate ht default }) hidx_lt
    refine ⟨rfl, rfl, rfl, rfl, by rw [hg], by rw [hg], ?_,
      ?_, by simp [updNode_nodesLength], by simp [updNode_nodesLength, hidx_lt],
      fun e => h0pool (e ▸ hidx_mem), List.dropLast_sublist _,
      getLast?_not_mem_dropLast _ idx hpool_nd hpl, Or.inl hidx_mem⟩
    · rw [hg]
      simp
    · intro m hm
      rw [getNode_updNode_ne _ idx _ m hm]
      rfl

/-- The tail of the insert phase adds the new length to `len` and possibly
changes `lastId`; everything else observable is untouched. -/
theorem insertFinish_effect (r2 : RopeImpl Id T) (after : Nat) (seek : List (Nat × Int))
    (iid : Id) (length : Int) (ht : Nat) (hht : 1 ≤ ht) :
    (insertFinish r2 after seek iid length ht).len = r2.len + length ∧
    (insertFinish r2 after seek iid length ht).byId = r2.byId ∧
    (insertFinish r2 after seek iid length ht).nodePool = r2.nodePool ∧
    (insertFinish r2 after seek iid length ht).height = r2.height ∧
    (insertFinish r2 after seek iid length ht).nodes.length = r2.nodes.length ∧
    (∀ m, next0 (insertFinish r2 after seek iid length ht) m = next0 r2 m) ∧
    (∀ m, (getNode (insertFinish r2 after seek iid length ht) m).id =
      (getNode r2 m).id) ∧
    (∀ m, (getNode (insertFinish r2 after seek iid length ht) m).dl =
      (getNode r2 m).dl) ∧
    (∀ m, (getNode (insertFinish r2 after seek iid length ht) m).levels.length =
      (getNode r2 m).levels.length) := by
  obtain ⟨b1, b2, b3, b4, b5⟩ := bumpTail_preserves seek length ht r2
  obtain ⟨c1, c2, c3, c4, c5⟩ := bumpTail_frame seek length ht r2 hht
  have key : ∀ s : RopeImpl Id T,
      (s = { bumpTail seek length ht r2 with
               len := (bumpTail seek length ht r2).len + length } ∨
       s = { bumpTail seek length ht r2 with
               len := (bumpTail seek length ht r2).len + length, lastId := iid }) →
      s.len = r2.len + length ∧ s.byId = r2.byId ∧ s.nodePool = r2.nodePool ∧
      s.height = r2.height ∧ s.nodes.length = r2.nodes.length ∧
      (∀ m, next0 s m = next0 r2 m) ∧
      (∀ m, (getNode s m).id = (getNode r2 m).id) ∧
      (∀ m, (getNode s m).dl = (getNode r2 m).dl) ∧
      (∀ m, (getNode s m).levels.length = (getNode r2 m).levels.length) := by
    rintro s (rfl | rfl) <;>
      exact ⟨by rw [show ({ bumpTail seek length ht r2 with
          len := (bumpTail seek length ht r2).len + length } : RopeImpl Id T).len =
          (bumpTail seek length ht r2).len + length from rfl, b1], c1, c2, c3, b3,
        c4, b4, b5, c5⟩
  rw [insertFinish]
  split
  · split
    · exact key _ (Or.inr rfl)
    · exact key _ (Or.inl rfl)
  · split
    · exact key _ (Or.inr rfl)
    · exact key _ (Or.inl rfl)

/-- The full insert phase: one fresh slot `newIdx` is seeded with the new
identifier, payload and length, spliced into the level-0 list right after the
anchor, and indexed; `len` grows by the inserted length; everything else
observable is unchanged. -/
theorem insertPhase_effect (r : RopeImpl Id T) (ai : Nat) (seek : List (Nat × Int))
    (cs : Nat × Int) (iid : Id) (length : Int) (data : T) (ht : Nat)
    (r' : RopeImpl Id T) (sb : Int)
    (hseek0 : seek.get? 0 = some (ai, sb))
    (hht : 1 ≤ ht) (hh : 1 ≤ r.height)
    (h0 : 1 ≤ (getNode r 0).levels.length) (h0n : 0 < r.nodes.length)
    (hailv : 1 ≤ (getNode r ai).levels.length) (hai_lt : ai < r.nodes.length)
    (hai_pool : ai ∉ r.nodePool) (h0pool : 0 ∉ r.nodePool)
    (hpool_val : ∀ q ∈ r.nodePool, q < r.nodes.length) (hpool_nd : r.nodePool.Nodup)
    (hnx : ∀ nx, next0 r ai = some nx → nx < r.nodes.length ∧ nx ∉ r.nodePool)
    (h : insertPhase r ai seek cs iid length data ht = some r') :
    ∃ newIdx : Nat,
      r'.len = r.len + length ∧
      r'.byId = insertKey r.byId iid newIdx ∧
      (getNode r' newIdx).id = iid ∧
      (getNode r' newIdx).dl = { Len := length, Data := data } ∧
      1 ≤ (getNode r' newIdx).levels.length ∧
      next0 r' ai = some newIdx ∧
      next0 r' newIdx = next0 r ai ∧
      (∀ m, m ≠ ai → m ≠ newIdx → next0 r' m = next0 r m) ∧
      (∀ m, m ≠ newIdx → (getNode r' m).id = (getNode r m).id) ∧
      (∀ m, m ≠ newIdx → (getNode r' m).dl = (getNode r m).dl) ∧
      (∀ m, m ≠ newIdx → m ≠ 0 →
        (getNode r' m).levels.length = (getNode r m).levels.length) ∧
      1 ≤ (getNode r' 0).levels.length ∧
      1 ≤ r'.height ∧
      r.nodes.length ≤ r'.nodes.length ∧ newIdx < r'.nodes.length ∧ newIdx ≠ 0 ∧
      newIdx ≠ ai ∧ (∀ nx, next0 r ai = some nx → newIdx ≠ nx) ∧
      r'.nodePool.Sublist r.nodePool ∧ newIdx ∉ r'.nodePool ∧
      (newIdx ∈ r.nodePool ∨ newIdx = r.nodes.length) := by
  obtain ⟨a1, a2, a3, a4, a5, a6, a7, a8, a9, a10, a11, a12, a13, a14⟩ :=
    insertAlloc_effect r iid length data ht hpool_val hpool_nd h0n h0pool _ rfl
  simp only [insertPhase] at h
  rw [Option.map_eq_some'] at h
  obtain ⟨p, hil, rfl⟩ := h
  refine ⟨(insertAlloc r iid length data ht).2, ?_⟩
  have hnewai : (insertAlloc r iid length data ht).2 ≠ ai := by
    rcases a14 with hm | he
    · exact fun e => hai_pool (e ▸ hm)
    · omega
  have hnewnx : ∀ nx, next0 r ai = some nx → (insertAlloc r iid length data ht).2 ≠ nx := by
    intro nx hx
    rcases a14 with hm | he
    · exact fun e => (hnx nx hx).2 (e ▸ hm)
    · have := (hnx nx hx).1
      omega
  have hr1get : ∀ m, getNode { (insertAlloc r iid length data ht).1 with
      byId := insertKey (insertAlloc r iid length data ht).1.byId iid
        (insertAlloc r iid length data ht).2 } m =
      getNode (insertAlloc r iid length data ht).1 m := fun m => rfl
  have hr1next : ∀ m, m ≠ (insertAlloc r iid length data ht).2 →
      next0 { (insertAlloc r iid length data ht).1 with
        byId := insertKey (insertAlloc r iid length data ht).1.byId iid
          (insertAlloc r iid length data ht).2 } m = next0 r m := by
    intro m hm
    rw [next0, next0, hr1get m, a8 m hm]
  obtain ⟨i1, i2, i3, i4, i5, i6, i7, i8⟩ :=
    insertLevels_start seek (insertAlloc r iid length data ht).2 length ht _ cs p ai sb
      hseek0 hht (by rw [show ({ (insertAlloc r iid length data ht).1 with
          byId := insertKey (insertAlloc r iid length data ht).1.byId iid
            (insertAlloc r iid length data ht).2 } : RopeImpl Id T).height =
          (insertAlloc r iid length data ht).1.height from rfl, a3]; omega)
      (by rw [hr1get 0, a8 0 (fun e => a11 e.symm)]; exact h0)
      (by show 0 < (insertAlloc r iid length data ht).1.nodes.length; omega)
      (by rw [hr1get ai, a8 ai (fun e => hnewai e.symm)]; exact hailv)
      (by rw [hr1get _, a7]; exact hht) hnewai hil
  obtain ⟨e1, e2, e3, e4, e5⟩ := insertLevels_preserves seek _ length ht 0 _ cs p hil
  obtain ⟨f1, f2, f3, f4, f5, f6, f7, f8, f9⟩ :=
    insertFinish_effect p.1 ai seek iid length ht hht
  refine ⟨?_, ?_, ?_, ?_, ?_, ?_, ?_, ?_, ?_, ?_, ?_, ?_, ?_, ?_, ?_, a11, hnewai,
    hnewnx, ?_, ?_, a14⟩
  · rw [f1, e1]
    show (insertAlloc r iid length data ht).1.len + length = _
    rw [a1]
  · rw [f2, i1]
    show insertKey (insertAlloc r iid length data ht).1.byId iid _ = _
    rw [a2]
  · rw [f7, e4, hr1get _]
    exact a5
  · rw [f8, e5, hr1get _]
    exact a6
  · rw [f9, i7 _ a11, hr1get _, a7]
    exact hht
  · rw [f6, i4]
  · rw [f6, i5]
    exact hr1next ai (Ne.symm hnewai)
  · intro m hma hmn
    rw [f6, i6 m hma hmn]
    exact hr1next m hmn
  · intro m hm
    rw [f7, e4, hr1get m]
    exact congrArg RopeNode.id (a8 m hm)
  · intro m hm
    rw [f8, e5, hr1get m]
    exact congrArg RopeNode.dl (a8 m hm)
  · intro m hm hm0
    rw [f9, i7 m hm0, hr1get m]
    exact congrArg (fun n => n.levels.length) (a8 m hm)
  · rw [f9]
    refine le_trans ?_ i8
    rw [hr1get 0, a8 0 (fun e => a11 e.symm)]
    exact h0
  · rw [f4]
    refine le_trans ?_ i3
    show 1 ≤ (insertAlloc r iid length data ht).1.height
    rw [a3]
    exact hh
  · rw [f5, e3]
    show r.nodes.length ≤ (insertAlloc r iid length data ht).1.nodes.length
    exact a9
  · rw [f5, e3]
    show (insertAlloc r iid length data ht).2 <
      (insertAlloc r iid length data ht).1.nodes.length
    exact a10
  · rw [f3, i2]
    show ((insertAlloc r iid length data ht).1.nodePool).Sublist r.nodePool
    exact a12
  · rw [f3, i2]
    show (insertAlloc r iid length data ht).2 ∉
      (insertAlloc r iid length data ht).1.nodePool
    exact a13

theorem nodup_lt_length_le (l : List Nat) (n : Nat) (hnd : l.Nodup)
    (hlt : ∀ q ∈ l, q < n) : l.length ≤ n := by
  have h1 : l.toFinset.card = l.length := List.toFinset_card_of_nodup hnd
  have h2 : l.toFinset ⊆ Finset.range n := by
    intro x hx
    exact Finset.mem_range.mpr (hlt x (List.mem_toFinset.mp hx))
  calc l.length = l.toFinset.card := h1.symm
    _ ≤ (Finset.range n).card := Finset.card_le_card h2
    _ = n := Finset.card_range _

theorem dropLast_append_getLastD :
    ∀ (l : List Nat) (d : Nat), l ≠ [] → l.dropLast ++ [l.getLastD d] = l := by
  intro l
  induction l with
  | nil => exact fun d h => absurd rfl h
  | cons c rest ih =>
    intro d _
    cases rest with
    | nil => rfl
    | cons e rest' =>
      show c :: ((e :: rest').dropLast ++ [(c :: e :: rest').getLastD d]) = _
      rw [List.getLastD_cons, ih c (by simp)]

/-- A level-0 run survives any state change that keeps the level-0 pointers of
its source and of all its members but the last. -/
theorem chainSeg_transfer2 (s s' : RopeImpl Id T) :
    ∀ (l : List Nat) (a : Nat), chainSeg s a l →
      (∀ q ∈ a :: l.dropLast, next0 s' q = next0 s q) → chainSeg s' a l := by
  intro l
  induction l with
  | nil => intro a _ _; trivial
  | cons c rest ih =>
    intro a hc hp
    obtain ⟨h1, h2⟩ := hc
    refine ⟨(hp a (by simp)).trans h1, ?_⟩
    cases rest with
    | nil => trivial
    | cons d rest' =>
      refine ih c h2 ?_
      intro q hq
      refine hp q ?_
      rcases List.mem_cons.mp hq with rfl | hq'
      · exact List.mem_cons_of_mem a (by simp)
      · exact List.mem_cons_of_mem a (List.mem_cons_of_mem c hq')

/-- Rebuilding the structural invariant after the delete phase removed the run
`R` that sat right after the anchor: the new level-0 list is `A ++ C`. -/
theorem invChain_after_delete (r rd : RopeImpl Id T) (ai : Nat) (A R C : List Nat)
    (hanchor : A.getLastD 0 = ai)
    (hInv : InvChain r (A ++ (R ++ C)))
    (hchainCd : chainSeg rd ai C)
    (hlastCd : next0 rd (C.getLastD ai) = none)
    (hLen : rd.len = r.len - (R.map fun q => (getNode r q).dl.Len).sum)
    (hById : rd.byId = R.foldl (fun b q => eraseKey b ((getNode r q).id)) r.byId)
    (hHt : rd.height = r.height)
    (hNl : rd.nodes.length = r.nodes.length)
    (hNextO : ∀ m, m ≠ ai → m ∉ R → next0 rd m = next0 r m)
    (hIdO : ∀ m, m ∉ R → (getNode rd m).id = (getNode r m).id)
    (hDlO : ∀ m, m ∉ R → (getNode rd m).dl = (getNode r m).dl)
    (hLvO : ∀ m, (getNode rd m).levels.length = (getNode r m).levels.length)
    (hpoolE : ∃ E, E.Sublist R ∧ rd.nodePool = r.nodePool ++ E) :
    InvChain rd (A ++ C) := by
  obtain ⟨hchain, hlast, hnd, hvalid, hid0, hperm, hidnd, hlen, hdl0, hh, h0n,
    hpoolnd, hpoolok⟩ := hInv
  have h0notin : (0 : Nat) ∉ A ++ (R ++ C) := (List.nodup_cons.mp hnd).1
  have hndARC : (A ++ (R ++ C)).Nodup := (List.nodup_cons.mp hnd).2
  obtain ⟨hndA2, hndRC, hdisjA⟩ := List.nodup_append.mp hndARC
  obtain ⟨hndR, hndC, hdisjRC⟩ := List.nodup_append.mp hndRC
  have hnd0A : ((0 : Nat) :: A).Nodup :=
    List.nodup_cons.mpr ⟨fun h => h0notin (List.mem_append_left _ h), hndA2⟩
  have hsubA : ∀ q ∈ (0 : Nat) :: A, q ∈ 0 :: (A ++ (R ++ C)) := by
    intro q hq
    rcases List.mem_cons.mp hq with rfl | h
    · exact List.mem_cons_self _ _
    · exact List.mem_cons_of_mem _ (List.mem_append_left _ h)
  have hsubR : ∀ q ∈ R, q ∈ 0 :: (A ++ (R ++ C)) := fun q hq =>
    List.mem_cons_of_mem _ (List.mem_append_right _ (List.mem_append_left _ hq))
  have hsubC : ∀ q ∈ C, q ∈ 0 :: (A ++ (R ++ C)) := fun q hq =>
    List.mem_cons_of_mem _ (List.mem_append_right _ (List.mem_append_right _ hq))
  have hsubAC : ∀ q ∈ (0 : Nat) :: (A ++ C), q ∈ 0 :: (A ++ (R ++ C)) := by
    intro q hq
    rcases List.mem_cons.mp hq with rfl | h
    · exact List.mem_cons_self _ _
    · rcases List.mem_append.mp h with h' | h'
      · exact hsubA q (List.mem_cons_of_mem _ h')
      · exact hsubC q h'
  have hai_mem0A : ai ∈ (0 : Nat) :: A := by
    rcases getLastD_mem A 0 with he | hm
    · subst he
      have : ai = 0 := hanchor.symm
      simp [this]
    · exact List.mem_cons_of_mem _ (hanchor ▸ hm)
  have h0_notR : (0 : Nat) ∉ R := fun h =>
    h0notin (List.mem_append_right _ (List.mem_append_left _ h))
  have hai_notR : ai ∉ R := by
    rcases List.mem_cons.mp hai_mem0A with rfl | h
    · exact h0_notR
    · exact fun hr => hdisjA h (List.mem_append_left _ hr)
  have hid_ne : ∀ q' ∈ (0 : Nat) :: (A ++ (R ++ C)), ∀ q ∈ 0 :: (A ++ (R ++ C)),
      q' ≠ q → (getNode r q').id ≠ (getNode r q).id := by
    intro q' hq' q hq hne heq
    exact hne (List.inj_on_of_nodup_map hidnd hq' hq heq)
  have hsubl : List.Sublist ((0 : Nat) :: (A ++ C)) (0 :: (A ++ (R ++ C))) :=
    List.Sublist.cons₂ 0 (List.Sublist.append_left (List.sublist_append_right R C) A)
  refine ⟨?_, ?_, hnd.sublist hsubl, ?_, ?_, ?_, ?_, ?_, ?_, ?_, ?_, ?_, ?_⟩
  · refine (chainSeg_append rd A 0 C).mpr ⟨?_, by rw [hanchor]; exact hchainCd⟩
    cases hA : A with
    | nil => trivial
    | cons a0 A' =>
      have hAne : A ≠ [] := by simp [hA]
      have hAdec : A.dropLast ++ [ai] = A := by
        rw [← hanchor]
        exact dropLast_append_getLastD A 0 hAne
      have hai_notdl : ai ∉ (0 : Nat) :: A.dropLast := by
        intro hmem
        have hrw : ((0 : Nat) :: A.dropLast) ++ [ai] = 0 :: A := by
          rw [List.cons_append, hAdec]
        have := List.disjoint_of_nodup_append (hrw ▸ hnd0A)
        exact this hmem (by simp)
      rw [← hA]
      refine chainSeg_transfer2 r rd A 0 ((chainSeg_append r A 0 (R ++ C)).mp hchain).1 ?_
      intro q hq
      refine hNextO q (fun he => hai_notdl (he ▸ hq)) ?_
      rcases List.mem_cons.mp hq with rfl | h
      · exact h0_notR
      · intro hr
        exact hdisjA ((List.dropLast_sublist A).subset h) (List.mem_append_left _ hr)
  · rw [getLastD_append, hanchor]
    exact hlastCd
  · intro q hq
    refine ⟨?_, ?_⟩
    · rw [hNl]
      exact (hvalid q (hsubAC q hq)).1
    · rw [hLvO q]
      exact (hvalid q (hsubAC q hq)).2
  · rw [hIdO 0 h0_notR]
    exact hid0
  · have heq : (0 :: (A ++ (R ++ C))).map (fun q => ((getNode r q).id, q)) =
        (((0 : Nat) :: A).map (fun q => ((getNode r q).id, q)) ++
          R.map (fun q => ((getNode r q).id, q))) ++
        C.map (fun q => ((getNode r q).id, q)) := by
      simp
    have hW := hperm
    rw [heq] at hW
    have hndRids : (R.map fun q => (getNode r q).id).Nodup := by
      refine hidnd.sublist (List.Sublist.map _ ?_)
      refine List.Sublist.trans ?_ (List.sublist_cons_self 0 _)
      exact (List.sublist_append_left R C).trans (List.sublist_append_right A _)
    have hmain := erase_ids_perm r R (((0 : Nat) :: A).map fun q => ((getNode r q).id, q))
      (C.map fun q => ((getNode r q).id, q)) r.byId hW
      (by
        intro p hp q hq
        obtain ⟨q', hq', rfl⟩ := List.mem_map.mp hp
        exact hid_ne q' (hsubA q' hq') q (hsubR q hq)
          (by
            intro he
            subst he
            rcases List.mem_cons.mp hq' with rfl | h
            · exact h0_notR hq
            · exact hdisjA h (List.mem_append_left _ hq)))
      (by
        intro p hp q hq
        obtain ⟨q', hq', rfl⟩ := List.mem_map.mp hp
        exact hid_ne q' (hsubC q' hq') q (hsubR q hq)
          (fun he => hdisjRC hq (he ▸ hq')))
      hndRids
    rw [hById]
    refine hmain.trans ?_
    have hcongrA : ((0 : Nat) :: A).map (fun q => ((getNode r q).id, q)) =
        ((0 : Nat) :: A).map (fun q => ((getNode rd q).id, q)) := by
      refine List.map_congr_left ?_
      intro q hq
      have hqnR : q ∉ R := by
        rcases List.mem_cons.mp hq with rfl | h
        · exact h0_notR
        · exact fun hr => hdisjA h (List.mem_append_left _ hr)
      rw [hIdO q hqnR]
    have hcongrC : C.map (fun q => ((getNode r q).id, q)) =
        C.map (fun q => ((getNode rd q).id, q)) := by
      refine List.map_congr_left ?_
      intro q hq
      rw [hIdO q (fun hr => hdisjRC hr hq)]
    have heq2 : ((0 : Nat) :: A).map (fun q => ((getNode rd q).id, q)) ++
        C.map (fun q => ((getNode rd q).id, q)) =
        (0 :: (A ++ C)).map (fun q => ((getNode rd q).id, q)) := by
      simp
    rw [hcongrA, hcongrC, heq2]
  · have hcongr : ((0 : Nat) :: (A ++ C)).map (fun q => (getNode rd q).id) =
        ((0 : Nat) :: (A ++ C)).map (fun q => (getNode r q).id) := by
      refine List.map_congr_left ?_
      intro q hq
      refine hIdO q ?_
      rcases List.mem_cons.mp hq with rfl | h
      · exact h0_notR
      · rcases List.mem_append.mp h with h' | h'
        · exact fun hr => hdisjA h' (List.mem_append_left _ hr)
        · exact fun hr => hdisjRC hr h'
    rw [hcongr]
    exact hidnd.sublist (List.Sublist.map _ hsubl)
  · have hsplit : ((0 :: (A ++ (R ++ C))).map fun q => (getNode r q).dl.Len).sum =
        (((0 : Nat) :: A).map fun q => (getNode r q).dl.Len).sum +
        (R.map fun q => (getNode r q).dl.Len).sum +
        (C.map fun q => (getNode r q).dl.Len).sum := by
      simp [List.sum_append]
      ring
    have hcongrA : (((0 : Nat) :: (A ++ C)).map fun q => (getNode rd q).dl.Len).sum =
        (((0 : Nat) :: A).map fun q => (getNode r q).dl.Len).sum +
        (C.map fun q => (getNode r q).dl.Len).sum := by
      have h1 : ((0 : Nat) :: (A ++ C)).map (fun q => (getNode rd q).dl.Len) =
          ((0 : Nat) :: (A ++ C)).map (fun q => (getNode r q).dl.Len) := by
        refine List.map_congr_left ?_
        intro q hq
        have hqnR : q ∉ R := by
          rcases List.mem_cons.mp hq with rfl | h
          · exact h0_notR
          · rcases List.mem_append.mp h with h' | h'
            · exact fun hr => hdisjA h' (List.mem_append_left _ hr)
            · exact fun hr => hdisjRC hr h'
        rw [hDlO q hqnR]
      rw [h1]
      simp [List.sum_append]
      ring
    rw [hcongrA, hLen, hlen, hsplit]
    ring
  · have h := hDlO 0 h0_notR
    rw [h]
    exact hdl0
  · rw [hHt]
    exact hh
  · rw [hNl]
    exact h0n
  · obtain ⟨E, hsubE, hpE⟩ := hpoolE
    rw [hpE]
    refine List.nodup_append.mpr ⟨hpoolnd, hndR.sublist hsubE, ?_⟩
    intro x hx1 hx2
    exact (hpoolok x hx1).2 (hsubR x (hsubE.subset hx2))
  · obtain ⟨E, hsubE, hpE⟩ := hpoolE
    rw [hpE]
    intro p hp
    rcases List.mem_append.mp hp with h | h
    · refine ⟨by rw [hNl]; exact (hpoolok p h).1, ?_⟩
      intro hmem
      exact (hpoolok p h).2 (hsubAC p hmem)
    · have hpR : p ∈ R := hsubE.subset h
      refine ⟨by rw [hNl]; exact (hvalid p (hsubR p hpR)).1, ?_⟩
      intro hmem
      rcases List.mem_cons.mp hmem with rfl | h'
      · exact h0_notR hpR
      · rcases List.mem_append.mp h' with h'' | h''
        · exact hdisjA h'' (List.mem_append_left _ hpR)
        · exact hdisjRC hpR h''

/-- The delete phase of a splice on a well-formed state: it succeeds within
the loop's fuel budget, preserves the invariant (for the level-0 list with
some suffix of the post-anchor run removed), and adds no key to the index. -/
theorem deletePhase_bundle (r : RopeImpl Id T) (X : Id) (ai : Nat)
    (seek : List (Nat × Int)) (sb : Int)
    (hseek0 : seek.get? 0 = some (ai, sb))
    (A B : List Nat) (hanchor : A.getLastD 0 = ai)
    (hInv : InvChain r (A ++ B)) :
    ∃ (rd : RopeImpl Id T) (rm : List (Removed Id T)) (C : List Nat),
      deleteLoop X ai seek (r.nodes.length + 1) r [] = some (rd, rm) ∧
      InvChain rd (A ++ C) ∧
      (∀ k, lookupId r.byId k = none → lookupId rd.byId k = none) := by
  have hInv' := hInv
  obtain ⟨hchain, hlast, hnd, hvalid, hid0, hperm, hidnd, hlen, hdl0, hh, h0n,
    hpoolnd, hpoolok⟩ := hInv'
  have h0notin : (0 : Nat) ∉ A ++ B := (List.nodup_cons.mp hnd).1
  have hndAB : (A ++ B).Nodup := (List.nodup_cons.mp hnd).2
  obtain ⟨hndA2, hndB, hdisjAB⟩ := List.nodup_append.mp hndAB
  have hai_mem0A : ai ∈ (0 : Nat) :: A := by
    rcases getLastD_mem A 0 with he | hm
    · subst he
      have : ai = 0 := hanchor.symm
      simp [this]
    · exact List.mem_cons_of_mem _ (hanchor ▸ hm)
  have hai_notB : ai ∉ B := by
    rcases List.mem_cons.mp hai_mem0A with rfl | h
    · exact fun hb => h0notin (List.mem_append_right _ hb)
    · exact fun hb => hdisjAB h hb
  have hchainB : chainSeg r ai B := by
    have h := (chainSeg_append r A 0 B).mp hchain
    rw [hanchor] at h
    exact h.2
  have hlastB : next0 r (B.getLastD ai) = none := by
    rw [← hanchor, ← getLastD_append]
    exact hlast
  have hvalidB : ∀ q ∈ B, q < r.nodes.length ∧ 1 ≤ (getNode r q).levels.length :=
    fun q hq => hvalid q (List.mem_cons_of_mem _ (List.mem_append_right _ hq))
  have hailv : 1 ≤ (getNode r ai).levels.length := by
    refine (hvalid ai ?_).2
    rcases List.mem_cons.mp hai_mem0A with rfl | h
    · exact List.mem_cons_self _ _
    · exact List.mem_cons_of_mem _ (List.mem_append_left _ h)
  have hBlen : B.length ≤ r.nodes.length :=
    nodup_lt_length_le B _ hndB (fun q hq => (hvalidB q hq).1)
  rcases exists_first_split (fun q => (getNode r q).id = X) B with
    hnoX | ⟨P0, pl, C, hBdec, hP0X, hplX⟩
  · obtain ⟨rd, hEq, hLen, hAbs, hMono, hLast, hHt, hNl, hById, hNextAi, hNextO,
      hIdO, hDlO, hLvO, hpoolE⟩ :=
      deleteLoop_runoff X ai seek sb hseek0 B (r.nodes.length + 1) r [] hchainB hlastB
        hnoX (List.nodup_cons.mpr ⟨hai_notB, hndB⟩) (fun q hq => (hvalidB q hq).2)
        hailv hh (by omega)
    refine ⟨rd, _, [], hEq, ?_, hMono⟩
    exact invChain_after_delete r rd ai A B [] hanchor
      (by rw [List.append_nil]; exact hInv) trivial hNextAi hLen hById hHt hNl
      hNextO hIdO hDlO hLvO hpoolE
  · subst hBdec
    have hBRC : P0 ++ pl :: C = (P0 ++ [pl]) ++ C := by simp
    have hsubRB : List.Sublist (P0 ++ [pl]) (P0 ++ pl :: C) :=
      List.Sublist.append_left (List.Sublist.cons₂ pl (List.nil_sublist C)) P0
    have hchsplit := (chainSeg_append r (P0 ++ [pl]) ai C).mp (by
      rw [← hBRC]
      exact hchainB)
    have hgl : (P0 ++ [pl]).getLastD ai = pl := by
      rw [getLastD_append]
      rfl
    rw [hgl] at hchsplit
    have hndR' : (ai :: (P0 ++ [pl])).Nodup :=
      List.nodup_cons.mpr ⟨fun h => hai_notB (hsubRB.subset h), hndB.sublist hsubRB⟩
    have hdisjRC : (P0 ++ [pl]).Disjoint C := by
      have := List.nodup_append.mp (by rw [← hBRC]; exact hndB)
      exact this.2.2
    have hBlast : (P0 ++ pl :: C).getLastD ai = C.getLastD pl := by
      rw [getLastD_append, List.getLastD_cons]
    obtain ⟨rd, hEq, hLen, hAbs, hMono, hLast, hHt, hNl, hById, hNextAi, hNextO,
      hIdO, hDlO, hLvO, hpoolE⟩ :=
      deleteLoop_spec X ai seek sb hseek0 P0 pl (r.nodes.length + 1) r []
        hchsplit.1 hplX (fun q hq => hP0X q hq) hndR'
        (fun q hq => (hvalidB q (hsubRB.subset hq)).2) hailv hh
        (by have := hsubRB.length_le; omega)
    have hCne : ∀ q ∈ C, q ≠ ai ∧ q ∉ P0 ++ [pl] := by
      intro q hq
      refine ⟨?_, fun hr => hdisjRC hr hq⟩
      intro he
      subst he
      exact hai_notB (by rw [hBRC]; exact List.mem_append_right _ hq)
    have hchainCd : chainSeg rd ai C := by
      cases C with
      | nil => trivial
      | cons d C' =>
        obtain ⟨hc1, hc2⟩ := hchsplit.2
        refine ⟨hNextAi.trans hc1, chainSeg_transfer2 r rd C' d hc2 ?_⟩
        intro q hq
        have hqC : q ∈ d :: C' := by
          rcases List.mem_cons.mp hq with rfl | hq'
          · exact List.mem_cons_self _ _
          · exact List.mem_cons_of_mem _ ((List.dropLast_sublist C').subset hq')
        exact hNextO q (hCne q hqC).1 (hCne q hqC).2
    have hlastCd : next0 rd (C.getLastD ai) = none := by
      rw [hBlast] at hlastB
      cases C with
      | nil =>
        show next0 rd ai = none
        rw [hNextAi]
        exact hlastB
      | cons d C' =>
        have hmem : (d :: C').getLastD ai ∈ d :: C' := by
          rcases getLastD_mem (d :: C') ai with he | hm
          · cases he
          · exact hm
        have heq : (d :: C').getLastD ai = (d :: C').getLastD pl := by
          rw [List.getLastD_cons, List.getLastD_cons]
        rw [hNextO _ (hCne _ hmem).1 (hCne _ hmem).2, heq]
        exact hlastB
    refine ⟨rd, _, C, hEq, ?_, hMono⟩
    exact invChain_after_delete r rd ai A (P0 ++ [pl]) C hanchor
      (by rw [← hBRC]; exact hInv)
      hchainCd hlastCd hLen hById hHt hNl hNextO hIdO hDlO hLvO hpoolE

/-- The insert phase of a splice on a well-formed state with a fresh
identifier: the invariant holds afterwards for the level-0 list with the new
slot spliced in right after the anchor. -/
theorem insertPhase_bundle (r : RopeImpl Id T) (ai : Nat) (seek : List (Nat × Int))
    (cs : Nat × Int) (iid : Id) (length : Int) (data : T) (ht : Nat)
    (r' : RopeImpl Id T) (sb : Int)
    (hseek0 : seek.get? 0 = some (ai, sb)) (hht : 1 ≤ ht)
    (A C : List Nat) (hanchor : A.getLastD 0 = ai)
    (hInv : InvChain r (A ++ C))
    (hfresh : lookupId r.byId iid = none)
    (h : insertPhase r ai seek cs iid length data ht = some r') :
    ∃ newIdx, InvChain r' (A ++ newIdx :: C) := by
  obtain ⟨hchain, hlast, hnd, hvalid, hid0, hperm, hidnd, hlen, hdl0, hh, h0n,
    hpoolnd, hpoolok⟩ := hInv
  have h0notin : (0 : Nat) ∉ A ++ C := (List.nodup_cons.mp hnd).1
  have hndAC : (A ++ C).Nodup := (List.nodup_cons.mp hnd).2
  obtain ⟨hndA2, hndC, hdisjAC⟩ := List.nodup_append.mp hndAC
  have hai_mem0A : ai ∈ (0 : Nat) :: A := by
    rcases getLastD_mem A 0 with he | hm
    · subst he
      have : ai = 0 := hanchor.symm
      simp [this]
    · exact List.mem_cons_of_mem _ (hanchor ▸ hm)
  have hai_memL : ai ∈ (0 : Nat) :: (A ++ C) := by
    rcases List.mem_cons.mp hai_mem0A with rfl | h'
    · exact List.mem_cons_self _ _
    · exact List.mem_cons_of_mem _ (List.mem_append_left _ h')
  have hsubC : ∀ q ∈ C, q ∈ (0 : Nat) :: (A ++ C) := fun q hq =>
    List.mem_cons_of_mem _ (List.mem_append_right _ hq)
  have hai_notC : ai ∉ C := by
    rcases List.mem_cons.mp hai_mem0A with rfl | h'
    · exact fun hc => h0notin (List.mem_append_right _ hc)
    · exact fun hc => hdisjAC h' hc
  have hchainC : chainSeg r ai C := by
    have h' := (chainSeg_append r A 0 C).mp hchain
    rw [hanchor] at h'
    exact h'.2
  have hlastC : next0 r (C.getLastD ai) = none := by
    rw [← hanchor, ← getLastD_append]
    exact hlast
  have hnx : ∀ nx, next0 r ai = some nx → nx < r.nodes.length ∧ nx ∉ r.nodePool := by
    intro nx hx
    cases C with
    | nil =>
      rw [show ([] : List Nat).getLastD ai = ai from rfl] at hlastC
      rw [hlastC] at hx
      cases hx
    | cons d C' =>
      obtain ⟨h1, -⟩ := hchainC
      rw [h1] at hx
      obtain rfl : d = nx := Option.some.inj hx
      have hdC : d ∈ (0 : Nat) :: (A ++ (d :: C')) := hsubC d (by simp)
      exact ⟨(hvalid d hdC).1, fun hp => (hpoolok d hp).2 hdC⟩
  obtain ⟨newIdx, e1, e2, e3, e4, e5, e6, e7, e8, e9, e10, e11, e12, e13, e14, e15,
    e16, e17, e18, e19, e20, e21⟩ :=
    insertPhase_effect r ai seek cs iid length data ht r' sb hseek0 hht hh
      ((hvalid 0 (List.mem_cons_self _ _)).2) h0n
      ((hvalid ai hai_memL).2) ((hvalid ai hai_memL).1)
      (fun hp => (hpoolok ai hp).2 hai_memL)
      (fun hp => (hpoolok 0 hp).2 (List.mem_cons_self _ _))
      (fun q hq => (hpoolok q hq).1) hpoolnd hnx h
  have hnew_notin : newIdx ∉ (0 : Nat) :: (A ++ C) := by
    rcases e21 with hm | he
    · exact fun hmem => (hpoolok newIdx hm).2 hmem
    · intro hmem
      have := (hvalid newIdx hmem).1
      omega
  have hnew_notA : newIdx ∉ (0 : Nat) :: A := fun hm => hnew_notin (by
    rcases List.mem_cons.mp hm with rfl | h'
    · exact List.mem_cons_self _ _
    · exact List.mem_cons_of_mem _ (List.mem_append_left _ h'))
  have hnew_notC : newIdx ∉ C := fun hm => hnew_notin (hsubC _ hm)
  have hiid_notin : ∀ q ∈ (0 : Nat) :: (A ++ C), (getNode r q).id ≠ iid := by
    intro q hq he
    have hpair : ((getNode r q).id, q) ∈ r.byId := by
      refine hperm.mem_iff.mpr ?_
      exact List.mem_map_of_mem _ hq
    exact ((lookupId_eq_none_iff r.byId iid).mp hfresh) _ hpair he
  refine ⟨newIdx, ?_, ?_, ?_, ?_, ?_, ?_, ?_, ?_, ?_, ?_, ?_, ?_, ?_⟩
  · refine (chainSeg_append r' A 0 (newIdx :: C)).mpr ⟨?_, ?_⟩
    · cases hA : A with
      | nil => trivial
      | cons a0 A' =>
        have hAne : A ≠ [] := by simp [hA]
        have hAdec : A.dropLast ++ [ai] = A := by
          rw [← hanchor]
          exact dropLast_append_getLastD A 0 hAne
        have hnd0A : ((0 : Nat) :: A).Nodup :=
          List.nodup_cons.mpr ⟨fun h' => h0notin (List.mem_append_left _ h'), hndA2⟩
        have hai_notdl : ai ∉ (0 : Nat) :: A.dropLast := by
          intro hmem
          have hrw : ((0 : Nat) :: A.dropLast) ++ [ai] = 0 :: A := by
            rw [List.cons_append, hAdec]
          exact (List.disjoint_of_nodup_append (hrw ▸ hnd0A)) hmem (by simp)
        rw [← hA]
        refine chainSeg_transfer2 r r' A 0 ((chainSeg_append r A 0 C).mp hchain).1 ?_
        intro q hq
        refine e8 q (fun he => hai_notdl (he ▸ hq)) ?_
        intro he
        subst he
        refine hnew_notA ?_
        rcases List.mem_cons.mp hq with h' | h'
        · exact h' ▸ List.mem_cons_self _ _
        · exact List.mem_cons_of_mem _ ((List.dropLast_sublist A).subset h')
    · rw [hanchor]
      refine ⟨e6, ?_⟩
      cases C with
      | nil => trivial
      | cons d C' =>
        obtain ⟨h1, h2⟩ := hchainC
        refine ⟨e7.trans h1, chainSeg_transfer2 r r' C' d h2 ?_⟩
        intro q hq
        have hqC : q ∈ d :: C' := by
          rcases List.mem_cons.mp hq with rfl | hq'
          · exact List.mem_cons_self _ _
          · exact List.mem_cons_of_mem _ ((List.dropLast_sublist C').subset hq')
        refine e8 q (fun he => hai_notC (he ▸ hqC)) (fun he => hnew_notC (he ▸ hqC))
  · rw [getLastD_append, hanchor, List.getLastD_cons]
    cases C with
    | nil =>
      show next0 r' newIdx = none
      rw [e7]
      exact hlastC
    | cons d C' =>
      have hmem : (d :: C').getLastD newIdx ∈ d :: C' := by
        rcases getLastD_mem (d :: C') newIdx with he | hm
        · cases he
        · exact hm
      have heq : (d :: C').getLastD newIdx = (d :: C').getLastD ai := by
        rw [List.getLastD_cons, List.getLastD_cons]
      rw [e8 _ (fun he => hai_notC (he ▸ hmem)) (fun he => hnew_notC (he ▸ hmem)), heq]
      exact hlastC
  · show (((0 : Nat) :: A) ++ newIdx :: C).Nodup
    rw [List.nodup_middle]
    exact List.nodup_cons.mpr ⟨hnew_notin, hnd⟩
  · intro q hq
    by_cases hqn : q = newIdx
    · subst hqn
      exact ⟨e15, e5⟩
    · have hqold : q ∈ (0 : Nat) :: (A ++ C) := by
        rcases List.mem_cons.mp hq with rfl | h'
        · exact List.mem_cons_self _ _
        · refine List.mem_cons_of_mem _ ?_
          rcases List.mem_append.mp h' with h'' | h''
          · exact List.mem_append_left _ h''
          · rcases List.mem_cons.mp h'' with rfl | h'''
            · exact absurd rfl hqn
            · exact List.mem_append_right _ h'''
      refine ⟨by have := (hvalid q hqold).1; omega, ?_⟩
      by_cases hq0 : q = 0
      · subst hq0
        exact e12
      · rw [e11 q hqn hq0]
        exact (hvalid q hqold).2
  · rw [e9 0 (fun h' => e16 h'.symm)]
    exact hid0
  · have hbid : r'.byId = (iid, newIdx) :: r.byId := by
      rw [e2]
      show (iid, newIdx) :: eraseKey r.byId iid = _
      rw [eraseKey_of_none r.byId iid hfresh]
    rw [hbid]
    have hstep1 : ((iid, newIdx) :: r.byId).Perm
        ((iid, newIdx) :: (0 :: (A ++ C)).map fun q => ((getNode r q).id, q)) :=
      hperm.cons _
    refine hstep1.trans ?_
    have hsplit : ((0 : Nat) :: (A ++ C)).map (fun q => ((getNode r q).id, q)) =
        (((0 : Nat) :: A).map fun q => ((getNode r q).id, q)) ++
        (C.map fun q => ((getNode r q).id, q)) := by
      simp
    rw [hsplit]
    refine (List.perm_middle.symm).trans ?_
    have hgoal : (((0 : Nat) :: A).map fun q => ((getNode r q).id, q)) ++
        (iid, newIdx) :: (C.map fun q => ((getNode r q).id, q)) =
        ((0 : Nat) :: (A ++ newIdx :: C)).map fun q => ((getNode r' q).id, q) := by
      have hA : ((0 : Nat) :: A).map (fun q => ((getNode r q).id, q)) =
          ((0 : Nat) :: A).map (fun q => ((getNode r' q).id, q)) := by
        refine List.map_congr_left ?_
        intro q hq
        rw [e9 q (fun he => hnew_notA (he ▸ hq))]
      have hC : C.map (fun q => ((getNode r q).id, q)) =
          C.map (fun q => ((getNode r' q).id, q)) := by
        refine List.map_congr_left ?_
        intro q hq
        rw [e9 q (fun he => hnew_notC (he ▸ hq))]
      rw [hA, hC, show ((iid, newIdx) : Id × Nat) = ((getNode r' newIdx).id, newIdx) by
        rw [e3]]
      simp
    rw [hgoal]
  · have hiid_old : iid ∉ ((0 : Nat) :: (A ++ C)).map fun q => (getNode r q).id := by
      intro hm
      obtain ⟨q, hq, he⟩ := List.mem_map.mp hm
      exact hiid_notin q hq he
    have hform : ((0 : Nat) :: (A ++ newIdx :: C)).map (fun q => (getNode r' q).id) =
        (((0 : Nat) :: A).map fun q => (getNode r q).id) ++
        iid :: (C.map fun q => (getNode r q).id) := by
      have hA : ((0 : Nat) :: A).map (fun q => (getNode r' q).id) =
          ((0 : Nat) :: A).map (fun q => (getNode r q).id) := by
        refine List.map_congr_left ?_
        intro q hq
        rw [e9 q (fun he => hnew_notA (he ▸ hq))]
      have hC : C.map (fun q => (getNode r' q).id) =
          C.map (fun q => (getNode r q).id) := by
        refine List.map_congr_left ?_
        intro q hq
        rw [e9 q (fun he => hnew_notC (he ▸ hq))]
      calc ((0 : Nat) :: (A ++ newIdx :: C)).map (fun q => (getNode r' q).id)
          = (((0 : Nat) :: A).map (fun q => (getNode r' q).id)) ++
            (getNode r' newIdx).id :: (C.map fun q => (getNode r' q).id) := by simp
        _ = _ := by rw [hA, hC, e3]
    rw [hform, List.nodup_middle]
    refine List.nodup_cons.mpr ⟨?_, ?_⟩
    · intro hm
      refine hiid_old ?_
      have : (((0 : Nat) :: A).map fun q => (getNode r q).id) ++
          (C.map fun q => (getNode r q).id) =
          ((0 : Nat) :: (A ++ C)).map fun q => (getNode r q).id := by simp
      rw [← this]
      exact hm
    · have : (((0 : Nat) :: A).map fun q => (getNode r q).id) ++
          (C.map fun q => (getNode r q).id) =
          ((0 : Nat) :: (A ++ C)).map fun q => (getNode r q).id := by simp
      rw [this]
      exact hidnd
  · have hsum : (((0 : Nat) :: (A ++ newIdx :: C)).map
        fun q => (getNode r' q).dl.Len).sum =
        (((0 : Nat) :: (A ++ C)).map fun q => (getNode r q).dl.Len).sum + length := by
      have hA : ((0 : Nat) :: A).map (fun q => (getNode r' q).dl.Len) =
          ((0 : Nat) :: A).map (fun q => (getNode r q).dl.Len) := by
        refine List.map_congr_left ?_
        intro q hq
        rw [e10 q (fun he => hnew_notA (he ▸ hq))]
      have hC : C.map (fun q => (getNode r' q).dl.Len) =
          C.map (fun q => (getNode r q).dl.Len) := by
        refine List.map_congr_left ?_
        intro q hq
        rw [e10 q (fun he => hnew_notC (he ▸ hq))]
      have hnew : (getNode r' newIdx).dl.Len = length := by
        rw [e4]
      have hsplit1 : (((0 : Nat) :: (A ++ newIdx :: C)).map
          fun q => (getNode r' q).dl.Len).sum =
          (((0 : Nat) :: A).map fun q => (getNode r' q).dl.Len).sum +
          ((getNode r' newIdx).dl.Len +
            (C.map fun q => (getNode r' q).dl.Len).sum) := by
        simp only [List.map_cons, List.map_append, List.sum_cons, List.sum_append]
        ring
      have hsplit2 : (((0 : Nat) :: (A ++ C)).map fun q => (getNode r q).dl.Len).sum =
          (((0 : Nat) :: A).map fun q => (getNode r q).dl.Len).sum +
          (C.map fun q => (getNode r q).dl.Len).sum := by
        simp only [List.map_cons, List.map_append, List.sum_cons, List.sum_append]
        ring
      rw [hsplit1, hsplit2, hA, hC, hnew]
      ring
    rw [e1, hsum, hlen]
  · rw [e10 0 (fun h' => e16 h'.symm)]
    exact hdl0
  · exact e13
  · omega
  · exact hpoolnd.sublist e19
  · intro p hp
    have hpold : p ∈ r.nodePool := e19.subset hp
    refine ⟨by have := (hpoolok p hpold).1; omega, ?_⟩
    intro hmem
    rcases List.mem_cons.mp hmem with he | h'
    · exact (hpoolok p hpold).2 (by rw [he]; exact List.mem_cons_self _ _)
    · rcases List.mem_append.mp h' with h'' | h''
      · exact (hpoolok p hpold).2
          (List.mem_cons_of_mem _ (List.mem_append_left _ h''))
      · rcases List.mem_cons.mp h'' with he | h'''
        · exact e20 (he ▸ hp)
        · exact (hpoolok p hpold).2
            (List.mem_cons_of_mem _ (List.mem_append_right _ h'''))

theorem InvChain_lastId (r : RopeImpl Id T) (v : Id) (L : List Nat)
    (h : InvChain r L) : InvChain { r with lastId := v } L := by
  obtain ⟨h1, h2, h3, h4, h5, h6, h7, h8, h9, h10, h11, h12, h13⟩ := h
  exact ⟨chainSeg_transfer r _ L 0 h1 (fun q _ => rfl), h2, h3, h4, h5, h6, h7, h8, h9,
    h10, h11, h12, h13⟩

/-- The private `splice` preserves the structural invariant, for any
combination of delete and insert work. -/
theorem Inv_spliceInner (r : RopeImpl Id T) (ai : Nat) (doDel : Bool) (X : Id)
    (doIns : Bool) (iid : Id) (length : Int) (data : T) (ht : Nat)
    (r' : RopeImpl Id T) (rm : List (Removed Id T))
    (A B : List Nat) (hanchor : A.getLastD 0 = ai)
    (hInv : InvChain r (A ++ B)) (hht : 1 ≤ ht)
    (hfresh : doIns = true → lookupId r.byId iid = none)
    (h : spliceInner r ai doDel X doIns iid length data ht = some (r', rm)) :
    Inv r' := by
  have hInv' := hInv
  obtain ⟨hchain, hlast, hnd, hvalid, hid0, hperm, hidnd, hlen, hdl0, hh, h0n,
    hpoolnd, hpoolok⟩ := hInv'
  have hai_memL : ai ∈ (0 : Nat) :: (A ++ B) := by
    rcases getLastD_mem A 0 with he | hm
    · subst he
      have : ai = 0 := hanchor.symm
      simp [this]
    · exact List.mem_cons_of_mem _ (List.mem_append_left _ (hanchor ▸ hm))
  have hailv : 1 ≤ (getNode r ai).levels.length := (hvalid ai hai_memL).2
  rcases hsk : seekLoop r (r.nodes.length + r.height + 1)
      (List.replicate r.height seekZero) 0 (ai, (getNode r ai).dl.Len) with
    _ | ⟨seek, cs⟩
  · simp [spliceInner, hsk] at h
  · have hseek0 : seek.get? 0 = some (ai, (getNode r ai).dl.Len) :=
      seekLoop_get0_start r _ _ _ _ hailv (by simpa using hh) hsk
    cases doDel with
    | false =>
      cases doIns with
      | false =>
        simp [spliceInner, hsk] at h
        obtain ⟨rfl, -⟩ := h
        exact ⟨A ++ B, hInv⟩
      | true =>
        rcases hip : insertPhase r ai seek cs iid length data ht with _ | r2
        · simp [spliceInner, hsk, hip] at h
        · simp [spliceInner, hsk, hip] at h
          obtain ⟨rfl, -⟩ := h
          obtain ⟨newIdx, hIC⟩ := insertPhase_bundle r ai seek cs iid length data ht
            r2 _ hseek0 hht A B hanchor hInv (hfresh rfl) hip
          exact ⟨A ++ newIdx :: B, hIC⟩
    | true =>
      obtain ⟨rd, rmd, C, hEq, hICd, hMono⟩ :=
        deletePhase_bundle r X ai seek _ hseek0 A B hanchor hInv
      cases doIns with
      | false =>
        simp [spliceInner, hsk, hEq] at h
        obtain ⟨rfl, -⟩ := h
        split
        · exact ⟨A ++ C, InvChain_lastId rd _ _ hICd⟩
        · exact ⟨A ++ C, hICd⟩
      | true =>
        simp [spliceInner, hsk, hEq] at h
        have hIC1 : InvChain (if lookupId rd.byId rd.lastId = none then
            { rd with lastId := (getNode rd ai).id } else rd) (A ++ C) := by
          split
          · exact InvChain_lastId rd _ _ hICd
          · exact hICd
        have hMono1 : lookupId (if lookupId rd.byId rd.lastId = none then
            { rd with lastId := (getNode rd ai).id } else rd).byId iid = none := by
          have hbid : (if lookupId rd.byId rd.lastId = none then
              { rd with lastId := (getNode rd ai).id } else rd).byId = rd.byId := by
            split <;> rfl
          rw [hbid]
          exact hMono iid (hfresh rfl)
        rcases hip : insertPhase (if lookupId rd.byId rd.lastId = none then
            { rd with lastId := (getNode rd ai).id } else rd) ai seek cs iid length
            data ht with _ | r2
        · rw [hip] at h
          simp at h
        · rw [hip] at h
          simp at h
          obtain ⟨rfl, -⟩ := h
          obtain ⟨newIdx, hIC⟩ := insertPhase_bundle _ ai seek cs iid length data ht
            r2 _ hseek0 hht A C hanchor hIC1 hMono1 hip
          exact ⟨A ++ newIdx :: C, hIC⟩

/-- `Splice` preserves the structural invariant (error results leave the state
unchanged; successful results go through the private `splice`). -/
theorem Inv_splice (lenOf : T → Int) (r r' : RopeImpl Id T) (afterId : Id)
    (du ins : Option Id) (data : T) (ht : Nat) (rm : List (Removed Id T))
    (e : Option RopeErr) (hht : 1 ≤ ht) (hInv : Inv r)
    (h : Splice lenOf r afterId du ins data ht = some (r', rm, e)) : Inv r' := by
  obtain ⟨L, hIC⟩ := hInv
  rcases hai : anchorOf r afterId with _ | ai
  · simp [Splice, hai] at h
    obtain ⟨rfl, -⟩ := h
    exact ⟨L, hIC⟩
  · have hmem : ai ∈ (0 : Nat) :: L := by
      rcases hl : lookupId r.byId afterId with _ | n
      · simp only [anchorOf, hl] at hai
        split at hai
        · obtain rfl := Option.some.inj hai
          exact List.mem_cons_self _ _
        · cases hai
      · simp only [anchorOf, hl] at hai
        have hn : n = ai := Option.some.inj hai
        have hpair : (afterId, n) ∈ r.byId := lookupId_some_mem _ _ _ hl
        have hIC6 := hIC.2.2.2.2.2.1
        have hmm := hIC6.mem_iff.mp hpair
        obtain ⟨q, hq, heq⟩ := List.mem_map.mp hmm
        have hqa : q = ai := (congrArg Prod.snd heq).trans hn
        exact hqa ▸ hq
    obtain ⟨A, B, rfl, hanchor⟩ :
        ∃ A B, (L = A ++ B) ∧ A.getLastD 0 = ai := by
      rcases List.mem_cons.mp hmem with he | hmemL
      · exact ⟨[], L, rfl, he.symm⟩
      · obtain ⟨A1, B, rfl⟩ := List.append_of_mem hmemL
        refine ⟨A1 ++ [ai], B, by rw [List.append_assoc]; rfl, ?_⟩
        rw [getLastD_append]
        rfl
    have finish : ∀ (dd : Bool) (XX : Id) (di : Bool) (II : Id) (LL : Int),
        (di = true → lookupId r.byId II = none) →
        (spliceInner r ai dd XX di II LL data ht).map
          (fun p => (p.1, p.2, (none : Option RopeErr))) = some (r', rm, e) →
        Inv r' := by
      intro dd XX di II LL hfr hmap
      rw [Option.map_eq_some'] at hmap
      obtain ⟨p, hp, hpe⟩ := hmap
      have h1 : p.1 = r' := congrArg Prod.fst hpe
      rw [← h1]
      exact Inv_spliceInner r ai dd XX di II LL data ht p.1 p.2 A B hanchor hIC hht
        hfr hp
    rcases ins with _ | iid
    · simp only [Splice, hai] at h
      exact finish _ _ false _ _ (fun hce => nomatch hce) h
    · simp only [Splice, hai] at h
      by_cases hex : (lookupId r.byId iid).isSome = true
      · rw [if_pos hex] at h
        simp at h
        obtain ⟨rfl, -⟩ := h
        exact ⟨A ++ B, hIC⟩
      · rw [if_neg hex] at h
        by_cases hneg : lenOf data < 0
        · rw [if_pos hneg] at h
          simp at h
          obtain ⟨rfl, -⟩ := h
          exact ⟨A ++ B, hIC⟩
        · rw [if_neg hneg] at h
          exact finish _ _ true _ _
            (fun _ => Option.not_isSome_iff_eq_none.mp hex) h

/-- A fresh rope satisfies the structural invariant (with the empty run). -/
theorem Inv_newRoot (root : T) : Inv (NewRoot root : RopeImpl Id T) := by
  refine ⟨[], trivial, rfl, by simp, ?_, rfl, ?_, by simp, ?_, rfl, Nat.le_refl 1,
    Nat.one_pos, by simp [NewRoot], ?_⟩
  · intro q hq
    have hq0 : q = 0 := by simpa using hq
    subst hq0
    exact ⟨Nat.one_pos, Nat.le_refl 1⟩
  · exact List.Perm.refl _
  · rfl
  · intro p hp
    simp [NewRoot] at hp

/-- Every reachable state satisfies the structural invariant. -/
theorem Reachable_inv (lenOf : T → Int) (r : RopeImpl Id T)
    (h : Reachable lenOf r) : Inv r := by
  induction h with
  | newRoot root => exact Inv_newRoot root
  | splice r r' afterId du ins data ht rm e hr hht hle hsp ih =>
    exact Inv_splice lenOf r r' afterId du ins data ht rm e hht ih hsp

/-- C3: for every sequence of successful operations starting from `New` or
`NewRoot` (every public mutation is a `Splice`; `New` is `NewRoot` at the zero
payload; heights are drawn from `randomHeight`'s range `1..32`), `Len()`
equals the sum of the `len` values of all live entries — the entries of the
identifier index, the zero entry contributing length 0. -/
theorem thm_len_sum_invariant (lenOf : T → Int) (r : RopeImpl Id T)
    (h : Reachable lenOf r) :
    Len r = (r.byId.map fun p => (getNode r p.2).dl.Len).sum := by
  obtain ⟨L, hIC⟩ := Reachable_inv lenOf r h
  have hperm := hIC.2.2.2.2.2.1
  have hlen := hIC.2.2.2.2.2.2.2.1
  have hmap : (r.byId.map fun p => (getNode r p.2).dl.Len).Perm
      (((0 :: L).map fun q => ((getNode r q).id, q)).map
        fun p => (getNode r p.2).dl.Len) :=
    hperm.map _
  rw [Len, hlen, hmap.sum_eq, List.map_map]
  rfl

/-- Witness for C3: the concrete two-entry rope `exRope`, reached by two
inserts from `NewRoot`, has `Len` 5 equal to the sum over its index. -/
theorem thm_len_sum_invariant_witness :
    Len exRope = (exRope.byId.map fun p => (getNode exRope p.2).dl.Len).sum ∧
    Len exRope = 5 := by
  have h0 : Reachable strLen (NewRoot "" : RopeImpl Nat String) := Reachable.newRoot ""
  have h1 : Reachable strLen c5rope :=
    Reachable.splice _ _ 0 none (some 1) "" 1 [] none h0 (by decide) (by decide)
      (by decide)
  have h2 : Reachable strLen exRope :=
    Reachable.splice _ _ 1 none (some 2) "hello" 1 [] none h1 (by decide) (by decide)
      (by decide)
  exact ⟨thm_len_sum_invariant strLen exRope h2, by decide⟩

end C3LenSum

section LevToolkit

variable {Id T : Type} [DecidableEq Id] [Inhabited Id] [Inhabited T]

/-- Unfolding `levLinked` at the empty remainder. -/
theorem levLinked_nil (s : RopeImpl Id T) (j p : Nat) (acc : Int) :
    levLinked s j p acc [] ↔
      ((nodeLevel (getNode s p) j).next = none ∧
       (nodeLevel (getNode s p) j).subtreesize = acc) := Iff.rfl

/-- Unfolding `levLinked` at a level-`j` member. -/
theorem levLinked_cons_mem (s : RopeImpl Id T) (j p q : Nat) (acc : Int)
    (rest : List Nat) (hq : j < (getNode s q).levels.length) :
    levLinked s j p acc (q :: rest) ↔
      ((nodeLevel (getNode s p) j).next = some q ∧
       (nodeLevel (getNode s q) j).prev = p ∧
       (nodeLevel (getNode s p) j).subtreesize = acc ∧
       levLinked s j q ((getNode s q).dl.Len) rest) := by
  simp [levLinked, hq]

/-- Unfolding `levLinked` at a node below level `j`. -/
theorem levLinked_cons_nonmem (s : RopeImpl Id T) (j p q : Nat) (acc : Int)
    (rest : List Nat) (hq : ¬ j < (getNode s q).levels.length) :
    levLinked s j p acc (q :: rest) ↔
      levLinked s j p (acc + (getNode s q).dl.Len) rest := by
  simp [levLinked, hq]

/-- Unfolding `levTail` at the empty prefix. -/
theorem levTail_nil (s : RopeImpl Id T) (j p : Nat) (acc : Int) :
    levTail s j p acc [] = (p, acc) := rfl

/-- Unfolding `levTail` at a level-`j` member. -/
theorem levTail_cons_mem (s : RopeImpl Id T) (j p q : Nat) (acc : Int)
    (rest : List Nat) (hq : j < (getNode s q).levels.length) :
    levTail s j p acc (q :: rest) = levTail s j q ((getNode s q).dl.Len) rest := by
  simp [levTail, hq]

/-- Unfolding `levTail` at a node below level `j`. -/
theorem levTail_cons_nonmem (s : RopeImpl Id T) (j p q : Nat) (acc : Int)
    (rest : List Nat) (hq : ¬ j < (getNode s q).levels.length) :
    levTail s j p acc (q :: rest) = levTail s j p (acc + (getNode s q).dl.Len) rest := by
  simp [levTail, hq]

/-- The node returned by `levTail` is the start or an element of the prefix. -/
theorem levTail_mem (s : RopeImpl Id T) (j : Nat) :
    ∀ (U : List Nat) (p : Nat) (acc : Int), (levTail s j p acc U).1 ∈ p :: U
  | [], p, acc => List.mem_cons_self _ _
  | q :: rest, p, acc => by
    by_cases hq : j < (getNode s q).levels.length
    · rw [levTail_cons_mem s j p q acc rest hq]
      exact List.mem_cons_of_mem _ (levTail_mem s j rest q _)
    · rw [levTail_cons_nonmem s j p q acc rest hq]
      rcases List.mem_cons.mp (levTail_mem s j rest p (acc + (getNode s q).dl.Len)) with
        he | hm
      · rw [he]
        exact List.mem_cons_self _ _
      · exact List.mem_cons_of_mem _ (List.mem_cons_of_mem _ hm)

/-- Congruence for `levLinked`: only the start node's forward link and span,
and the traversed nodes' level data, matter. -/
theorem levLinked_congrW (s s' : RopeImpl Id T) (j : Nat) :
    ∀ (V : List Nat) (p : Nat) (acc : Int),
      (nodeLevel (getNode s' p) j).next = (nodeLevel (getNode s p) j).next →
      (nodeLevel (getNode s' p) j).subtreesize = (nodeLevel (getNode s p) j).subtreesize →
      (∀ x ∈ V, (getNode s' x).levels.length = (getNode s x).levels.length ∧
        (getNode s' x).dl = (getNode s x).dl ∧
        nodeLevel (getNode s' x) j = nodeLevel (getNode s x) j) →
      levLinked s j p acc V → levLinked s' j p acc V
  | [], p, acc, hn, hs, _, h => ⟨by rw [hn]; exact h.1, by rw [hs]; exact h.2⟩
  | q :: rest, p, acc, hn, hs, hV, h => by
    obtain ⟨hl, hd, hlv⟩ := hV q (List.mem_cons_self q rest)
    by_cases hq : j < (getNode s q).levels.length
    · rw [levLinked_cons_mem s j p q acc rest hq] at h
      rw [levLinked_cons_mem s' j p q acc rest (by rw [hl]; exact hq)]
      refine ⟨by rw [hn]; exact h.1, by rw [hlv]; exact h.2.1,
        by rw [hs]; exact h.2.2.1, ?_⟩
      rw [hd]
      exact levLinked_congrW s s' j rest q _ (by rw [hlv]) (by rw [hlv])
        (fun x hx => hV x (List.mem_cons_of_mem _ hx)) h.2.2.2
    · rw [levLinked_cons_nonmem s j p q acc rest hq] at h
      rw [levLinked_cons_nonmem s' j p q acc rest (by rw [hl]; exact hq), hd]
      exact levLinked_congrW s s' j rest p _ hn hs
        (fun x hx => hV x (List.mem_cons_of_mem _ hx)) h

/-- Restart a `levLinked` traversal at any level-`j` member it passes. -/
theorem levLinked_through (s : RopeImpl Id T) (j : Nat) (x : Nat) (V : List Nat)
    (hx : j < (getNode s x).levels.length) :
    ∀ (U : List Nat) (p : Nat) (acc : Int),
      levLinked s j p acc (U ++ x :: V) →
      levLinked s j x ((getNode s x).dl.Len) V
  | [], p, acc, h => by
    rw [List.nil_append, levLinked_cons_mem s j p x acc V hx] at h
    exact h.2.2.2
  | q :: U', p, acc, h => by
    rw [List.cons_append] at h
    by_cases hq : j < (getNode s q).levels.length
    · rw [levLinked_cons_mem s j p q acc _ hq] at h
      exact levLinked_through s j x V hx U' q _ h.2.2.2
    · rw [levLinked_cons_nonmem s j p q acc _ hq] at h
      exact levLinked_through s j x V hx U' p _ h

/-- Every forward level-`j` link out of the traversal start lands in the
remainder. -/
theorem levLinked_next_closed (s : RopeImpl Id T) (j : Nat) :
    ∀ (V : List Nat) (p : Nat) (acc : Int),
      levLinked s j p acc V →
      ∀ fn, (nodeLevel (getNode s p) j).next = some fn → fn ∈ V
  | [], p, acc, h, fn, hfn => by rw [h.1] at hfn; cases hfn
  | q :: rest, p, acc, h, fn, hfn => by
    by_cases hq : j < (getNode s q).levels.length
    · rw [levLinked_cons_mem s j p q acc rest hq] at h
      rw [h.1] at hfn
      exact (Option.some.inj hfn) ▸ List.mem_cons_self _ _
    · rw [levLinked_cons_nonmem s j p q acc rest hq] at h
      exact List.mem_cons_of_mem _ (levLinked_next_closed s j rest p _ h fn hfn)

/-- Replace the traversal start `e` (state `s`) by a new start `pn`
(state `s'`) whose forward link and span take over `e`'s chain. -/
theorem levLinked_shift (s s' : RopeImpl Id T) (j : Nat) (e pn : Nat) :
    ∀ (C : List Nat) (accE accP : Int),
      C.Nodup → e ∉ C →
      (∀ x ∈ C, (getNode s' x).levels.length = (getNode s x).levels.length) →
      (∀ x ∈ C, (getNode s' x).dl = (getNode s x).dl) →
      (nodeLevel (getNode s' pn) j).next = (nodeLevel (getNode s e) j).next →
      (nodeLevel (getNode s' pn) j).subtreesize =
        accP + ((nodeLevel (getNode s e) j).subtreesize - accE) →
      (∀ fn, (nodeLevel (getNode s e) j).next = some fn →
        (nodeLevel (getNode s' fn) j).next = (nodeLevel (getNode s fn) j).next ∧
        (nodeLevel (getNode s' fn) j).prev = pn ∧
        (nodeLevel (getNode s' fn) j).subtreesize =
          (nodeLevel (getNode s fn) j).subtreesize) →
      (∀ x ∈ C, (nodeLevel (getNode s e) j).next ≠ some x →
        nodeLevel (getNode s' x) j = nodeLevel (getNode s x) j) →
      levLinked s j e accE C → levLinked s' j pn accP C
  | [], accE, accP, _, _, _, _, hnp, hsp, _, _, h => by
    refine ⟨by rw [hnp]; exact h.1, ?_⟩
    have h2 := h.2
    omega
  | q :: rest, accE, accP, hnd, he, hlev, hdl, hnp, hsp, hf, hrest, h => by
    have hqrest : q ∉ rest := (List.nodup_cons.mp hnd).1
    by_cases hq : j < (getNode s q).levels.length
    · rw [levLinked_cons_mem s j e q accE rest hq] at h
      obtain ⟨hq1, hq2, hq3, hq4⟩ := h
      obtain ⟨hfq1, hfq2, hfq3⟩ := hf q hq1
      rw [levLinked_cons_mem s' j pn q accP rest
        (by rw [hlev q (List.mem_cons_self q rest)]; exact hq)]
      refine ⟨by rw [hnp]; exact hq1, hfq2, by omega, ?_⟩
      rw [hdl q (List.mem_cons_self q rest)]
      refine levLinked_congrW s s' j rest q _ hfq1 hfq3 ?_ hq4
      intro x hx
      have hxq : x ≠ q := fun hh => hqrest (hh ▸ hx)
      have hfr := hrest x (List.mem_cons_of_mem _ hx)
        (by rw [hq1]; exact fun hc => hxq (Option.some.inj hc).symm)
      exact ⟨hlev x (List.mem_cons_of_mem _ hx), hdl x (List.mem_cons_of_mem _ hx), hfr⟩
    · rw [levLinked_cons_nonmem s j e q accE rest hq] at h
      rw [levLinked_cons_nonmem s' j pn q accP rest
        (by rw [hlev q (List.mem_cons_self q rest)]; exact hq),
        hdl q (List.mem_cons_self q rest)]
      refine levLinked_shift s s' j e pn rest (accE + (getNode s q).dl.Len)
        (accP + (getNode s q).dl.Len) (List.nodup_cons.mp hnd).2
        (fun hh => he (List.mem_cons_of_mem _ hh))
        (fun x hx => hlev x (List.mem_cons_of_mem _ hx))
        (fun x hx => hdl x (List.mem_cons_of_mem _ hx)) hnp (by omega) hf
        (fun x hx => hrest x (List.mem_cons_of_mem _ hx)) h

/-- Shrink the span of the traversal start by `δ` (state change `s → s'`)
when the accumulated length shrinks by the same amount. -/
theorem levLinked_subshift (s s' : RopeImpl Id T) (j : Nat) (pn : Nat) (δ : Int) :
    ∀ (C : List Nat) (a : Int),
      (∀ x ∈ C, (getNode s' x).levels.length = (getNode s x).levels.length) →
      (∀ x ∈ C, (getNode s' x).dl = (getNode s x).dl) →
      (∀ x ∈ C, nodeLevel (getNode s' x) j = nodeLevel (getNode s x) j) →
      (nodeLevel (getNode s' pn) j).next = (nodeLevel (getNode s pn) j).next →
      (nodeLevel (getNode s' pn) j).subtreesize =
        (nodeLevel (getNode s pn) j).subtreesize - δ →
      levLinked s j pn (a + δ) C → levLinked s' j pn a C
  | [], a, _, _, _, hnp, hsp, h => by
    refine ⟨by rw [hnp]; exact h.1, ?_⟩
    have h2 := h.2
    omega
  | q :: rest, a, hlev, hdl, hlv, hnp, hsp, h => by
    by_cases hq : j < (getNode s q).levels.length
    · rw [levLinked_cons_mem s j pn q _ rest hq] at h
      rw [levLinked_cons_mem s' j pn q a rest
        (by rw [hlev q (List.mem_cons_self q rest)]; exact hq)]
      obtain ⟨hq1, hq2, hq3, hq4⟩ := h
      refine ⟨by rw [hnp]; exact hq1, by rw [hlv q (List.mem_cons_self q rest)]; exact hq2,
        by omega, ?_⟩
      rw [hdl q (List.mem_cons_self q rest)]
      refine levLinked_congrW s s' j rest q _
        (by rw [hlv q (List.mem_cons_self q rest)])
        (by rw [hlv q (List.mem_cons_self q rest)]) ?_ hq4
      intro x hx
      exact ⟨hlev x (List.mem_cons_of_mem _ hx), hdl x (List.mem_cons_of_mem _ hx),
        hlv x (List.mem_cons_of_mem _ hx)⟩
    · rw [levLinked_cons_nonmem s j pn q _ rest hq] at h
      rw [levLinked_cons_nonmem s' j pn q a rest
        (by rw [hlev q (List.mem_cons_self q rest)]; exact hq),
        hdl q (List.mem_cons_self q rest)]
      rw [add_right_comm] at h
      exact levLinked_subshift s s' j pn δ rest (a + (getNode s q).dl.Len)
        (fun x hx => hlev x (List.mem_cons_of_mem _ hx))
        (fun x hx => hdl x (List.mem_cons_of_mem _ hx))
        (fun x hx => hlv x (List.mem_cons_of_mem _ hx)) hnp hsp h

/-- Dropping the second element of a cons pair keeps `Nodup`. -/
theorem nodup_drop_mid {α : Type} {p q : α} {W : List α} (h : (p :: q :: W).Nodup) :
    (p :: W).Nodup := by
  have h1 := List.nodup_cons.mp h
  have h2 := List.nodup_cons.mp h1.2
  exact List.nodup_cons.mpr ⟨fun hm => h1.1 (List.mem_cons_of_mem _ hm), h2.2⟩

/-- Dropping the second element of a cons pair keeps non-membership. -/
theorem not_mem_drop_mid {α : Type} {w p q : α} {W : List α} (h : w ∉ p :: q :: W) :
    w ∉ p :: W := by
  intro hm
  rcases List.mem_cons.mp hm with h1 | h1
  · exact h (by rw [h1]; exact List.mem_cons_self _ _)
  · exact h (List.mem_cons_of_mem _ (List.mem_cons_of_mem _ h1))

/-- Unlinking a level-`j` member `e` (state change `s → s'`): the last
level-`j` member `t` of the prefix takes over `e`'s forward link, absorbs its
span minus the removed length, and `e`'s level-`j` successor points back at
`t`; the traversal then skips `e`. -/
theorem levLinked_del_mem (s s' : RopeImpl Id T) (j : Nat) (e t : Nat) (C : List Nat)
    (hje : j < (getNode s e).levels.length)
    (h2 : ∀ m, m ≠ e → (getNode s' m).levels.length = (getNode s m).levels.length)
    (h2' : ∀ m, m ≠ e → (getNode s' m).dl = (getNode s m).dl)
    (h3 : (nodeLevel (getNode s' t) j).next = (nodeLevel (getNode s e) j).next)
    (h3' : (nodeLevel (getNode s' t) j).prev = (nodeLevel (getNode s t) j).prev)
    (h4 : (nodeLevel (getNode s' t) j).subtreesize =
      (nodeLevel (getNode s t) j).subtreesize +
      (nodeLevel (getNode s e) j).subtreesize - (getNode s e).dl.Len)
    (h5 : ∀ fn, (nodeLevel (getNode s e) j).next = some fn →
      (nodeLevel (getNode s' fn) j).next = (nodeLevel (getNode s fn) j).next ∧
      (nodeLevel (getNode s' fn) j).prev = t ∧
      (nodeLevel (getNode s' fn) j).subtreesize =
        (nodeLevel (getNode s fn) j).subtreesize)
    (h1 : ∀ m, m ≠ t → m ≠ e → (nodeLevel (getNode s e) j).next ≠ some m →
      nodeLevel (getNode s' m) j = nodeLevel (getNode s m) j)
    (h7 : ∀ fn, (nodeLevel (getNode s e) j).next = some fn → fn ∈ C) :
    ∀ (U : List Nat) (p : Nat) (acc : Int),
      (levTail s j p acc U).1 = t →
      (p :: (U ++ e :: C)).Nodup →
      levLinked s j p acc (U ++ e :: C) → levLinked s' j p acc (U ++ C) := by
  intro U
  induction U with
  | nil =>
    intro p acc hT hnd h
    have hpt : p = t := hT
    subst hpt
    have hn1 := List.nodup_cons.mp hnd
    have hn2 := List.nodup_cons.mp hn1.2
    have hpe : p ≠ e := fun hh => hn1.1 (by rw [hh]; exact List.mem_cons_self _ _)
    have hpC : p ∉ C := fun hh => hn1.1 (List.mem_cons_of_mem _ hh)
    rw [List.nil_append] at h ⊢
    rw [levLinked_cons_mem s j p e acc C hje] at h
    obtain ⟨he1, he2, he3, he4⟩ := h
    refine levLinked_shift s s' j e p C ((getNode s e).dl.Len) acc hn2.2 hn2.1
      (fun x hx => h2 x (fun hh => hn2.1 (hh ▸ hx)))
      (fun x hx => h2' x (fun hh => hn2.1 (hh ▸ hx))) h3 (by omega) h5 ?_ he4
    intro x hx hne
    exact h1 x (fun hh => hpC (hh ▸ hx)) (fun hh => hn2.1 (hh ▸ hx)) hne
  | cons q U' ih =>
    intro p acc hT hnd h
    rw [List.cons_append] at h ⊢
    have hndtail : (q :: (U' ++ e :: C)).Nodup := (List.nodup_cons.mp hnd).2
    have hpnotin : p ∉ q :: (U' ++ e :: C) := (List.nodup_cons.mp hnd).1
    have hqnotin : q ∉ U' ++ e :: C := (List.nodup_cons.mp hndtail).1
    have hqe : q ≠ e := fun hh => hqnotin
      (by rw [hh]; exact List.mem_append_right _ (List.mem_cons_self _ _))
    have hpe : p ≠ e := fun hh => hpnotin (by
      rw [hh]
      exact List.mem_cons_of_mem _ (List.mem_append_right _ (List.mem_cons_self _ _)))
    have hpC : p ∉ C := fun hh => hpnotin (List.mem_cons_of_mem _
      (List.mem_append_right _ (List.mem_cons_of_mem _ hh)))
    have hqC : q ∉ C := fun hh => hqnotin
      (List.mem_append_right _ (List.mem_cons_of_mem _ hh))
    have hnep : (nodeLevel (getNode s e) j).next ≠ some p :=
      fun hc => hpC (h7 p hc)
    have hneq : (nodeLevel (getNode s e) j).next ≠ some q :=
      fun hc => hqC (h7 q hc)
    by_cases hq : j < (getNode s q).levels.length
    · rw [levTail_cons_mem s j p q acc U' hq] at hT
      rw [levLinked_cons_mem s j p q acc _ hq] at h
      obtain ⟨hq1, hq2, hq3, hq4⟩ := h
      have htmem : t ∈ q :: U' := hT ▸ levTail_mem s j U' q _
      have hpt : p ≠ t := fun hh => hpnotin (by
        rw [hh]
        rcases List.mem_cons.mp htmem with h1 | h1
        · rw [h1]; exact List.mem_cons_self _ _
        · exact List.mem_cons_of_mem _ (List.mem_append_left _ h1))
      have hpframe := h1 p hpt hpe hnep
      have hqprev : (nodeLevel (getNode s' q) j).prev = p := by
        by_cases hqt : q = t
        · rw [hqt, h3', ← hqt]
          exact hq2
        · rw [h1 q hqt hqe hneq]
          exact hq2
      rw [levLinked_cons_mem s' j p q acc _ (by rw [h2 q hqe]; exact hq)]
      refine ⟨by rw [hpframe]; exact hq1, hqprev, by rw [hpframe]; exact hq3, ?_⟩
      rw [h2' q hqe]
      exact ih q _ hT hndtail hq4
    · rw [levTail_cons_nonmem s j p q acc U' hq] at hT
      rw [levLinked_cons_nonmem s j p q acc _ hq] at h
      rw [levLinked_cons_nonmem s' j p q acc _ (by rw [h2 q hqe]; exact hq), h2' q hqe]
      exact ih p _ hT (nodup_drop_mid hnd) h

/-- Removing a node `e` below level `j` (state change `s → s'`): only the
last level-`j` member `t` of the prefix changes, its span shrinking by the
removed length. -/
theorem levLinked_del_nonmem (s s' : RopeImpl Id T) (j : Nat) (e t : Nat)
    (C : List Nat)
    (hje : ¬ j < (getNode s e).levels.length)
    (h2 : ∀ m, m ≠ e → (getNode s' m).levels.length = (getNode s m).levels.length)
    (h2' : ∀ m, m ≠ e → (getNode s' m).dl = (getNode s m).dl)
    (h3 : (nodeLevel (getNode s' t) j).next = (nodeLevel (getNode s t) j).next)
    (h3' : (nodeLevel (getNode s' t) j).prev = (nodeLevel (getNode s t) j).prev)
    (h4 : (nodeLevel (getNode s' t) j).subtreesize =
      (nodeLevel (getNode s t) j).subtreesize - (getNode s e).dl.Len)
    (h1 : ∀ m, m ≠ t → m ≠ e → nodeLevel (getNode s' m) j = nodeLevel (getNode s m) j) :
    ∀ (U : List Nat) (p : Nat) (acc : Int),
      (levTail s j p acc U).1 = t →
      (p :: (U ++ e :: C)).Nodup →
      levLinked s j p acc (U ++ e :: C) → levLinked s' j p acc (U ++ C) := by
  intro U
  induction U with
  | nil =>
    intro p acc hT hnd h
    have hpt : p = t := hT
    subst hpt
    have hn1 := List.nodup_cons.mp hnd
    have hn2 := List.nodup_cons.mp hn1.2
    rw [List.nil_append] at h ⊢
    rw [levLinked_cons_nonmem s j p e acc C hje] at h
    refine levLinked_subshift s s' j p ((getNode s e).dl.Len) C acc
      (fun x hx => h2 x (fun hh => hn2.1 (hh ▸ hx)))
      (fun x hx => h2' x (fun hh => hn2.1 (hh ▸ hx)))
      (fun x hx => h1 x (fun hh => hn1.1 (hh ▸ List.mem_cons_of_mem _ hx))
        (fun hh => hn2.1 (hh ▸ hx)))
      h3 h4 h
  | cons q U' ih =>
    intro p acc hT hnd h
    rw [List.cons_append] at h ⊢
    have hndtail : (q :: (U' ++ e :: C)).Nodup := (List.nodup_cons.mp hnd).2
    have hpnotin : p ∉ q :: (U' ++ e :: C) := (List.nodup_cons.mp hnd).1
    have hqnotin : q ∉ U' ++ e :: C := (List.nodup_cons.mp hndtail).1
    have hqe : q ≠ e := fun hh => hqnotin
      (by rw [hh]; exact List.mem_append_right _ (List.mem_cons_self _ _))
    have hpe : p ≠ e := fun hh => hpnotin (by
      rw [hh]
      exact List.mem_cons_of_mem _ (List.mem_append_right _ (List.mem_cons_self _ _)))
    by_cases hq : j < (getNode s q).levels.length
    · rw [levTail_cons_mem s j p q acc U' hq] at hT
      rw [levLinked_cons_mem s j p q acc _ hq] at h
      obtain ⟨hq1, hq2, hq3, hq4⟩ := h
      have htmem : t ∈ q :: U' := hT ▸ levTail_mem s j U' q _
      have hpt : p ≠ t := fun hh => hpnotin (by
        rw [hh]
        rcases List.mem_cons.mp htmem with h1 | h1
        · rw [h1]; exact List.mem_cons_self _ _
        · exact List.mem_cons_of_mem _ (List.mem_append_left _ h1))
      have hpframe := h1 p hpt hpe
      have hqprev : (nodeLevel (getNode s' q) j).prev = p := by
        by_cases hqt : q = t
        · rw [hqt, h3', ← hqt]
          exact hq2
        · rw [h1 q hqt hqe]
          exact hq2
      rw [levLinked_cons_mem s' j p q acc _ (by rw [h2 q hqe]; exact hq)]
      refine ⟨by rw [hpframe]; exact hq1, hqprev, by rw [hpframe]; exact hq3, ?_⟩
      rw [h2' q hqe]
      exact ih q _ hT hndtail hq4
    · rw [levTail_cons_nonmem s j p q acc U' hq] at hT
      rw [levLinked_cons_nonmem s j p q acc _ hq] at h
      rw [levLinked_cons_nonmem s' j p q acc _ (by rw [h2 q hqe]; exact hq), h2' q hqe]
      exact ih p _ hT (nodup_drop_mid hnd) h

/-- Splicing a new level-`j` member `w` right after the prefix (state change
`s → s'`): the last level-`j` member `t` of the prefix now points at `w` and
its span is the accumulated prefix length `d`; `w` takes over `t`'s old
forward link with the remaining span plus the inserted `length`. -/
theorem levLinked_ins (s s' : RopeImpl Id T) (j : Nat) (w t : Nat) (d length : Int)
    (C : List Nat)
    (hw : j < (getNode s' w).levels.length)
    (hlenw : (getNode s' w).dl.Len = length)
    (h2 : ∀ m, m ≠ w → (getNode s' m).levels.length = (getNode s m).levels.length)
    (h2' : ∀ m, m ≠ w → (getNode s' m).dl = (getNode s m).dl)
    (h3 : (nodeLevel (getNode s' t) j).next = some w)
    (h3' : (nodeLevel (getNode s' t) j).prev = (nodeLevel (getNode s t) j).prev)
    (h4 : (nodeLevel (getNode s' t) j).subtreesize = d)
    (h5 : (nodeLevel (getNode s' w) j).next = (nodeLevel (getNode s t) j).next ∧
      (nodeLevel (getNode s' w) j).prev = t ∧
      (nodeLevel (getNode s' w) j).subtreesize =
        length + (nodeLevel (getNode s t) j).subtreesize - d)
    (h6 : ∀ fn, (nodeLevel (getNode s t) j).next = some fn →
      (nodeLevel (getNode s' fn) j).next = (nodeLevel (getNode s fn) j).next ∧
      (nodeLevel (getNode s' fn) j).prev = w ∧
      (nodeLevel (getNode s' fn) j).subtreesize =
        (nodeLevel (getNode s fn) j).subtreesize)
    (h1 : ∀ m, m ≠ t → m ≠ w → (nodeLevel (getNode s t) j).next ≠ some m →
      nodeLevel (getNode s' m) j = nodeLevel (getNode s m) j)
    (h7 : ∀ fn, (nodeLevel (getNode s t) j).next = some fn → fn ∈ C) :
    ∀ (U : List Nat) (p : Nat) (acc : Int),
      levTail s j p acc U = (t, d) →
      (p :: (U ++ C)).Nodup →
      w ∉ p :: (U ++ C) →
      levLinked s j p acc (U ++ C) → levLinked s' j p acc (U ++ w :: C) := by
  intro U
  induction U with
  | nil =>
    intro p acc hT hnd hwn h
    have hpt : p = t := congrArg Prod.fst hT
    have had : acc = d := congrArg Prod.snd hT
    subst hpt
    subst had
    have hn1 := List.nodup_cons.mp hnd
    have hpC : p ∉ C := by rw [List.nil_append] at hn1; exact hn1.1
    have hCnd : C.Nodup := by
      have := hn1.2
      rwa [List.nil_append] at this
    have hwp : w ≠ p := fun hh => hwn (by rw [hh]; exact List.mem_cons_self _ _)
    have hwC : w ∉ C := fun hh => hwn (List.mem_cons_of_mem _ (by
      rw [List.nil_append]; exact hh))
    rw [List.nil_append] at h ⊢
    rw [levLinked_cons_mem s' j p w acc C hw]
    refine ⟨h3, h5.2.1, h4, ?_⟩
    rw [hlenw]
    refine levLinked_shift s s' j p w C acc length hCnd hpC
      (fun x hx => h2 x (fun hh => hwC (hh ▸ hx)))
      (fun x hx => h2' x (fun hh => hwC (hh ▸ hx)))
      h5.1 (by have := h5.2.2; omega) h6 ?_ h
    intro x hx hne
    exact h1 x (fun hh => hpC (hh ▸ hx)) (fun hh => hwC (hh ▸ hx)) hne
  | cons q U' ih =>
    intro p acc hT hnd hwn h
    rw [List.cons_append] at h hnd hwn ⊢
    have hndtail : (q :: (U' ++ C)).Nodup := (List.nodup_cons.mp hnd).2
    have hpnotin : p ∉ q :: (U' ++ C) := (List.nodup_cons.mp hnd).1
    have hqnotin : q ∉ U' ++ C := (List.nodup_cons.mp hndtail).1
    have hwq : q ≠ w := fun hh => hwn (by
      rw [hh]
      exact List.mem_cons_of_mem _ (List.mem_cons_self _ _))
    have hwp : p ≠ w := fun hh => hwn (by rw [hh]; exact List.mem_cons_self _ _)
    have hpC : p ∉ C := fun hh => hpnotin (List.mem_cons_of_mem _
      (List.mem_append_right _ hh))
    have hqC : q ∉ C := fun hh => hqnotin (List.mem_append_right _ hh)
    have hnep : (nodeLevel (getNode s t) j).next ≠ some p :=
      fun hc => hpC (h7 p hc)
    have hneq : (nodeLevel (getNode s t) j).next ≠ some q :=
      fun hc => hqC (h7 q hc)
    by_cases hq : j < (getNode s q).levels.length
    · rw [levTail_cons_mem s j p q acc U' hq] at hT
      rw [levLinked_cons_mem s j p q acc _ hq] at h
      obtain ⟨hq1, hq2, hq3, hq4⟩ := h
      have htmem : t ∈ q :: U' := by
        have := levTail_mem s j U' q ((getNode s q).dl.Len)
        rw [hT] at this
        exact this
      have hpt : p ≠ t := fun hh => hpnotin (by
        rw [hh]
        rcases List.mem_cons.mp htmem with h1 | h1
        · rw [h1]; exact List.mem_cons_self _ _
        · exact List.mem_cons_of_mem _ (List.mem_append_left _ h1))
      have hpframe := h1 p hpt hwp hnep
      have hqprev : (nodeLevel (getNode s' q) j).prev = p := by
        by_cases hqt : q = t
        · rw [hqt, h3', ← hqt]
          exact hq2
        · rw [h1 q hqt hwq hneq]
          exact hq2
      rw [levLinked_cons_mem s' j p q acc _ (by rw [h2 q hwq]; exact hq)]
      refine ⟨by rw [hpframe]; exact hq1, hqprev, by rw [hpframe]; exact hq3, ?_⟩
      rw [h2' q hwq]
      exact ih q _ hT hndtail (fun hm => hwn (List.mem_cons_of_mem _ hm)) hq4
    · rw [levTail_cons_nonmem s j p q acc U' hq] at hT
      rw [levLinked_cons_nonmem s j p q acc _ hq] at h
      rw [levLinked_cons_nonmem s' j p q acc _ (by rw [h2 q hwq]; exact hq), h2' q hwq]
      exact ih p _ hT (nodup_drop_mid hnd) (not_mem_drop_mid hwn) h

/-- Splitting `range n` at an inner point. -/
theorem range_split_at (n j : Nat) (hj : j < n) :
    List.range n = List.range' 0 j ++ j :: List.range' (j + 1) (n - j - 1) := by
  rw [List.range_eq_range']
  have h := List.range'_append 0 j (n - j) 1
  rw [show 0 + 1 * j = j from by omega, show n - j + j = n from by omega] at h
  have h2 : n - j = (n - j - 1) + 1 := by omega
  rw [← h, h2, List.range'_succ]
  simp

/-- In-range `updLevel` read-back at the written slot. -/
theorem nodeLevel_updLevel_self (r : RopeImpl Id T) (i j : Nat)
    (f : RopeLevel → RopeLevel) (h : j < (getNode r i).levels.length) :
    nodeLevel (getNode (updLevel r i j f) i) j = f (nodeLevel (getNode r i) j) := by
  rw [nodeLevel_updLevel, if_pos ⟨rfl, rfl⟩]
  cases hg : (getNode r i).levels.get? j with
  | none =>
    have hc := List.get?_eq_get h
    rw [hg] at hc
    cases hc
  | some l =>
    have hl : nodeLevel (getNode r i) j = l := by rw [nodeLevel, hg]; rfl
    rw [hl]
    rfl

/-- A node update that keeps the `levels` slice keeps every level record. -/
theorem nodeLevel_updNode_keepLevels (r : RopeImpl Id T) (i : Nat)
    (f : RopeNode Id T → RopeNode Id T) (hf : ∀ n, (f n).levels = n.levels)
    (m k : Nat) :
    nodeLevel (getNode (updNode r i f) m) k = nodeLevel (getNode r m) k := by
  rw [getNode_updNode]
  split
  · next hm =>
    subst hm
    rw [nodeLevel, nodeLevel, getNode_eq]
    cases hn : r.nodes.get? m with
    | none => rfl
    | some n =>
      show ((f n).levels.get? k).getD default = _
      rw [hf n]
      rfl
  · rfl

/-- `levTail` only reads the level counts and lengths of the prefix nodes. -/
theorem levTail_congr (s s' : RopeImpl Id T) (j : Nat) :
    ∀ (U : List Nat) (p : Nat) (acc : Int),
      (∀ x ∈ U, (getNode s' x).levels.length = (getNode s x).levels.length ∧
        (getNode s' x).dl = (getNode s x).dl) →
      levTail s' j p acc U = levTail s j p acc U
  | [], p, acc, _ => rfl
  | q :: rest, p, acc, hU => by
    obtain ⟨hl, hd⟩ := hU q (List.mem_cons_self q rest)
    by_cases hq : j < (getNode s q).levels.length
    · rw [levTail_cons_mem s j p q acc rest hq,
        levTail_cons_mem s' j p q acc rest (by rw [hl]; exact hq), hd]
      exact levTail_congr s s' j rest q _ (fun x hx => hU x (List.mem_cons_of_mem _ hx))
    · rw [levTail_cons_nonmem s j p q acc rest hq,
        levTail_cons_nonmem s' j p q acc rest (by rw [hl]; exact hq), hd]
      exact levTail_congr s s' j rest p _ (fun x hx => hU x (List.mem_cons_of_mem _ hx))

/-- Starting from a level-`j` member, `levTail` lands on a level-`j` member. -/
theorem levTail_lv (s : RopeImpl Id T) (j : Nat) :
    ∀ (U : List Nat) (p : Nat) (acc : Int), j < (getNode s p).levels.length →
      j < (getNode s (levTail s j p acc U).1).levels.length
  | [], p, acc, hp => hp
  | q :: rest, p, acc, hp => by
    by_cases hq : j < (getNode s q).levels.length
    · rw [levTail_cons_mem s j p q acc rest hq]
      exact levTail_lv s j rest q _ hq
    · rw [levTail_cons_nonmem s j p q acc rest hq]
      exact levTail_lv s j rest p _ hp

/-- A forward level-`j` link out of the traversal start reaches a level-`j`
member. -/
theorem levLinked_next_mem_level (s : RopeImpl Id T) (j : Nat) :
    ∀ (V : List Nat) (p : Nat) (acc : Int), levLinked s j p acc V →
      ∀ fn, (nodeLevel (getNode s p) j).next = some fn →
        j < (getNode s fn).levels.length
  | [], p, acc, h, fn, hfn => by rw [h.1] at hfn; cases hfn
  | q :: rest, p, acc, h, fn, hfn => by
    by_cases hq : j < (getNode s q).levels.length
    · rw [levLinked_cons_mem s j p q acc rest hq] at h
      rw [h.1] at hfn
      rw [← Option.some.inj hfn]
      exact hq
    · rw [levLinked_cons_nonmem s j p q acc rest hq] at h
      exact levLinked_next_mem_level s j rest p _ h fn hfn

/-- Reading a `levLinked` traversal at an inner level-`j` member: the last
member of the part before it links to it forward and backward, and its span
is the accumulated length. -/
theorem levLinked_at_mem (s : RopeImpl Id T) (j : Nat) (q : Nat) (V2 : List Nat)
    (hq : j < (getNode s q).levels.length) :
    ∀ (V1 : List Nat) (p : Nat) (acc : Int),
      levLinked s j p acc (V1 ++ q :: V2) →
      (nodeLevel (getNode s (levTail s j p acc V1).1) j).next = some q ∧
      (nodeLevel (getNode s q) j).prev = (levTail s j p acc V1).1 ∧
      (nodeLevel (getNode s (levTail s j p acc V1).1) j).subtreesize =
        (levTail s j p acc V1).2
  | [], p, acc, h => by
    rw [List.nil_append] at h
    rw [levLinked_cons_mem s j p q acc V2 hq] at h
    exact ⟨h.1, h.2.1, h.2.2.1⟩
  | x :: V1', p, acc, h => by
    rw [List.cons_append] at h
    by_cases hx : j < (getNode s x).levels.length
    · rw [levLinked_cons_mem s j p x acc _ hx] at h
      rw [levTail_cons_mem s j p x acc V1' hx]
      exact levLinked_at_mem s j q V2 hq V1' x _ h.2.2.2
    · rw [levLinked_cons_nonmem s j p x acc _ hx] at h
      rw [levTail_cons_nonmem s j p x acc V1' hx]
      exact levLinked_at_mem s j q V2 hq V1' p _ h

/-- Full description of `levTail`: either the prefix holds no level-`j`
member and the start is returned with the whole length added, or the prefix
splits at a last member after which no member follows, the accumulator being
that member's length plus the tail lengths. -/
theorem levTail_spec (s : RopeImpl Id T) (j : Nat) :
    ∀ (U : List Nat) (p : Nat) (acc : Int),
      ((levTail s j p acc U).1 = p ∧
        (∀ x ∈ U, ¬ j < (getNode s x).levels.length) ∧
        (levTail s j p acc U).2 =
          acc + (U.map fun x => (getNode s x).dl.Len).sum) ∨
      (∃ U1 U2, U = U1 ++ (levTail s j p acc U).1 :: U2 ∧
        j < (getNode s (levTail s j p acc U).1).levels.length ∧
        (∀ x ∈ U2, ¬ j < (getNode s x).levels.length) ∧
        (levTail s j p acc U).2 =
          (getNode s (levTail s j p acc U).1).dl.Len +
          (U2.map fun x => (getNode s x).dl.Len).sum)
  | [], p, acc => by
    left
    refine ⟨rfl, fun x hx => absurd hx (List.not_mem_nil x), ?_⟩
    show acc = acc + 0
    omega
  | q :: rest, p, acc => by
    by_cases hq : j < (getNode s q).levels.length
    · rw [levTail_cons_mem s j p q acc rest hq]
      rcases levTail_spec s j rest q ((getNode s q).dl.Len) with ⟨h1, h2, h3⟩ |
        ⟨U1, U2, h1, h2, h3, h4⟩
      · right
        refine ⟨[], rest, by rw [h1]; rfl, by rw [h1]; exact hq, h2, ?_⟩
        rw [h3, h1]
      · right
        exact ⟨q :: U1, U2, by rw [List.cons_append, ← h1], h2, h3, h4⟩
    · rw [levTail_cons_nonmem s j p q acc rest hq]
      rcases levTail_spec s j rest p (acc + (getNode s q).dl.Len) with ⟨h1, h2, h3⟩ |
        ⟨U1, U2, h1, h2, h3, h4⟩
      · left
        refine ⟨h1, ?_, ?_⟩
        · intro x hx
          rcases List.mem_cons.mp hx with rfl | hx'
          · exact hq
          · exact h2 x hx'
        · rw [h3, List.map_cons, List.sum_cons]
          ring
      · right
        exact ⟨q :: U1, U2, by rw [List.cons_append, ← h1], h2, h3, h4⟩

/-- A relink step at a different level leaves a level's records unchanged. -/
theorem deleteRelinkStep_levFrame (s : RopeImpl Id T) (e : Nat)
    (seek : List (Nat × Int)) (j' j : Nat) (hne : j' ≠ j) (m : Nat) :
    nodeLevel (getNode (deleteRelinkStep s e seek j') m) j =
      nodeLevel (getNode s m) j := by
  have hcond : ∀ (i : Nat), ¬ (m = i ∧ j = j') := fun i hc => hne hc.2.symm
  simp only [deleteRelinkStep]
  split
  · rw [nodeLevel_updLevel, if_neg (hcond _)]
  · cases hnx : (nodeLevel (getNode s e) j').next with
    | none =>
      simp only [hnx]
      rw [nodeLevel_updLevel, if_neg (hcond _), nodeLevel_updLevel, if_neg (hcond _)]
    | some nx =>
      simp only [hnx]
      rw [nodeLevel_updLevel, if_neg (hcond _), nodeLevel_updLevel, if_neg (hcond _),
        nodeLevel_updLevel, if_neg (hcond _)]

/-- A relink step keeps every node's payload. -/
theorem deleteRelinkStep_dl (s : RopeImpl Id T) (e : Nat) (seek : List (Nat × Int))
    (j' : Nat) (m : Nat) :
    (getNode (deleteRelinkStep s e seek j') m).dl = (getNode s m).dl := by
  simp only [deleteRelinkStep]
  split
  · rw [getNode_updLevel_dl]
  · cases hnx : (nodeLevel (getNode s e) j').next with
    | none =>
      simp only [hnx]
      rw [getNode_updLevel_dl, getNode_updLevel_dl]
    | some nx =>
      simp only [hnx]
      rw [getNode_updLevel_dl, getNode_updLevel_dl, getNode_updLevel_dl]

/-- A relink step keeps every node's level count. -/
theorem deleteRelinkStep_lvlen (s : RopeImpl Id T) (e : Nat) (seek : List (Nat × Int))
    (j' : Nat) (m : Nat) :
    (getNode (deleteRelinkStep s e seek j') m).levels.length =
      (getNode s m).levels.length := by
  simp only [deleteRelinkStep]
  split
  · rw [getNode_updLevel_levelsLength]
  · cases hnx : (nodeLevel (getNode s e) j').next with
    | none =>
      simp only [hnx]
      rw [getNode_updLevel_levelsLength, getNode_updLevel_levelsLength]
    | some nx =>
      simp only [hnx]
      rw [getNode_updLevel_levelsLength, getNode_updLevel_levelsLength,
        getNode_updLevel_levelsLength]

/-- Folding relink steps over levels different from `j` leaves the level-`j`
records, the payloads and the level counts unchanged. -/
theorem foldl_relinkStep_levFrame (e : Nat) (seek : List (Nat × Int)) (j : Nat) :
    ∀ (J : List Nat) (s : RopeImpl Id T), (∀ x ∈ J, x ≠ j) →
      (∀ m, nodeLevel
        (getNode (J.foldl (fun s' i => deleteRelinkStep s' e seek i) s) m) j =
        nodeLevel (getNode s m) j) ∧
      (∀ m, (getNode (J.foldl (fun s' i => deleteRelinkStep s' e seek i) s) m).dl =
        (getNode s m).dl) ∧
      (∀ m, (getNode (J.foldl (fun s' i => deleteRelinkStep s' e seek i) s) m).levels.length =
        (getNode s m).levels.length)
  | [], s, _ => ⟨fun _ => rfl, fun _ => rfl, fun _ => rfl⟩
  | j' :: J', s, hJ => by
    rw [List.foldl_cons]
    obtain ⟨f1, f2, f3⟩ := foldl_relinkStep_levFrame e seek j J'
      (deleteRelinkStep s e seek j') (fun x hx => hJ x (List.mem_cons_of_mem _ hx))
    refine ⟨fun m => ?_, fun m => ?_, fun m => ?_⟩
    · rw [f1 m, deleteRelinkStep_levFrame s e seek j' j (hJ j' (List.mem_cons_self _ _)) m]
    · rw [f2 m, deleteRelinkStep_dl]
    · rw [f3 m, deleteRelinkStep_lvlen]

/-- The relink step at its own level: explicit writes at the seek node `t`
and, when the removed node `e` lives at this level, at `e`'s level-`j`
successor. -/
theorem deleteRelinkStep_levSelf (s : RopeImpl Id T) (e : Nat) (seek : List (Nat × Int))
    (j t : Nat) (sbj : Int)
    (hseekj : seek.get? j = some (t, sbj))
    (hjt : j < (getNode s t).levels.length)
    (hnxt : (nodeLevel (getNode s e) j).next ≠ some t)
    (hjf : ∀ fn, (nodeLevel (getNode s e) j).next = some fn →
      j < (getNode s fn).levels.length) :
    (∀ m, m ≠ t → (nodeLevel (getNode s e) j).next ≠ some m →
      nodeLevel (getNode (deleteRelinkStep s e seek j) m) j =
        nodeLevel (getNode s m) j) ∧
    (nodeLevel (getNode (deleteRelinkStep s e seek j) t) j).prev =
      (nodeLevel (getNode s t) j).prev ∧
    (j < (getNode s e).levels.length →
      (nodeLevel (getNode (deleteRelinkStep s e seek j) t) j).next =
        (nodeLevel (getNode s e) j).next ∧
      (nodeLevel (getNode (deleteRelinkStep s e seek j) t) j).subtreesize =
        (nodeLevel (getNode s t) j).subtreesize +
        (nodeLevel (getNode s e) j).subtreesize - (getNode s e).dl.Len ∧
      (∀ fn, (nodeLevel (getNode s e) j).next = some fn →
        (nodeLevel (getNode (deleteRelinkStep s e seek j) fn) j).next =
          (nodeLevel (getNode s fn) j).next ∧
        (nodeLevel (getNode (deleteRelinkStep s e seek j) fn) j).prev = t ∧
        (nodeLevel (getNode (deleteRelinkStep s e seek j) fn) j).subtreesize =
          (nodeLevel (getNode s fn) j).subtreesize)) ∧
    (¬ j < (getNode s e).levels.length →
      (nodeLevel (getNode (deleteRelinkStep s e seek j) t) j).next =
        (nodeLevel (getNode s t) j).next ∧
      (nodeLevel (getNode (deleteRelinkStep s e seek j) t) j).subtreesize =
        (nodeLevel (getNode s t) j).subtreesize - (getNode s e).dl.Len) := by
  by_cases hje : j < (getNode s e).levels.length
  · cases hnx : (nodeLevel (getNode s e) j).next with
    | none =>
      set s1 : RopeImpl Id T := updLevel s t j (fun l =>
        { l with subtreesize := l.subtreesize +
            (nodeLevel (getNode s e) j).subtreesize - (getNode s e).dl.Len }) with hs1
      have hEq : deleteRelinkStep s e seek j =
          updLevel s1 t j (fun l => { l with next := none }) := by
        rw [hs1]
        simp only [deleteRelinkStep, hseekj, Option.getD_some, hnx]
        rw [if_neg (by omega)]
      have hlen1 : j < (getNode s1 t).levels.length := by
        rw [hs1, getNode_updLevel_levelsLength]
        exact hjt
      have ht1 : nodeLevel (getNode s1 t) j = { nodeLevel (getNode s t) j with
          subtreesize := (nodeLevel (getNode s t) j).subtreesize +
            (nodeLevel (getNode s e) j).subtreesize - (getNode s e).dl.Len } := by
        rw [hs1, nodeLevel_updLevel_self _ _ _ _ hjt]
      refine ⟨?_, ?_, ?_, fun hc => absurd hje hc⟩
      · intro m hmt _
        rw [hEq, nodeLevel_updLevel, if_neg (fun hc => hmt hc.1),
          hs1, nodeLevel_updLevel, if_neg (fun hc => hmt hc.1)]
      · rw [hEq, nodeLevel_updLevel_self _ _ _ _ hlen1, ht1]
      · intro _
        refine ⟨?_, ?_, ?_⟩
        · rw [hEq, nodeLevel_updLevel_self _ _ _ _ hlen1]
        · rw [hEq, nodeLevel_updLevel_self _ _ _ _ hlen1, ht1]
        · intro fn hfn
          cases hfn
    | some nx =>
      have hnxt' : nx ≠ t := fun hc => hnxt (by rw [hnx, hc])
      have hjnx : j < (getNode s nx).levels.length := hjf nx hnx
      set s1 : RopeImpl Id T := updLevel s t j (fun l =>
        { l with subtreesize := l.subtreesize +
            (nodeLevel (getNode s e) j).subtreesize - (getNode s e).dl.Len }) with hs1
      set s2 : RopeImpl Id T := updLevel s1 nx j (fun l => { l with prev := t }) with hs2
      have hEq : deleteRelinkStep s e seek j =
          updLevel s2 t j (fun l => { l with next := some nx }) := by
        rw [hs2, hs1]
        simp only [deleteRelinkStep, hseekj, Option.getD_some, hnx]
        rw [if_neg (by omega)]
      have hlen1 : j < (getNode s1 t).levels.length := by
        rw [hs1, getNode_updLevel_levelsLength]
        exact hjt
      have hlen1nx : j < (getNode s1 nx).levels.length := by
        rw [hs1, getNode_updLevel_levelsLength]
        exact hjnx
      have hlen2 : j < (getNode s2 t).levels.length := by
        rw [hs2, getNode_updLevel_levelsLength]
        exact hlen1
      have ht2 : nodeLevel (getNode s2 t) j = nodeLevel (getNode s1 t) j := by
        rw [hs2, nodeLevel_updLevel, if_neg (fun hc => hnxt' hc.1.symm)]
      have ht1 : nodeLevel (getNode s1 t) j = { nodeLevel (getNode s t) j with
          subtreesize := (nodeLevel (getNode s t) j).subtreesize +
            (nodeLevel (getNode s e) j).subtreesize - (getNode s e).dl.Len } := by
        rw [hs1, nodeLevel_updLevel_self _ _ _ _ hjt]
      have hnx1 : nodeLevel (getNode s1 nx) j = nodeLevel (getNode s nx) j := by
        rw [hs1, nodeLevel_updLevel, if_neg (fun hc => hnxt' hc.1)]
      have hnx2 : nodeLevel (getNode s2 nx) j = { nodeLevel (getNode s nx) j with
          prev := t } := by
        rw [hs2, nodeLevel_updLevel_self _ _ _ _ hlen1nx, hnx1]
      refine ⟨?_, ?_, ?_, fun hc => absurd hje hc⟩
      · intro m hmt hmnx
        have hmnx' : m ≠ nx := fun hc => hmnx (by rw [hc])
        rw [hEq, nodeLevel_updLevel, if_neg (fun hc => hmt hc.1),
          hs2, nodeLevel_updLevel, if_neg (fun hc => hmnx' hc.1),
          hs1, nodeLevel_updLevel, if_neg (fun hc => hmt hc.1)]
      · rw [hEq, nodeLevel_updLevel_self _ _ _ _ hlen2, ht2, ht1]
      · intro _
        refine ⟨?_, ?_, ?_⟩
        · rw [hEq, nodeLevel_updLevel_self _ _ _ _ hlen2]
        · rw [hEq, nodeLevel_updLevel_self _ _ _ _ hlen2, ht2, ht1]
        · intro fn hfn
          obtain rfl : nx = fn := Option.some.inj hfn
          have hfr : nodeLevel (getNode (deleteRelinkStep s e seek j) nx) j =
              nodeLevel (getNode s2 nx) j := by
            rw [hEq, nodeLevel_updLevel, if_neg (fun hc => hnxt' hc.1)]
          rw [hfr, hnx2]
          exact ⟨rfl, rfl, rfl⟩
  · set s1 : RopeImpl Id T := updLevel s t j (fun l =>
      { l with subtreesize := l.subtreesize - (getNode s e).dl.Len }) with hs1
    have hEq : deleteRelinkStep s e seek j = s1 := by
      rw [hs1]
      simp only [deleteRelinkStep, hseekj, Option.getD_some]
      rw [if_pos (by omega)]
    refine ⟨?_, ?_, fun hc => absurd hc hje, ?_⟩
    · intro m hmt _
      rw [hEq, hs1, nodeLevel_updLevel, if_neg (fun hc => hmt hc.1)]
    · rw [hEq, hs1, nodeLevel_updLevel_self _ _ _ _ hjt]
    · intro _
      rw [hEq, hs1, nodeLevel_updLevel_self _ _ _ _ hjt]
      exact ⟨rfl, rfl⟩

/-- Level-`j` effect of one delete-loop iteration body: the writes of the
relink step at level `j`, the other levels and bookkeeping being transparent
(away from the removed node `e`). -/
theorem deleteIter_levEffect (s : RopeImpl Id T) (e : Nat) (seek : List (Nat × Int))
    (j t : Nat) (sbj : Int)
    (hj : j < s.height)
    (hseekj : seek.get? j = some (t, sbj))
    (hjt : j < (getNode s t).levels.length)
    (hte : t ≠ e)
    (hnxt : (nodeLevel (getNode s e) j).next ≠ some t)
    (hnxe : (nodeLevel (getNode s e) j).next ≠ some e)
    (hjf : ∀ fn, (nodeLevel (getNode s e) j).next = some fn →
      j < (getNode s fn).levels.length) :
    (∀ m, m ≠ t → m ≠ e → (nodeLevel (getNode s e) j).next ≠ some m →
      nodeLevel (getNode (deleteIterState s e seek) m) j =
        nodeLevel (getNode s m) j) ∧
    (nodeLevel (getNode (deleteIterState s e seek) t) j).prev =
      (nodeLevel (getNode s t) j).prev ∧
    (j < (getNode s e).levels.length →
      (nodeLevel (getNode (deleteIterState s e seek) t) j).next =
        (nodeLevel (getNode s e) j).next ∧
      (nodeLevel (getNode (deleteIterState s e seek) t) j).subtreesize =
        (nodeLevel (getNode s t) j).subtreesize +
        (nodeLevel (getNode s e) j).subtreesize - (getNode s e).dl.Len ∧
      (∀ fn, (nodeLevel (getNode s e) j).next = some fn →
        (nodeLevel (getNode (deleteIterState s e seek) fn) j).next =
          (nodeLevel (getNode s fn) j).next ∧
        (nodeLevel (getNode (deleteIterState s e seek) fn) j).prev = t ∧
        (nodeLevel (getNode (deleteIterState s e seek) fn) j).subtreesize =
          (nodeLevel (getNode s fn) j).subtreesize)) ∧
    (¬ j < (getNode s e).levels.length →
      (nodeLevel (getNode (deleteIterState s e seek) t) j).next =
        (nodeLevel (getNode s t) j).next ∧
      (nodeLevel (getNode (deleteIterState s e seek) t) j).subtreesize =
        (nodeLevel (getNode s t) j).subtreesize - (getNode s e).dl.Len) := by
  suffices H : ∀ (S1 : RopeImpl Id T),
      (∀ m k, nodeLevel (getNode S1 m) k = nodeLevel (getNode s m) k) →
      (∀ m, (getNode S1 m).dl = (getNode s m).dl) →
      (∀ m, (getNode S1 m).levels.length = (getNode s m).levels.length) →
      S1.height = s.height →
      ∀ S4, S4 = returnToPool (deleteRelink
        { S1 with byId := eraseKey S1.byId (getNode s e).id,
                  len := S1.len - (getNode s e).dl.Len } e seek) e →
      ((∀ m, m ≠ t → m ≠ e → (nodeLevel (getNode s e) j).next ≠ some m →
        nodeLevel (getNode S4 m) j = nodeLevel (getNode s m) j) ∧
      (nodeLevel (getNode S4 t) j).prev = (nodeLevel (getNode s t) j).prev ∧
      (j < (getNode s e).levels.length →
        (nodeLevel (getNode S4 t) j).next = (nodeLevel (getNode s e) j).next ∧
        (nodeLevel (getNode S4 t) j).subtreesize =
          (nodeLevel (getNode s t) j).subtreesize +
          (nodeLevel (getNode s e) j).subtreesize - (getNode s e).dl.Len ∧
        (∀ fn, (nodeLevel (getNode s e) j).next = some fn →
          (nodeLevel (getNode S4 fn) j).next = (nodeLevel (getNode s fn) j).next ∧
          (nodeLevel (getNode S4 fn) j).prev = t ∧
          (nodeLevel (getNode S4 fn) j).subtreesize =
            (nodeLevel (getNode s fn) j).subtreesize)) ∧
      (¬ j < (getNode s e).levels.length →
        (nodeLevel (getNode S4 t) j).next = (nodeLevel (getNode s t) j).next ∧
        (nodeLevel (getNode S4 t) j).subtreesize =
          (nodeLevel (getNode s t) j).subtreesize - (getNode s e).dl.Len)) by
    simp only [deleteIterState]
    split
    · refine H (updNode s e fun n => { n with iterRef := n.iterRef.map fun ir =>
          { ir with node := (nodeLevel (getNode s e) 0).prev } })
        (nodeLevel_updNode_keepLevels s e _ (fun n => rfl)) ?_ ?_ rfl _ rfl
      · intro m
        apply getNode_updNode_dl
        intro n
        rfl
      · intro m
        apply getNode_updNode_levLen
        intro n
        rfl
    · exact H s (fun _ _ => rfl) (fun _ => rfl) (fun _ => rfl) rfl _ rfl
  intro S1 hS1lv hS1dl hS1len hS1h S4 hS4
  set S2 : RopeImpl Id T :=
    { S1 with byId := eraseKey S1.byId (getNode s e).id,
              len := S1.len - (getNode s e).dl.Len } with hS2def
  have hS2lv : ∀ m k, nodeLevel (getNode S2 m) k = nodeLevel (getNode s m) k := hS1lv
  have hS2dl : ∀ m, (getNode S2 m).dl = (getNode s m).dl := hS1dl
  have hS2len : ∀ m, (getNode S2 m).levels.length = (getNode s m).levels.length := hS1len
  have hS2h : S2.height = s.height := hS1h
  have hrel : deleteRelink S2 e seek =
      (List.range' (j + 1) (s.height - j - 1)).foldl
        (fun s' i => deleteRelinkStep s' e seek i)
        (deleteRelinkStep
          ((List.range' 0 j).foldl (fun s' i => deleteRelinkStep s' e seek i) S2)
          e seek j) := by
    rw [deleteRelink, hS2h, range_split_at s.height j hj, List.foldl_append,
      List.foldl_cons]
  set sPre : RopeImpl Id T :=
    (List.range' 0 j).foldl (fun s' i => deleteRelinkStep s' e seek i) S2 with hsPre
  obtain ⟨f1, f2, f3⟩ := foldl_relinkStep_levFrame e seek j (List.range' 0 j) S2
    (fun x hx => by have := List.mem_range'_1.mp hx; omega)
  have g1 : ∀ m, nodeLevel (getNode sPre m) j = nodeLevel (getNode s m) j :=
    fun m => (f1 m).trans (hS2lv m j)
  have g2 : ∀ m, (getNode sPre m).dl = (getNode s m).dl :=
    fun m => (f2 m).trans (hS2dl m)
  have g3 : ∀ m, (getNode sPre m).levels.length = (getNode s m).levels.length :=
    fun m => (f3 m).trans (hS2len m)
  obtain ⟨A', B', C', D'⟩ := deleteRelinkStep_levSelf sPre e seek j t sbj hseekj
    (by rw [g3 t]; exact hjt) (by rw [g1 e]; exact hnxt)
    (fun fn hfn => by rw [g3 fn]; exact hjf fn (by rw [← g1 e]; exact hfn))
  set sMid : RopeImpl Id T := deleteRelinkStep sPre e seek j with hsMid
  obtain ⟨F1, F2, F3⟩ := foldl_relinkStep_levFrame e seek j
    (List.range' (j + 1) (s.height - j - 1)) sMid
    (fun x hx => by have := List.mem_range'_1.mp hx; omega)
  obtain ⟨t1, t2, t3, t4, t5, t6, t7⟩ := returnToPool_pres (deleteRelink S2 e seek) e
  have hfin : ∀ m, m ≠ e → nodeLevel (getNode S4 m) j = nodeLevel (getNode sMid m) j := by
    intro m hme
    rw [hS4, t6 m hme, hrel]
    exact F1 m
  refine ⟨?_, ?_, ?_, ?_⟩
  · intro m hmt hme hnxm
    rw [hfin m hme, A' m hmt (by rw [g1 e]; exact hnxm)]
    exact g1 m
  · rw [hfin t hte, B', g1 t]
  · intro hje
    have hjeP : j < (getNode sPre e).levels.length := by rw [g3 e]; exact hje
    obtain ⟨c1, c2, c3⟩ := C' hjeP
    refine ⟨?_, ?_, ?_⟩
    · rw [hfin t hte, c1, g1 e]
    · rw [hfin t hte, c2, g1 t, g1 e, g2 e]
    · intro fn hfn
      have hfnP : (nodeLevel (getNode sPre e) j).next = some fn := by
        rw [g1 e]
        exact hfn
      have hfne : fn ≠ e := fun hc => hnxe (hc ▸ hfn)
      obtain ⟨d1, d2, d3⟩ := c3 fn hfnP
      refine ⟨?_, ?_, ?_⟩
      · rw [hfin fn hfne, d1, g1 fn]
      · rw [hfin fn hfne, d2]
      · rw [hfin fn hfne, d3, g1 fn]
  · intro hje
    have hjeP : ¬ j < (getNode sPre e).levels.length := by rw [g3 e]; exact hje
    obtain ⟨d1, d2⟩ := D' hjeP
    refine ⟨?_, ?_⟩
    · rw [hfin t hte, d1, g1 t]
    · rw [hfin t hte, d2, g1 t, g2 e]

/-- Levels at or above the list height are untouched by a delete-loop
iteration body (away from the removed node). -/
theorem deleteIter_levHigh (s : RopeImpl Id T) (e : Nat) (seek : List (Nat × Int))
    (k : Nat) (hk : s.height ≤ k) (m : Nat) (hme : m ≠ e) :
    nodeLevel (getNode (deleteIterState s e seek) m) k =
      nodeLevel (getNode s m) k := by
  suffices H : ∀ (S1 : RopeImpl Id T),
      (∀ m' k', nodeLevel (getNode S1 m') k' = nodeLevel (getNode s m') k') →
      S1.height = s.height →
      ∀ S4, S4 = returnToPool (deleteRelink
        { S1 with byId := eraseKey S1.byId (getNode s e).id,
                  len := S1.len - (getNode s e).dl.Len } e seek) e →
      nodeLevel (getNode S4 m) k = nodeLevel (getNode s m) k by
    simp only [deleteIterState]
    split
    · exact H (updNode s e fun n => { n with iterRef := n.iterRef.map fun ir =>
          { ir with node := (nodeLevel (getNode s e) 0).prev } })
        (nodeLevel_updNode_keepLevels s e _ (fun n => rfl)) rfl _ rfl
    · exact H s (fun _ _ => rfl) rfl _ rfl
  intro S1 hS1lv hS1h S4 hS4
  set S2 : RopeImpl Id T :=
    { S1 with byId := eraseKey S1.byId (getNode s e).id,
              len := S1.len - (getNode s e).dl.Len } with hS2def
  obtain ⟨t1, t2, t3, t4, t5, t6, t7⟩ := returnToPool_pres (deleteRelink S2 e seek) e
  rw [hS4, t6 m hme, deleteRelink]
  obtain ⟨f1, f2, f3⟩ := foldl_relinkStep_levFrame e seek k (List.range S2.height) S2
    (fun x hx => by
      have hx' := List.mem_range.mp hx
      have : S2.height = s.height := hS1h
      omega)
  exact (f1 m).trans (hS1lv m k)

/-- `levTail` over a prefix with no level-`j` member keeps the start. -/
theorem levTail_all_nonmem (s : RopeImpl Id T) (j : Nat) :
    ∀ (U : List Nat) (p : Nat) (acc : Int),
      (∀ y ∈ U, ¬ j < (getNode s y).levels.length) →
      levTail s j p acc U = (p, acc + (U.map fun x => (getNode s x).dl.Len).sum)
  | [], p, acc, _ => by
    rw [levTail_nil]
    simp
  | q :: rest, p, acc, hU => by
    rw [levTail_cons_nonmem s j p q acc rest (hU q (List.mem_cons_self q rest)),
      levTail_all_nonmem s j rest p _ (fun y hy => hU y (List.mem_cons_of_mem _ hy))]
    simp only [List.map_cons, List.sum_cons, Prod.mk.injEq, true_and]
    ring

/-- `levTail` over a prefix splitting at a last level-`j` member. -/
theorem levTail_of_split (s : RopeImpl Id T) (j : Nat) (c : Nat) (Y : List Nat)
    (hc : j < (getNode s c).levels.length)
    (hY : ∀ y ∈ Y, ¬ j < (getNode s y).levels.length) :
    ∀ (X : List Nat) (p : Nat) (acc : Int),
      levTail s j p acc (X ++ c :: Y) =
        (c, (getNode s c).dl.Len + (Y.map fun x => (getNode s x).dl.Len).sum)
  | [], p, acc => by
    rw [List.nil_append, levTail_cons_mem s j p c acc Y hc,
      levTail_all_nonmem s j Y c _ hY]
  | q :: X', p, acc => by
    rw [List.cons_append]
    by_cases hq : j < (getNode s q).levels.length
    · rw [levTail_cons_mem s j p q acc _ hq]
      exact levTail_of_split s j c Y hc hY X' q _
    · rw [levTail_cons_nonmem s j p q acc _ hq]
      exact levTail_of_split s j c Y hc hY X' p _

/-- The seek phase computes the towers of the anchor: on success, slot `j` of
the seek list holds the last level-`j` member of the prefix `P` ending at the
anchor together with the length it accumulates through the anchor, and the
returned climb pair is the top-level tower. -/
theorem seekLoop_towers (r : RopeImpl Id T) (P C : List Nat) (z : Int)
    (hcap : ∀ q ∈ (0 : Nat) :: (P ++ C), (getNode r q).levels.length ≤ r.height)
    (hv1 : ∀ q ∈ (0 : Nat) :: (P ++ C), 1 ≤ (getNode r q).levels.length)
    (hhead : (getNode r 0).levels.length = r.height)
    (hLL : ∀ j, j < r.height → levLinked r j 0 z (P ++ C)) :
    ∀ (fuel : Nat) (seek : List (Nat × Int)) (i : Nat) (cs : Nat × Int),
      seek.length = r.height →
      (∀ j, j < i → seek.get? j = some (levTail r j 0 z P)) →
      i < r.height →
      i ≤ (getNode r cs.1).levels.length →
      ((cs.1 = 0 ∧ (∀ y ∈ P, (getNode r y).levels.length ≤ i) ∧
        cs.2 = z + (P.map fun x => (getNode r x).dl.Len).sum) ∨
       (∃ X1 Y, P = X1 ++ cs.1 :: Y ∧
        (∀ y ∈ Y, (getNode r y).levels.length ≤ i) ∧
        cs.2 = (getNode r cs.1).dl.Len + (Y.map fun x => (getNode r x).dl.Len).sum)) →
      ∀ sk1 cs1, seekLoop r fuel seek i cs = some (sk1, cs1) →
        cs1 = levTail r (r.height - 1) 0 z P ∧
        sk1.length = r.height ∧
        (∀ j, j < r.height → sk1.get? j = some (levTail r j 0 z P)) := by
  intro fuel
  induction fuel with
  | zero =>
    intro seek i cs _ _ _ _ _ sk1 cs1 h
    cases h
  | succ fuel ih =>
    intro seek i cs hlen hfill hi hile hinv sk1 cs1 h
    have hTj : ∀ j, i ≤ j → j < (getNode r cs.1).levels.length →
        levTail r j 0 z P = cs := by
      intro j hij hjlt
      rcases hinv with ⟨hc0, hbel, hval⟩ | ⟨X1, Y, hsplit, hbel, hval⟩
      · have hPc : levTail r j 0 z P =
            (0, z + (P.map fun x => (getNode r x).dl.Len).sum) :=
          levTail_all_nonmem r j P 0 z (fun y hy => by
            have := hbel y hy
            omega)
        rw [hPc, ← hval, ← hc0]
      · rw [hsplit, levTail_of_split r j cs.1 Y hjlt (fun y hy => by
          have := hbel y hy
          omega), ← hval]
    have hmemcs : cs.1 ∈ (0 : Nat) :: (P ++ C) := by
      rcases hinv with ⟨hc0, -, -⟩ | ⟨X1, Y, hsplit, -, -⟩
      · rw [hc0]
        exact List.mem_cons_self _ _
      · rw [hsplit]
        exact List.mem_cons_of_mem _ (List.mem_append_left _
          (List.mem_append_right _ (List.mem_cons_self _ _)))
    simp only [seekLoop] at h
    split at h
    · next hstop =>
      obtain ⟨rfl, rfl⟩ : setRange cs i (getNode r cs.1).levels.length seek = sk1 ∧
          cs = cs1 := by
        have h1 := Option.some.inj h
        exact ⟨congrArg Prod.fst h1, congrArg Prod.snd h1⟩
      have hnlH : (getNode r cs.1).levels.length = r.height := by
        rcases hstop with hc0 | hmax
        · rw [hc0, hhead]
        · have hle := hcap cs.1 hmemcs
          omega
      refine ⟨?_, ?_, ?_⟩
      · rw [hTj (r.height - 1) (by omega) (by omega)]
      · rw [length_setRange, hlen]
      · intro j hj
        rw [get?_setRange]
        by_cases hij : i ≤ j
        · rw [if_pos ⟨hij, by omega, by omega⟩, hTj j hij (by omega)]
        · rw [if_neg (by omega)]
          exact hfill j (by omega)
    · next hstop =>
      push_neg at hstop
      obtain ⟨hc0, hmax⟩ := hstop
      obtain ⟨X1, Y, hsplit, hbel, hval⟩ :
          ∃ X1 Y, P = X1 ++ cs.1 :: Y ∧
            (∀ y ∈ Y, (getNode r y).levels.length ≤ i) ∧
            cs.2 = (getNode r cs.1).dl.Len +
              (Y.map fun x => (getNode r x).dl.Len).sum := by
        rcases hinv with ⟨hcc, -, -⟩ | hr
        · exact absurd hcc hc0
        · exact hr
      have hnl1 : 1 ≤ (getNode r cs.1).levels.length := hv1 cs.1 hmemcs
      set nl : Nat := (getNode r cs.1).levels.length with hnl
      have hi1 : max i nl = nl := by omega
      rw [hi1] at h
      have hnlH : nl ≤ r.height := hcap cs.1 hmemcs
      have hnlltH : nl < r.height := by
        rcases Nat.lt_or_ge nl r.height with hlt | hge
        · exact hlt
        · exact absurd (by omega : max i nl = r.height) hmax
      have hlk : nl - 1 < r.height := by omega
      have hfull : P ++ C = X1 ++ cs.1 :: (Y ++ C) := by
        rw [hsplit, List.append_assoc, List.cons_append]
      obtain ⟨hm1, hm2, hm3⟩ := levLinked_at_mem r (nl - 1) cs.1 (Y ++ C)
        (by omega) X1 0 z (by rw [← hfull]; exact hLL (nl - 1) hlk)
      rw [hm2, hm3] at h
      set c2 : Nat := (levTail r (nl - 1) 0 z X1).1 with hc2
      rcases levTail_spec r (nl - 1) X1 0 z with ⟨hs1, hs2, hs3⟩ |
        ⟨U1, U2, hs1, hs2, hs3, hs4⟩
      · refine ih _ nl (c2, cs.2 + (levTail r (nl - 1) 0 z X1).2)
          (by rw [length_setRange, hlen]) ?_ hnlltH ?_ ?_ sk1 cs1 h
        · intro j hj
          rw [get?_setRange]
          by_cases hij : i ≤ j
          · rw [if_pos ⟨hij, by omega, by omega⟩, hTj j hij (by omega)]
          · rw [if_neg (by omega)]
            exact hfill j (by omega)
        · show nl ≤ (getNode r c2).levels.length
          rw [hc2, hs1, hhead]
          exact hnlH
        · left
          refine ⟨by rw [hc2]; exact hs1, ?_, ?_⟩
          · intro y hy
            rw [hsplit] at hy
            rcases List.mem_append.mp hy with hy1 | hy2
            · have := hs2 y hy1
              omega
            · rcases List.mem_cons.mp hy2 with rfl | hy3
              · omega
              · have := hbel y hy3
                omega
          · show cs.2 + (levTail r (nl - 1) 0 z X1).2 = _
            rw [hs3, hval, hsplit]
            simp only [List.map_append, List.sum_append, List.map_cons, List.sum_cons]
            ring
      · refine ih _ nl (c2, cs.2 + (levTail r (nl - 1) 0 z X1).2)
          (by rw [length_setRange, hlen]) ?_ hnlltH ?_ ?_ sk1 cs1 h
        · intro j hj
          rw [get?_setRange]
          by_cases hij : i ≤ j
          · rw [if_pos ⟨hij, by omega, by omega⟩, hTj j hij (by omega)]
          · rw [if_neg (by omega)]
            exact hfill j (by omega)
        · show nl ≤ (getNode r c2).levels.length
          rw [hc2]
          omega
        · right
          have hX1 : X1 = U1 ++ c2 :: U2 := by
            rw [hc2]
            exact hs1
          refine ⟨U1, U2 ++ cs.1 :: Y, ?_, ?_, ?_⟩
          · show P = U1 ++ c2 :: (U2 ++ cs.1 :: Y)
            rw [hsplit, hX1]
            simp [List.append_assoc]
          · intro y hy
            rcases List.mem_append.mp hy with hy1 | hy2
            · have := hs3 y hy1
              omega
            · rcases List.mem_cons.mp hy2 with rfl | hy3
              · omega
              · have := hbel y hy3
                omega
          · show cs.2 + (levTail r (nl - 1) 0 z X1).2 = _
            rw [hc2, hs4]
            simp only [List.map_append, List.sum_append, List.map_cons, List.sum_cons]
            rw [hval]
            ring

/-- Reading a level beyond a node's height gives the zero record. -/
theorem nodeLevel_oor (n : RopeNode Id T) (j : Nat)
    (h : ¬ j < n.levels.length) : nodeLevel n j = default := by
  rw [nodeLevel, List.get?_eq_none.mpr (by omega)]
  rfl

/-- At level 0 every entry is a member, so `levTail` lands on the last entry. -/
theorem levTail_level0 (r : RopeImpl Id T) :
    ∀ (U : List Nat) (p : Nat) (acc : Int),
      (∀ q ∈ U, 1 ≤ (getNode r q).levels.length) →
      (levTail r 0 p acc U).1 = U.getLastD p
  | [], p, acc, _ => rfl
  | q :: rest, p, acc, hv => by
    rw [levTail_cons_mem r 0 p q acc rest (hv q (List.mem_cons_self q rest)),
      List.getLastD_cons]
    exact levTail_level0 r rest q _ (fun x hx => hv x (List.mem_cons_of_mem _ hx))

/-- The level-0 reading of `levLinked`: the run is the successor chain and it
ends in a nil pointer. -/
theorem levLinked0_chainSeg (r : RopeImpl Id T) :
    ∀ (V : List Nat) (p : Nat) (acc : Int),
      (∀ q ∈ V, 1 ≤ (getNode r q).levels.length) →
      levLinked r 0 p acc V →
      chainSeg r p V ∧ next0 r (V.getLastD p) = none
  | [], p, acc, _, h => ⟨trivial, h.1⟩
  | q :: rest, p, acc, hv, h => by
    rw [levLinked_cons_mem r 0 p q acc rest (hv q (List.mem_cons_self q rest))] at h
    have ih := levLinked0_chainSeg r rest q ((getNode r q).dl.Len)
      (fun x hx => hv x (List.mem_cons_of_mem _ hx)) h.2.2.2
    exact ⟨⟨h.1, ih.1⟩, by rw [List.getLastD_cons]; exact ih.2⟩

/-- A terminated level-0 successor chain from a node is unique. -/
theorem chainSeg_unique (r : RopeImpl Id T) :
    ∀ (L1 L2 : List Nat) (a : Nat),
      chainSeg r a L1 → next0 r (L1.getLastD a) = none →
      chainSeg r a L2 → next0 r (L2.getLastD a) = none → L1 = L2
  | [], [], a, _, _, _, _ => rfl
  | [], e :: L2', a, _, h1, h2, _ => by
    rw [List.getLastD_nil] at h1
    exact absurd h2.1 (by rw [h1]; simp)
  | e :: L1', [], a, h1, _, _, h2 => by
    rw [List.getLastD_nil] at h2
    exact absurd h1.1 (by rw [h2]; simp)
  | e :: L1', e' :: L2', a, h1, h1l, h2, h2l => by
    obtain rfl : e = e' := by
      have := h1.1.symm.trans h2.1
      exact Option.some.inj this
    rw [chainSeg_unique r L1' L2' e h1.2 (by rw [List.getLastD_cons] at h1l; exact h1l)
      h2.2 (by rw [List.getLastD_cons] at h2l; exact h2l)]

end LevToolkit

end Thorgo
